import Mathlib

/-!
# Verification of the sparta-matching library

A shallow embedding, in Lean 4, of the core of the `sparta-matching`
TypeScript library: the preference-entity model (`Player`, `Hospital`,
`Project`, `Supervisor`), the deferred-acceptance algorithms
(`stableMarriage`, `hospitalResident`, `stableRoommates`) and the
game-level stability checkers, together with theorems settling the
specification's claims about them.

Entities are identified by natural numbers (names are kept as strings
where a claim needs them).  JavaScript arrays used as worklists are
modelled as Lean lists in the same order: `push` appends at the end,
`pop` removes the last element, `indexOf`/`splice` removes the first
occurrence.  JavaScript `Array.prototype.sort` (stable since ES2019)
is modelled as a stable insertion sort.  A run that would dereference
`null`/`undefined` in JavaScript is modelled as an error outcome.
-/

namespace SpartaMatching

/-! ## JavaScript array semantics helpers -/

/-- `arr.pop()` on a JS array: remove and return the *last* element.
Returns the remaining array and the popped element. -/
def jsPop {α : Type} : List α → Option (List α × α)
  | [] => none
  | [x] => some ([], x)
  | x :: y :: xs =>
    match jsPop (y :: xs) with
    | none => none
    | some (rest, last) => some (x :: rest, last)

/-- `arr.push(x)`: append at the end. -/
def jsPush {α : Type} (l : List α) (x : α) : List α := l ++ [x]

/-- `arr.splice(arr.indexOf(x), 1)`: remove the first occurrence of `x`. -/
def jsRemoveFirst : List Nat → Nat → List Nat
  | [], _ => []
  | y :: ys, x => if y = x then ys else y :: jsRemoveFirst ys x

/-- First index of `x` in `l`, if present. -/
def findIdx : List Nat → Nat → Option Nat
  | [], _ => none
  | y :: ys, x => if y = x then some 0 else (findIdx ys x).map (· + 1)

/-- `arr.indexOf(x)` on a JS array: first index, or `-1` when absent. -/
def jsIndexOf (l : List Nat) (x : Nat) : Int :=
  match findIdx l x with
  | none => -1
  | some i => (i : Int)

/-- `arr.slice(i + 1)` where `i : Int` may be `-1` (then the whole
array is returned, matching `slice(0)`). -/
def jsSliceAfter (l : List Nat) (i : Int) : List Nat :=
  l.drop (i + 1).toNat

/-- Insert `x` into `l` after every element whose key is `≤` the key of
`x`: the insertion step of a stable insertion sort. -/
def sInsert (key : Nat → Int) (x : Nat) : List Nat → List Nat
  | [] => [x]
  | y :: ys => if key y ≤ key x then y :: sInsert key x ys else x :: y :: ys

/-- Stable sort by an integer key, modelling `arr.sort((a, b) => key(a) - key(b))`
(ES2019 requires `Array.prototype.sort` to be stable). -/
def jsSortByKey (key : Nat → Int) (l : List Nat) : List Nat :=
  l.foldl (fun acc x => sInsert key x acc) []

/-- Outcome of running a worklist loop under fuel: a normal result, a
runtime error (a JS `null`/`undefined` dereference), or fuel exhaustion
carrying the last committed state. -/
inductive Res (σ : Type) where
  | ok (s : σ)
  | err
  | timeout (s : σ)
deriving Repr, DecidableEq

/-! ### Basic lemmas about the helpers -/

theorem jsPop_append_singleton {α : Type} (l : List α) (x : α) :
    jsPop (l ++ [x]) = some (l, x) := by
  induction l with
  | nil => rfl
  | cons a l ih =>
    cases l with
    | nil => simp [jsPop]
    | cons b l' =>
      show (match jsPop ((b :: l') ++ [x]) with
            | none => none
            | some (rest, last) => some (a :: rest, last)) = _
      rw [ih]

theorem jsPop_eq_some {α : Type} {l rest : List α} {x : α}
    (h : jsPop l = some (rest, x)) : l = rest ++ [x] := by
  induction l generalizing rest with
  | nil => simp [jsPop] at h
  | cons a l ih =>
    cases l with
    | nil =>
      simp [jsPop] at h
      simp [h.1, h.2]
    | cons b l' =>
      simp only [jsPop] at h
      cases hrec : jsPop (b :: l') with
      | none => rw [hrec] at h; simp at h
      | some p =>
        rw [hrec] at h
        simp at h
        obtain ⟨h1, h2⟩ := h
        rcases p with ⟨rest', last'⟩
        cases h1
        cases h2
        simpa using (ih hrec)

theorem jsRemoveFirst_subset (l : List Nat) (x : Nat) :
    ∀ y ∈ jsRemoveFirst l x, y ∈ l := by
  induction l with
  | nil => intro y hy; simp [jsRemoveFirst] at hy
  | cons a l ih =>
    intro y hy
    simp only [jsRemoveFirst] at hy
    by_cases hax : a = x
    · simp [hax] at hy
      exact List.mem_cons_of_mem _ hy
    · simp [hax] at hy
      rcases hy with h | h
      · simp [h]
      · exact List.mem_cons_of_mem _ (ih y h)

theorem jsRemoveFirst_nodup {l : List Nat} (x : Nat) (h : l.Nodup) :
    (jsRemoveFirst l x).Nodup := by
  induction l with
  | nil => simp [jsRemoveFirst]
  | cons a l ih =>
    simp only [jsRemoveFirst]
    rcases List.nodup_cons.mp h with ⟨ha, hl⟩
    by_cases hax : a = x
    · simpa [hax] using hl
    · simp only [hax, if_false, List.nodup_cons]
      exact ⟨fun hc => ha (jsRemoveFirst_subset l x a hc), ih hl⟩

theorem sInsert_perm (key : Nat → Int) (x : Nat) (l : List Nat) :
    (sInsert key x l).Perm (x :: l) := by
  induction l with
  | nil => simp [sInsert]
  | cons y ys ih =>
    simp only [sInsert]
    by_cases h : key y ≤ key x
    · simp only [h, if_true]
      exact (ih.cons y).trans (List.Perm.swap x y ys)
    · simp [h]

theorem jsSortByKey_perm (key : Nat → Int) (l : List Nat) :
    (jsSortByKey key l).Perm l := by
  suffices h : ∀ acc : List Nat,
      (l.foldl (fun acc x => sInsert key x acc) acc).Perm (acc ++ l) by
    simpa using h []
  induction l with
  | nil => intro acc; simp
  | cons x xs ih =>
    intro acc
    simp only [List.foldl_cons]
    refine (ih (sInsert key x acc)).trans ?_
    have h1 : (sInsert key x acc ++ xs).Perm ((x :: acc) ++ xs) :=
      (sInsert_perm key x acc).append_right xs
    refine h1.trans ?_
    simp only [List.cons_append]
    exact (List.perm_middle).symm

theorem sInsert_sorted (key : Nat → Int) (x : Nat) (l : List Nat)
    (h : l.Pairwise (fun a b => key a ≤ key b)) :
    (sInsert key x l).Pairwise (fun a b => key a ≤ key b) := by
  induction l with
  | nil => simp [sInsert]
  | cons y ys ih =>
    rcases List.pairwise_cons.mp h with ⟨hy, hys⟩
    simp only [sInsert]
    by_cases hle : key y ≤ key x
    · simp only [hle, if_true, List.pairwise_cons]
      refine ⟨?_, ih hys⟩
      intro b hb
      have := (sInsert_perm key x ys).mem_iff.mp hb
      rcases List.mem_cons.mp this with h1 | h1
      · exact h1 ▸ hle
      · exact hy b h1
    · simp only [hle, if_false, List.pairwise_cons]
      push_neg at hle
      refine ⟨?_, hy, hys⟩
      intro b hb
      rcases List.mem_cons.mp hb with h1 | h1
      · exact h1 ▸ hle.le
      · exact le_trans hle.le (hy b h1)

theorem jsSortByKey_sorted (key : Nat → Int) (l : List Nat) :
    (jsSortByKey key l).Pairwise (fun a b => key a ≤ key b) := by
  suffices h : ∀ acc : List Nat, acc.Pairwise (fun a b => key a ≤ key b) →
      (l.foldl (fun acc x => sInsert key x acc) acc).Pairwise
        (fun a b => key a ≤ key b) by
    exact h [] (by simp)
  induction l with
  | nil => intro acc hacc; simpa using hacc
  | cons x xs ih =>
    intro acc hacc
    simp only [List.foldl_cons]
    exact ih _ (sInsert_sorted key x acc hacc)

/-! ## Preference entities

`Player` (src/players/player.ts) is the single-match entity;
`Hospital` (src/players/hospital.ts) the capacitated one.  `Project`
inherits `Hospital.setPrefs` unchanged; `Supervisor`
(src/players/supervisor.ts) overrides it.  Entities referenced in
preference lists are identified by `Nat`. -/

/-- State of a single-match `Player`: current preferences, preference
names cache, current match and the original-preferences snapshot
(`_originalPrefs`, `null` until the first `setPrefs`). -/
structure PlayerEnt where
  prefs : List Nat
  prefNames : List Nat
  matching : Option Nat
  originalPrefs : Option (List Nat)
deriving Repr, DecidableEq

/-- State of a capacitated entity (`Hospital`, and `Project` which
inherits its `setPrefs`/`_match`). -/
structure HospitalEnt where
  capacity : Nat
  prefs : List Nat
  prefNames : List Nat
  matching : List Nat
  originalPrefs : Option (List Nat)
deriving Repr, DecidableEq

/-- `Player.setPrefs` / `Hospital.setPrefs`: replace `prefs`, and fix
`_originalPrefs` only when it is still `null`. -/
def playerSetPrefs (e : PlayerEnt) (players : List Nat) : PlayerEnt :=
  { e with
    prefs := players
    prefNames := players
    originalPrefs :=
      match e.originalPrefs with
      | none => some players
      | some o => some o }

/-- `Hospital.setPrefs`: same first-call-only snapshot logic. -/
def hospitalSetPrefs (e : HospitalEnt) (players : List Nat) : HospitalEnt :=
  { e with
    prefs := players
    prefNames := players
    originalPrefs :=
      match e.originalPrefs with
      | none => some players
      | some o => some o }

/-- `Player._forget` / `Hospital._forget`: drop `other` from `prefs`. -/
def playerForget (e : PlayerEnt) (other : Nat) : PlayerEnt :=
  { e with prefs := e.prefs.filter (fun p => p ≠ other) }

/-- `Player._match` / `Player._unmatch`. -/
def playerMatchOp (e : PlayerEnt) (other : Nat) : PlayerEnt :=
  { e with matching := some other }

def playerUnmatchOp (e : PlayerEnt) : PlayerEnt :=
  { e with matching := none }

/-- The matching-list update of `Hospital._match` (and the identical
first two lines of `Project._match`): push the resident, then
`sort((a, b) => this.prefs.indexOf(a) - this.prefs.indexOf(b))`. -/
def hospMatchList (prefs matching : List Nat) (resident : Nat) : List Nat :=
  jsSortByKey (fun a => jsIndexOf prefs a) (jsPush matching resident)

/-- `Hospital._match` on the whole entity. -/
def hospitalMatchOp (e : HospitalEnt) (resident : Nat) : HospitalEnt :=
  { e with matching := hospMatchList e.prefs e.matching resident }

/-- `Hospital._unmatch`: remove the resident from `matching`. -/
def hospitalUnmatchOp (e : HospitalEnt) (resident : Nat) : HospitalEnt :=
  { e with matching := e.matching.filter (fun p => p ≠ resident) }

/-- `Hospital._forget`. -/
def hospitalForget (e : HospitalEnt) (other : Nat) : HospitalEnt :=
  { e with prefs := e.prefs.filter (fun p => p ≠ other) }

/-- `Hospital.getWorstMatch`: the last element of `matching`, or `null`
when it is empty. -/
def hospGetWorstMatch (matching : List Nat) : Option Nat :=
  if matching.length = 0 then none else matching.getLast?

/-- `Hospital.getSuccessors`: entries of `prefs` strictly after the
worst current match. -/
def hospGetSuccessors (prefs matching : List Nat) : List Nat :=
  match hospGetWorstMatch matching with
  | none => []
  | some w => jsSliceAfter prefs (jsIndexOf prefs w)

/-- `Player.getSuccessors`: entries of `prefs` strictly after the
current match. -/
def playerGetSuccessors (prefs : List Nat) (matching : Option Nat) : List Nat :=
  match matching with
  | none => []
  | some m => jsSliceAfter prefs (jsIndexOf prefs m)

/-- `Player.prefers` / `Hospital.prefers`: compares positions in
`_originalPrefs`; throws (`none`) when preferences were never set. -/
def prefersOpt (originalPrefs : Option (List Nat)) (a b : Nat) : Option Bool :=
  match originalPrefs with
  | none => none
  | some o => some (decide (jsIndexOf o a < jsIndexOf o b))

/-- State of a `Supervisor` for the `setPrefs` override (which, unlike
`Player.setPrefs`/`Hospital.setPrefs`, rewrites `_originalPrefs` on
*every* call and propagates preferences to the supervisor's projects). -/
structure SupervisorEnt where
  prefs : List Nat
  prefNames : List Nat
  originalPrefs : Option (List Nat)
deriving Repr, DecidableEq

/-- `Supervisor.setPrefs` (src/players/supervisor.ts, lines 40-51):
`this._originalPrefs = [...students]` unconditionally, then each owned
project receives the sublist of students that ranked it.
`studentPrefs s` is the preference list (project ids) of student `s`. -/
def supervisorSetPrefs (sup : SupervisorEnt) (projects : List (Nat × HospitalEnt))
    (studentPrefs : Nat → List Nat) (students : List Nat) :
    SupervisorEnt × List (Nat × HospitalEnt) :=
  ({ sup with
      prefs := students
      prefNames := students
      originalPrefs := some students },
   projects.map (fun pr =>
     (pr.1, hospitalSetPrefs pr.2 (students.filter (fun s => pr.1 ∈ studentPrefs s)))))

/-! ### Rank and index lemmas for the sortedness invariant (C7) -/

/-- Rank of `x` in `l` (its first index, with the length as default for
absent elements; the default is irrelevant for members). -/
def rankIn (l : List Nat) (x : Nat) : Nat :=
  (findIdx l x).getD l.length

theorem findIdx_eq_none_iff {l : List Nat} {x : Nat} :
    findIdx l x = none ↔ x ∉ l := by
  induction l with
  | nil => simp [findIdx]
  | cons y ys ih =>
    simp only [findIdx, List.mem_cons]
    by_cases h : y = x
    · simp [h]
    · simp only [h, if_false, Option.map_eq_none']
      rw [ih]
      constructor
      · intro hx hc
        rcases hc with hc | hc
        · exact h hc.symm
        · exact hx hc
      · intro hx
        exact fun hc => hx (Or.inr hc)

theorem findIdx_isSome_of_mem {l : List Nat} {x : Nat} (h : x ∈ l) :
    ∃ i, findIdx l x = some i := by
  cases hf : findIdx l x with
  | none => exact absurd h (findIdx_eq_none_iff.mp hf)
  | some i => exact ⟨i, rfl⟩

theorem jsIndexOf_of_mem {l : List Nat} {x : Nat} (h : x ∈ l) :
    jsIndexOf l x = (rankIn l x : Int) := by
  obtain ⟨i, hi⟩ := findIdx_isSome_of_mem h
  simp [jsIndexOf, rankIn, hi]

theorem rankIn_cons_self (y : Nat) (l : List Nat) : rankIn (y :: l) y = 0 := by
  simp [rankIn, findIdx]

theorem rankIn_cons_ne {y x : Nat} (l : List Nat) (h : y ≠ x) (hx : x ∈ l) :
    rankIn (y :: l) x = rankIn l x + 1 := by
  obtain ⟨i, hi⟩ := findIdx_isSome_of_mem hx
  simp [rankIn, findIdx, h, hi]

/-- In a duplicate-free list, relative order of two members is the same
in any sublist containing them. -/
theorem rankIn_sublist_mono {s l : List Nat} (hsub : s.Sublist l)
    (hnd : l.Nodup) {a b : Nat} (ha : a ∈ s) (hb : b ∈ s) :
    rankIn s a ≤ rankIn s b ↔ rankIn l a ≤ rankIn l b := by
  induction hsub with
  | slnil => cases ha
  | cons y h ih =>
    rcases List.nodup_cons.mp hnd with ⟨hy, hndl⟩
    have hay : y ≠ a := fun hc => hy (hc ▸ h.subset ha)
    have hby : y ≠ b := fun hc => hy (hc ▸ h.subset hb)
    rw [rankIn_cons_ne _ hay (h.subset ha), rankIn_cons_ne _ hby (h.subset hb)]
    simpa using ih hndl ha hb
  | cons₂ y h ih =>
    rcases List.nodup_cons.mp hnd with ⟨hy, hndl⟩
    rename_i s' l'
    by_cases hay : y = a
    · subst hay
      simp [rankIn_cons_self]
    · have ha' : a ∈ s' := by
        rcases List.mem_cons.mp ha with hc | hc
        · exact absurd hc.symm hay
        · exact hc
      by_cases hby : y = b
      · subst hby
        rw [rankIn_cons_self, rankIn_cons_self, rankIn_cons_ne _ hay ha',
            rankIn_cons_ne _ hay (h.subset ha')]
        omega
      · have hb' : b ∈ s' := by
          rcases List.mem_cons.mp hb with hc | hc
          · exact absurd hc.symm hby
          · exact hc
        rw [rankIn_cons_ne _ hay ha', rankIn_cons_ne _ hby hb',
            rankIn_cons_ne _ hay (h.subset ha'), rankIn_cons_ne _ hby (h.subset hb')]
        simpa using ih hndl ha' hb'

theorem pairwise_rel_getLast {R : Nat → Nat → Prop} (hrefl : ∀ x, R x x) :
    ∀ {l : List Nat}, l.Pairwise R → ∀ {w}, l.getLast? = some w →
      ∀ x ∈ l, R x w := by
  intro l
  induction l with
  | nil => intro _ w hw; simp at hw
  | cons y ys ih =>
    intro hp w hw x hx
    rcases List.pairwise_cons.mp hp with ⟨hy, hys⟩
    cases ys with
    | nil =>
      simp at hw
      rcases List.mem_singleton.mp hx with rfl
      exact hw ▸ hrefl x
    | cons z zs =>
      have hw' : (z :: zs).getLast? = some w := by
        simpa [List.getLast?] using hw
      rcases List.mem_cons.mp hx with rfl | hx'
      · obtain ⟨hne, hwl⟩ := List.mem_getLast?_eq_getLast (by simpa using hw')
        exact hy w (hwl ▸ List.getLast_mem hne)
      · exact ih hys hw' x hx'

/-! ## Stable Roommates (src/algorithms/stable-roommates.ts)

One party of single-match players.  `prefs` holds every player's
current list, `matching` the `Player.matching` field.  The worklist and
the deletion-driven shrinkage follow the source line by line. -/

/-- Shared mutable state of all SR/SM players. -/
structure SRState where
  prefs : Nat → List Nat
  matching : Nat → Option Nat

/-- `Player._forget(other)` applied to player `p` inside the state. -/
def srForget (s : SRState) (p other : Nat) : SRState :=
  { s with prefs := Function.update s.prefs p ((s.prefs p).filter (fun q => q ≠ other)) }

/-- `deletePair(player, other)` (src/algorithms/util.ts): both players
forget each other. -/
def srDeletePair (s : SRState) (p other : Nat) : SRState :=
  srForget (srForget s p other) other p

/-- `favourite._unmatch()` / `favourite._match(player)`. -/
def srSetMatch (s : SRState) (p : Nat) (m : Option Nat) : SRState :=
  { s with matching := Function.update s.matching p m }

/-- The deletion loop at the end of a `firstPhase` step: for each
successor (snapshot), `deletePair(successor, favourite)`, and drop the
successor from the free list if its preferences emptied. -/
def srPhase1Deletions (favourite : Nat) :
    List Nat → SRState → List Nat → SRState × List Nat
  | [], s, free => (s, free)
  | succ :: rest, s, free =>
    let s' := srDeletePair s succ favourite
    let free' :=
      if (s'.prefs succ).length = 0 ∧ succ ∈ free
      then jsRemoveFirst free succ else free
    srPhase1Deletions favourite rest s' free'

/-- One accepted proposal of `firstPhase`: unmatch the favourite's
current partner (pushing it back on the free list), match the favourite
to the proposer, and run the successor-deletion loop.  Returns the new
state and free list. -/
def srPhase1Step (favourite player : Nat) (rest : List Nat) (s : SRState) :
    SRState × List Nat :=
  let step :=
    match s.matching favourite with
    | none => (s, rest)
    | some current => (srSetMatch s favourite none, jsPush rest current)
  let s2 := srSetMatch step.1 favourite (some player)
  let succs := playerGetSuccessors (s2.prefs favourite) (s2.matching favourite)
  srPhase1Deletions favourite succs s2 step.2

/-- `firstPhase`: the proposal phase of Irving's algorithm, fuelled.
`none` means the fuel ran out. -/
def srPhase1 : Nat → List Nat → SRState → Option SRState
  | 0, _, _ => none
  | fuel + 1, free, s =>
    match jsPop free with
    | none => some s
    | some (rest, player) =>
      match s.prefs player with
      | [] => srPhase1 fuel rest s
      | favourite :: _ =>
        srPhase1 fuel (srPhase1Step favourite player rest s).2
          (srPhase1Step favourite player rest s).1

/-- The cycle-tracing loop of `locateAllOrNothingCycle`. Returns the
final `lasts`, `seconds` and `current`. -/
def srLocateCycleLoop : Nat → SRState → Nat → List Nat → List Nat →
    Option (List Nat × List Nat × Nat)
  | 0, _, _, _, _ => none
  | fuel + 1, s, current, lasts, seconds =>
    match (s.prefs current).get? 1 with
    | none => some (lasts, seconds, current)
    | some secondBest =>
      match (s.prefs secondBest).getLast? with
      | none => some (lasts, seconds, current)
      | some theirWorst =>
        let seconds' := jsPush seconds secondBest
        let lasts' := jsPush lasts theirWorst
        if lasts'.count theirWorst > 1 then some (lasts', seconds', theirWorst)
        else srLocateCycleLoop fuel s theirWorst lasts' seconds'

/-- The pairs `(lasts[i], seconds[i-1])` for `i` from `indexOf(current)+1`
to the end of `lasts`. -/
def cyclePairs (lasts seconds : List Nat) (idx : Int) : List (Nat × Nat) :=
  (List.range lasts.length).filterMap (fun (i : Nat) =>
    if idx + 1 ≤ (i : Int) then
      match lasts.get? i, seconds.get? (i - 1) with
      | some x, some y => some (x, y)
      | _, _ => none
    else none)

/-- `locateAllOrNothingCycle(player)`. -/
def srLocateCycle (fuel : Nat) (s : SRState) (player : Nat) :
    Option (List (Nat × Nat)) :=
  match srLocateCycleLoop fuel s player [player] [] with
  | none => none
  | some (lasts, seconds, current) =>
    some (cyclePairs lasts seconds (jsIndexOf lasts current))

/-- `getPairsToDelete(cycle)`: successors of `x_{i-1}` in `y_i`'s list,
deduplicated as unordered pairs. -/
def srPairsToDelete (s : SRState) (cycle : List (Nat × Nat)) : List (Nat × Nat) :=
  (List.range cycle.length).foldl (fun pairs i =>
    let right := (cycle.getD i (0, 0)).2
    let leftIdx := (((i : Int) - 1 + cycle.length) % (cycle.length : Int)).toNat
    let left := (cycle.getD leftIdx (0, 0)).1
    let succs := jsSliceAfter (s.prefs right) (jsIndexOf (s.prefs right) left)
    succs.foldl (fun ps succ =>
      if ps.contains (right, succ) || ps.contains (succ, right) then ps
      else jsPush ps (right, succ)) pairs) []

/-- One rotation-elimination iteration's deletions. -/
def srApplyDeletions (s : SRState) : List (Nat × Nat) → SRState
  | [] => s
  | (p, other) :: rest => srApplyDeletions (srDeletePair s p other) rest

/-- The `while (player)` loop of `secondPhase`.  The `Bool` records
whether the no-stable-matching diagnostic fired (the loop then breaks). -/
def srPhase2Loop : Nat → List Nat → SRState → Option (SRState × Bool)
  | 0, _, _ => none
  | fuel + 1, players, s =>
    match players.find? (fun p => (s.prefs p).length > 1) with
    | none => some (s, false)
    | some player =>
      match srLocateCycle (fuel + 1) s player with
      | none => none
      | some cycle =>
        let s' := srApplyDeletions s (srPairsToDelete s cycle)
        if players.any (fun p => (s'.prefs p).length = 0) then some (s', true)
        else srPhase2Loop fuel players s'

/-- The final-matching loop at the end of `secondPhase`: unmatch
everyone, then match each player one-way to the head of their list. -/
def srFinalMatching (players : List Nat) (s : SRState) : SRState :=
  players.foldl (fun st p =>
    let st1 := srSetMatch st p none
    match st1.prefs p with
    | [] => st1
    | f :: _ => srSetMatch st1 p (some f)) s

/-- `stableRoommates(players)`: phase 1, the post-phase-1 diagnostic,
and phase 2 when some player still has more than one preference.  The
`Bool` is true iff `warnNoStableMatching` fired at least once. -/
def srSolve (fuel : Nat) (players : List Nat) (s : SRState) :
    Option (SRState × Bool) :=
  match srPhase1 fuel players s with
  | none => none
  | some s1 =>
    let warned1 := players.any (fun p => (s1.prefs p).length = 0)
    if players.any (fun p => (s1.prefs p).length > 1) then
      match srPhase2Loop fuel players s1 with
      | none => none
      | some (s2, warned2) =>
        some (srFinalMatching players s2, warned1 || warned2)
    else some (s1, warned1)

/-- `Player.prefers` with preferences known to be set (the game
constructor always sets them): position comparison in `_originalPrefs`. -/
def srPrefers (orig : Nat → List Nat) (p a b : Nat) : Bool :=
  jsIndexOf (orig p) a < jsIndexOf (orig p) b

/-- `StableRoommates.checkStability`: `false` (without recording pairs)
if any container value is `null`; otherwise collect the mutually
preferring pairs, skipping a pair whose reverse was already recorded. -/
def srCheckStability (players : List Nat) (orig : Nat → List Nat)
    (s : SRState) : Bool × Option (List (Nat × Nat)) :=
  if (players.map s.matching).contains none then (false, none)
  else
    let pairs := players.foldl (fun acc player =>
      (players.filter (fun q => q ≠ player)).foldl (fun acc2 other =>
        if acc2.contains (other, player) then acc2
        else
          match s.matching player, s.matching other with
          | some mp, some mo =>
            if srPrefers orig player other mp && srPrefers orig other player mo
            then jsPush acc2 (player, other) else acc2
          | _, _ => acc2) acc) []
    (pairs.length = 0, some pairs)

/-! ## Hospital-Resident (src/algorithms/hospital-resident.ts)

Residents and hospitals are identified by `Nat` in disjoint ranges
chosen by the instance.  `_originalPrefs` fields are carried but never
touched by the algorithm (they are read only by `prefers`). -/

structure HRState where
  rprefs : Nat → List Nat
  rmatch : Nat → Option Nat
  hprefs : Nat → List Nat
  hmatching : Nat → List Nat
  capacity : Nat → Nat
  rorig : Nat → Option (List Nat)
  horig : Nat → Option (List Nat)

/-- `matchPair(resident, hospital)`: `resident._match` plus
`Hospital._match` (push then stable sort by current `prefs` position). -/
def hrMatchPair (s : HRState) (r h : Nat) : HRState :=
  { s with
    rmatch := Function.update s.rmatch r (some h)
    hmatching := Function.update s.hmatching h
      (hospMatchList (s.hprefs h) (s.hmatching h) r) }

/-- `unmatchPair(resident, hospital)`. -/
def hrUnmatchPair (s : HRState) (r h : Nat) : HRState :=
  { s with
    rmatch := Function.update s.rmatch r none
    hmatching := Function.update s.hmatching h
      ((s.hmatching h).filter (fun p => p ≠ r)) }

/-- `deletePair(hospital, successor)` as used in `residentOptimal`. -/
def hrDeletePair (s : HRState) (h r : Nat) : HRState :=
  { s with
    hprefs := Function.update s.hprefs h ((s.hprefs h).filter (fun p => p ≠ r))
    rprefs := Function.update s.rprefs r ((s.rprefs r).filter (fun p => p ≠ h)) }

/-- The successor-deletion loop of `residentOptimal` (with removal of
now-empty residents from the free list). -/
def hrResDeletions (h : Nat) :
    List Nat → HRState → List Nat → HRState × List Nat
  | [], s, free => (s, free)
  | succ :: rest, s, free =>
    let s' := hrDeletePair s h succ
    let free' :=
      if (s'.rprefs succ).length = 0 ∧ succ ∈ free
      then jsRemoveFirst free succ else free
    hrResDeletions h rest s' free'

/-- `residentOptimal`, fuelled.  `Res.err` marks the
`hospital.getWorstMatch()!` null dereference. -/
def hrResidentLoop : Nat → List Nat → HRState → Res HRState
  | 0, _, s => .timeout s
  | fuel + 1, free, s =>
    match jsPop free with
    | none => .ok s
    | some (rest, r) =>
      match s.rprefs r with
      | [] => hrResidentLoop fuel rest s
      | h :: _ =>
        let ev : Option (HRState × List Nat) :=
          if (s.hmatching h).length = s.capacity h then
            match hospGetWorstMatch (s.hmatching h) with
            | none => none
            | some worst => some (hrUnmatchPair s worst h, jsPush rest worst)
          else some (s, rest)
        match ev with
        | none => .err
        | some (s1, rest1) =>
          let s2 := hrMatchPair s1 r h
          if (s2.hmatching h).length = s2.capacity h then
            let succs := hospGetSuccessors (s2.hprefs h) (s2.hmatching h)
            let step := hrResDeletions h succs s2 rest1
            hrResidentLoop fuel step.2 step.1
          else hrResidentLoop fuel rest1 s2

/-- `Hospital.getFavourite`: first preference outside `matching`. -/
def hrHospFavourite (s : HRState) (h : Nat) : Option Nat :=
  (s.hprefs h).find? (fun p => ¬ p ∈ s.hmatching h)

/-- `checkAvailable(hospital)`: spare capacity and an unmatched
candidate remaining. -/
def hrCheckAvailable (s : HRState) (h : Nat) : Bool :=
  (s.hmatching h).length < s.capacity h &&
    ((s.hprefs h).filter (fun p => ¬ p ∈ s.hmatching h)).length > 0

/-- The successor-deletion loop of `hospitalOptimal` (dropping
no-longer-available hospitals from the free list). -/
def hrHospDeletions (r : Nat) :
    List Nat → HRState → List Nat → HRState × List Nat
  | [], s, free => (s, free)
  | sh :: rest, s, free =>
    let s' := hrDeletePair s sh r
    let free' :=
      if ¬ hrCheckAvailable s' sh ∧ sh ∈ free
      then jsRemoveFirst free sh else free
    hrHospDeletions r rest s' free'

/-- `hospitalOptimal`, fuelled.  It has no null dereference. -/
def hrHospitalLoop : Nat → List Nat → HRState → Res HRState
  | 0, _, s => .timeout s
  | fuel + 1, free, s =>
    match jsPop free with
    | none => .ok s
    | some (rest, h) =>
      match hrHospFavourite s h with
      | none => hrHospitalLoop fuel rest s
      | some r =>
        let step1 : HRState × List Nat :=
          match s.rmatch r with
          | none => (s, rest)
          | some h0 =>
            (hrUnmatchPair s r h0,
             if h0 ∈ rest then rest else jsPush rest h0)
        let s2 := hrMatchPair step1.1 r h
        let rest2 := if hrCheckAvailable s2 h then jsPush step1.2 h else step1.2
        let succs := playerGetSuccessors (s2.rprefs r) (s2.rmatch r)
        let step3 := hrHospDeletions r succs s2 rest2
        hrHospitalLoop fuel step3.2 step3.1

/-- The two optimality directions of `hospitalResident`. -/
inductive HROpt where
  | resident
  | hospital
deriving Repr, DecidableEq

/-- `hospitalResident(residents, hospitals, optimal)`. -/
def hrSolve (fuel : Nat) (residents hospitals : List Nat) (s : HRState)
    (optimal : HROpt) : Res HRState :=
  match optimal with
  | .resident => hrResidentLoop fuel residents s
  | .hospital => hrHospitalLoop fuel hospitals s

/-! ## Stable Marriage (src/algorithms/stable-marriage.ts) over an
explicit heap, including the `StableMarriage` constructor's deep copy
(src/games/stable-marriage.ts).  Heap cells are `Player` objects;
addresses are `Nat`. -/

/-- A `Player` heap cell. -/
structure PRec where
  pname : String
  prefs : List Nat
  matching : Option Nat
  origPrefs : Option (List Nat)
deriving Repr, DecidableEq

/-- The object heap. -/
def Heap : Type := Nat → PRec

/-- `player._forget(other)` on the heap. -/
def smForget (h : Heap) (p other : Nat) : Heap :=
  Function.update h p { h p with prefs := (h p).prefs.filter (fun q => q ≠ other) }

/-- `deletePair(player, other)`. -/
def smDeletePair (h : Heap) (p other : Nat) : Heap :=
  smForget (smForget h p other) other p

/-- `matchPair(suitor, reviewer)`. -/
def smMatchPair (h : Heap) (su rev : Nat) : Heap :=
  Function.update
    (Function.update h su { h su with matching := some rev })
    rev { (Function.update h su { h su with matching := some rev }) rev with
          matching := some su }

/-- `unmatchPair(suitor, reviewer)`. -/
def smUnmatchPair (h : Heap) (su rev : Nat) : Heap :=
  Function.update
    (Function.update h su { h su with matching := none })
    rev { (Function.update h su { h su with matching := none }) rev with
          matching := none }

/-- The main loop of `stableMarriage`.  `Res.err` is the dereference of
`getFavourite()` on an empty preference list. -/
def smLoop : Nat → List Nat → Heap → Res Heap
  | 0, _, h => .timeout h
  | fuel + 1, free, h =>
    match jsPop free with
    | none => .ok h
    | some (rest, su) =>
      match (h su).prefs with
      | [] => .err
      | rev :: _ =>
        let step1 : Heap × List Nat :=
          match (h rev).matching with
          | none => (h, rest)
          | some cur => (smUnmatchPair h cur rev, jsPush rest cur)
        let h2 := smMatchPair step1.1 su rev
        let succs := playerGetSuccessors ((h2 rev).prefs) ((h2 rev).matching)
        let h3 := succs.foldl (fun hh sc => smDeletePair hh sc rev) h2
        smLoop fuel step1.2 h3

/-- The two optimality directions of `stableMarriage`. -/
inductive SMOpt where
  | suitor
  | reviewer
deriving Repr, DecidableEq

/-- `stableMarriage(suitors, reviewers, optimal)`: run the loop from
the chosen proposing side; the result map reads each suitor's
`matching`. -/
def smStableMarriage (fuel : Nat) (h : Heap) (suitors reviewers : List Nat)
    (optimal : SMOpt) : Res Heap :=
  let proposers := match optimal with
    | .suitor => suitors
    | .reviewer => reviewers
  smLoop fuel proposers h

/-- The clone address for caller object `p`: clones are laid out from
`base` in the order of `allPlayers = suitors ++ reviewers`. -/
def cloneId (base : Nat) (allPlayers : List Nat) (p : Nat) : Nat :=
  base + rankIn allPlayers p

/-- One step of the constructor's allocation loop:
`cloneMap.set(player, new Player(player.name))`. -/
def smAllocStep (base : Nat) (h : Heap) (allPlayers : List Nat)
    (hh : Heap) (i : Nat) : Heap :=
  Function.update hh (base + i)
    { pname := (h (allPlayers.getD i 0)).pname
      prefs := [], matching := none, origPrefs := none }

/-- One step of the constructor's preference-cloning loop:
`clone.setPrefs(player.prefs.map(p => cloneMap.get(p)!))`. -/
def smCloneStep (base : Nat) (h : Heap) (allPlayers : List Nat)
    (hh : Heap) (p : Nat) : Heap :=
  Function.update hh (cloneId base allPlayers p)
    { hh (cloneId base allPlayers p) with
      prefs := (h p).prefs.map (cloneId base allPlayers)
      origPrefs :=
        match (hh (cloneId base allPlayers p)).origPrefs with
        | none => some ((h p).prefs.map (cloneId base allPlayers))
        | some o => some o }

/-- The `StableMarriage` constructor's deep copy: allocate a fresh
`Player` per caller entity, then `setPrefs` each clone with the
cloned preference lists.  Returns the new heap and the game's
(clone-addressed) suitor and reviewer lists. -/
def smConstruct (base : Nat) (h : Heap) (suitors reviewers : List Nat) :
    Heap × List Nat × List Nat :=
  let allPlayers := suitors ++ reviewers
  let h1 := (List.range allPlayers.length).foldl (smAllocStep base h allPlayers) h
  let h2 := allPlayers.foldl (smCloneStep base h allPlayers) h1
  (h2, suitors.map (cloneId base allPlayers), reviewers.map (cloneId base allPlayers))

/-- `checkInputs` of `StableMarriage` (read-only; `true` means the
constructor does not throw): equal party sizes and every player's
preference set equal to the whole opposite party. -/
def smCheckInputs (h : Heap) (suitors reviewers : List Nat) : Bool :=
  suitors.length = reviewers.length &&
    suitors.all (fun s =>
      reviewers.all (fun r => r ∈ (h s).prefs) &&
        (h s).prefs.all (fun r => r ∈ reviewers)) &&
    reviewers.all (fun r =>
      suitors.all (fun s => s ∈ (h r).prefs) &&
        (h r).prefs.all (fun s => s ∈ suitors))

/-- `matching.toRecord()` after a solve: each (cloned) suitor's name
mapped to its match's name (or `null`). -/
def smRecord (h : Heap) (gameSuitors : List Nat) :
    List (String × Option String) :=
  gameSuitors.map (fun sc =>
    ((h sc).pname, ((h sc).matching).map (fun m => (h m).pname)))

/-- The full `createFromDictionaries`-style pipeline: construct (deep
copy at `base`), solve, and read the record. -/
def smPipeline (fuel base : Nat) (h : Heap) (suitors reviewers : List Nat)
    (optimal : SMOpt) : Res (List (String × Option String)) :=
  let g := smConstruct base h suitors reviewers
  match smStableMarriage fuel g.1 g.2.1 g.2.2 optimal with
  | .ok h' => .ok (smRecord h' g.2.1)
  | .err => .err
  | .timeout h' => .timeout (smRecord h' g.2.1)

/-! ## Concrete instances used by the claims -/

/-- Caller entities of the spec's Stable Marriage end-to-end example:
suitors `A,B,C` at addresses `0,1,2`, reviewers `X,Y,Z` at `3,4,5`. -/
def c1Heap : Heap := fun i =>
  match i with
  | 0 => ⟨"A", [3, 4, 5], none, none⟩
  | 1 => ⟨"B", [4, 3, 5], none, none⟩
  | 2 => ⟨"C", [4, 5, 3], none, none⟩
  | 3 => ⟨"X", [1, 0, 2], none, none⟩
  | 4 => ⟨"Y", [0, 1, 2], none, none⟩
  | _ => ⟨"Z", [0, 1, 2], none, none⟩

/-- The classic no-stable-solution SR instance
`A:[B,C,D], B:[C,A,D], C:[A,B,D], D:[A,B,C]` (players `A..D = 0..3`). -/
def c4State : SRState :=
  { prefs := fun p =>
      match p with
      | 0 => [1, 2, 3]
      | 1 => [2, 0, 3]
      | 2 => [0, 1, 3]
      | 3 => [0, 1, 2]
      | _ => []
    matching := fun _ => none }

/-- The 4-player SR instance `A:[B,C,D], B:[A,C,D], C:[A,B,D], D:[A,B,C]`. -/
def c5Prefs : Nat → List Nat := fun p =>
  match p with
  | 0 => [1, 2, 3]
  | 1 => [0, 2, 3]
  | 2 => [0, 1, 3]
  | 3 => [0, 1, 2]
  | _ => []

def c5State : SRState := { prefs := c5Prefs, matching := fun _ => none }

/-- Irving's classic 6-player SR instance with no stable matching
(players `1..6 = 0..5`):
`1:[2,6,4,3,5], 2:[3,5,1,6,4], 3:[1,6,2,5,4], 4:[5,2,3,6,1],
5:[6,1,3,4,2], 6:[4,2,5,1,3]`. -/
def irving6State : SRState :=
  { prefs := fun p =>
      match p with
      | 0 => [1, 5, 3, 2, 4]
      | 1 => [2, 4, 0, 5, 3]
      | 2 => [0, 5, 1, 4, 3]
      | 3 => [4, 1, 2, 5, 0]
      | 4 => [5, 0, 2, 3, 1]
      | 5 => [3, 1, 4, 0, 2]
      | _ => []
    matching := fun _ => none }

/-- A stable-roommates instance is accepted at construction iff every
player's list is duplicate-free and ranks exactly the other players. -/
def srValidInstance (players : List Nat) (s : SRState) : Prop :=
  players.Nodup ∧
    ∀ p ∈ players, (s.prefs p).Nodup ∧ p ∉ s.prefs p ∧
      (∀ q ∈ s.prefs p, q ∈ players) ∧
      (∀ q ∈ players, q ≠ p → q ∈ s.prefs p)

instance (players : List Nat) (s : SRState) :
    Decidable (srValidInstance players s) := by
  unfold srValidInstance
  infer_instance

/-! ## C1 — the Stable Marriage end-to-end example -/

/-- C1 (counterexample).  For the spec's example instance, solving
*suitor-optimal* does **not** yield `{A:Y, B:X, C:Z}`: the code
returns `{A:X, B:Y, C:Z}`. -/
theorem c1_suitor_optimal_not_spec_record :
    smPipeline 100 6 c1Heap [0, 1, 2] [3, 4, 5] SMOpt.suitor ≠
      Res.ok [("A", some "Y"), ("B", some "X"), ("C", some "Z")] := by
  decide

/-- C1 (amended).  For the Stable Marriage instance with suitor
preferences `{A:[X,Y,Z], B:[Y,X,Z], C:[Y,Z,X]}` and reviewer
preferences `{X:[B,A,C], Y:[A,B,C], Z:[A,B,C]}`, solving suitor-optimal
yields `{A:X, B:Y, C:Z}`; the record `{A:Y, B:X, C:Z}` claimed by the
spec is the one produced by solving *reviewer*-optimal.  (Inputs pass
`checkInputs`, so construction succeeds.) -/
theorem c1_sm_example :
    smPipeline 100 6 c1Heap [0, 1, 2] [3, 4, 5] SMOpt.suitor =
        Res.ok [("A", some "X"), ("B", some "Y"), ("C", some "Z")] ∧
      smPipeline 100 6 c1Heap [0, 1, 2] [3, 4, 5] SMOpt.reviewer =
        Res.ok [("A", some "Y"), ("B", some "X"), ("C", some "Z")] ∧
      smCheckInputs (smConstruct 6 c1Heap [0, 1, 2] [3, 4, 5]).1
        (smConstruct 6 c1Heap [0, 1, 2] [3, 4, 5]).2.1
        (smConstruct 6 c1Heap [0, 1, 2] [3, 4, 5]).2.2 = true := by
  refine ⟨by decide, by decide, by decide⟩

/-! ## C4 — the classic no-solution SR instance -/

/-- C4.  On `A:[B,C,D], B:[C,A,D], C:[A,B,D], D:[A,B,C]` the solver
terminates normally (no exception is modelled as a non-`none`,
non-error result), every player's match is `null`, and the
non-existence of a stable matching is reported by the
`warnNoStableMatching` diagnostic (the `true` flag) only.  The
instance is a valid SR instance, so construction accepts it. -/
theorem c4_no_solution_instance_solves :
    (srSolve 200 [0, 1, 2, 3] c4State).map
        (fun r => ([0, 1, 2, 3].map r.1.matching, r.2)) =
      some ([none, none, none, none], true) ∧
    srValidInstance [0, 1, 2, 3] c4State := by
  refine ⟨by decide, by decide⟩

/-! ## C5 — the 4-player SR instance with result {A:B, B:A, C:D, D:C} -/

/-- C5.  On `A:[B,C,D], B:[A,C,D], C:[A,B,D], D:[A,B,C]`, `solve`
returns exactly `{A:B, B:A, C:D, D:C}` (and no diagnostic fires), and
`checkStability` on the result finds zero blocking pairs (it returns
`true` and records the empty list). -/
theorem c5_four_player_instance :
    (srSolve 200 [0, 1, 2, 3] c5State).map
        (fun r => ([0, 1, 2, 3].map r.1.matching, r.2)) =
      some ([some 1, some 0, some 3, some 2], false) ∧
    (srSolve 200 [0, 1, 2, 3] c5State).map
        (fun r => srCheckStability [0, 1, 2, 3] c5Prefs r.1) =
      some (true, some []) ∧
    srValidInstance [0, 1, 2, 3] c5State := by
  refine ⟨by decide, by decide, by decide⟩

/-! ## C6 — immutability of `originalPrefs` -/

/-- C6 (counterexample).  `Supervisor.setPrefs` overwrites
`_originalPrefs` on *every* call: a supervisor whose original
preferences were fixed as `[1]` has them replaced by `[2]` by a second
`setPrefs` call. -/
theorem c6_supervisor_overwrites_originalPrefs :
    ((supervisorSetPrefs ⟨[1], [1], some [1]⟩ [] (fun _ => []) [2]).1).originalPrefs
      = some [2] ∧ some [2] ≠ some ([1] : List Nat) := by
  exact ⟨rfl, by decide⟩

/-- C6 (amended).  For single-match players and hospitals (hence also
projects, which inherit `Hospital.setPrefs`), the first `setPrefs`
call fixes `originalPrefs` and no later `setPrefs`, `_forget`,
`_match` or `_unmatch` ever alters it.  For supervisors, however,
*every* `setPrefs` call overwrites `originalPrefs` with the new list. -/
theorem c6_originalPrefs_behaviour (e : PlayerEnt) (hosp : HospitalEnt)
    (sup : SupervisorEnt) (projects : List (Nat × HospitalEnt))
    (sp : Nat → List Nat) (ps qs : List Nat) (o : List Nat) (x : Nat) :
    (e.originalPrefs = none → (playerSetPrefs e ps).originalPrefs = some ps) ∧
    (e.originalPrefs = some o → (playerSetPrefs e qs).originalPrefs = some o) ∧
    (playerForget e x).originalPrefs = e.originalPrefs ∧
    (playerMatchOp e x).originalPrefs = e.originalPrefs ∧
    (playerUnmatchOp e).originalPrefs = e.originalPrefs ∧
    (hosp.originalPrefs = none → (hospitalSetPrefs hosp ps).originalPrefs = some ps) ∧
    (hosp.originalPrefs = some o → (hospitalSetPrefs hosp qs).originalPrefs = some o) ∧
    (hospitalForget hosp x).originalPrefs = hosp.originalPrefs ∧
    (hospitalMatchOp hosp x).originalPrefs = hosp.originalPrefs ∧
    (hospitalUnmatchOp hosp x).originalPrefs = hosp.originalPrefs ∧
    ((supervisorSetPrefs sup projects sp ps).1).originalPrefs = some ps := by
  refine ⟨?_, ?_, rfl, rfl, rfl, ?_, ?_, rfl, rfl, rfl, rfl⟩
  · intro h
    simp [playerSetPrefs, h]
  · intro h
    simp [playerSetPrefs, h]
  · intro h
    simp [hospitalSetPrefs, h]
  · intro h
    simp [hospitalSetPrefs, h]

/-- Witness for `c6_originalPrefs_behaviour` at concrete entities. -/
theorem c6_originalPrefs_behaviour_witness :
    (playerSetPrefs ⟨[], [], none, none⟩ [1]).originalPrefs = some [1] ∧
    (playerSetPrefs ⟨[1], [1], none, some [1]⟩ [2]).originalPrefs = some [1] := by
  have h := c6_originalPrefs_behaviour ⟨[], [], none, none⟩
    ⟨0, [], [], [], none⟩ ⟨[], [], none⟩ [] (fun _ => []) [1] [2] [1] 0
  have h2 := c6_originalPrefs_behaviour ⟨[1], [1], none, some [1]⟩
    ⟨0, [], [], [], none⟩ ⟨[], [], none⟩ [] (fun _ => []) [1] [2] [1] 0
  exact ⟨h.1 rfl, h2.2.1 rfl⟩

/-! ## C7 — the matching list stays sorted by original rank -/

/-- C7.  Under the entity-lifecycle invariants of the data model —
`originalPrefs` duplicate-free, the working `prefs` a sublist of
`originalPrefs` (preferences are only ever deleted, never reordered)
and all matched entities still acceptable (present in `prefs`) — every
insertion through `Hospital._match`/`Project._match` leaves the
matching list sorted by ascending rank in `originalPrefs`, so
`getWorstMatch` returns the last element, which is worst-ranked, and
`null` on an empty list. -/
theorem c7_match_sorted_by_original_rank
    (orig prefs matching : List Nat) (x : Nat)
    (hnd : orig.Nodup) (hsub : prefs.Sublist orig)
    (hmem : ∀ y ∈ matching ++ [x], y ∈ prefs) :
    (hospMatchList prefs matching x).Perm (matching ++ [x]) ∧
    (hospMatchList prefs matching x).Pairwise
      (fun a b => rankIn orig a ≤ rankIn orig b) ∧
    hospGetWorstMatch (hospMatchList prefs matching x) =
      (hospMatchList prefs matching x).getLast? ∧
    (∀ w, hospGetWorstMatch (hospMatchList prefs matching x) = some w →
      ∀ y ∈ hospMatchList prefs matching x, rankIn orig y ≤ rankIn orig w) ∧
    hospGetWorstMatch [] = none := by
  have hperm : (hospMatchList prefs matching x).Perm (matching ++ [x]) :=
    jsSortByKey_perm _ _
  have hmem' : ∀ y ∈ hospMatchList prefs matching x, y ∈ prefs := by
    intro y hy
    exact hmem y (hperm.mem_iff.mp hy)
  have hsorted : (hospMatchList prefs matching x).Pairwise
      (fun a b => rankIn orig a ≤ rankIn orig b) := by
    have hkey : (hospMatchList prefs matching x).Pairwise
        (fun a b => jsIndexOf prefs a ≤ jsIndexOf prefs b) :=
      jsSortByKey_sorted _ _
    refine hkey.imp_of_mem ?_
    intro a b ha hb hab
    have ha' := hmem' a ha
    have hb' := hmem' b hb
    rw [jsIndexOf_of_mem ha', jsIndexOf_of_mem hb'] at hab
    have : rankIn prefs a ≤ rankIn prefs b := by exact_mod_cast hab
    exact (rankIn_sublist_mono hsub hnd ha' hb').mp this
  refine ⟨hperm, hsorted, ?_, ?_, rfl⟩
  · unfold hospGetWorstMatch
    by_cases hlen : (hospMatchList prefs matching x).length = 0
    · rw [List.length_eq_zero] at hlen
      simp [hlen]
    · simp [hlen]
  · intro w hw y hy
    unfold hospGetWorstMatch at hw
    by_cases hlen : (hospMatchList prefs matching x).length = 0
    · simp [hlen] at hw
    · simp only [hlen, if_false] at hw
      exact pairwise_rel_getLast
        (R := fun a b => rankIn orig a ≤ rankIn orig b)
        (fun z => le_refl _) hsorted hw y hy

/-- Witness for `c7_match_sorted_by_original_rank` at a concrete
hospital state. -/
theorem c7_match_sorted_witness :
    (hospMatchList [5, 7, 9] [9, 5] 7).Perm ([9, 5] ++ [7]) ∧
    (hospMatchList [5, 7, 9] [9, 5] 7).Pairwise
      (fun a b => rankIn [5, 7, 9] a ≤ rankIn [5, 7, 9] b) ∧
    hospGetWorstMatch (hospMatchList [5, 7, 9] [9, 5] 7) =
      (hospMatchList [5, 7, 9] [9, 5] 7).getLast? ∧
    (∀ w, hospGetWorstMatch (hospMatchList [5, 7, 9] [9, 5] 7) = some w →
      ∀ y ∈ hospMatchList [5, 7, 9] [9, 5] 7,
        rankIn [5, 7, 9] y ≤ rankIn [5, 7, 9] w) ∧
    hospGetWorstMatch [] = none :=
  c7_match_sorted_by_original_rank [5, 7, 9] [5, 7, 9] [9, 5] 7
    (by decide) (List.Sublist.refl _) (by decide)

/-! ## Lemmas about the Hospital-Resident state operations -/

theorem length_filter_ne_lt {l : List Nat} {r : Nat} (h : r ∈ l) :
    (l.filter (fun p => p ≠ r)).length < l.length := by
  induction l with
  | nil => cases h
  | cons a l ih =>
    by_cases har : a = r
    · subst har
      have heq : (a :: l).filter (fun p => p ≠ a) = l.filter (fun p => p ≠ a) := by
        simp
      rw [heq, List.length_cons]
      exact Nat.lt_succ_of_le (List.length_filter_le _ _)
    · have heq : (a :: l).filter (fun p => p ≠ r) = a :: l.filter (fun p => p ≠ r) := by
        simp [har]
      rw [heq, List.length_cons, List.length_cons]
      rcases List.mem_cons.mp h with rfl | h'
      · exact absurd rfl har
      · exact Nat.succ_lt_succ (ih h')

theorem hospMatchList_length (prefs m : List Nat) (r : Nat) :
    (hospMatchList prefs m r).length = m.length + 1 := by
  have := (jsSortByKey_perm (fun a => jsIndexOf prefs a) (jsPush m r)).length_eq
  simpa [jsPush] using this

theorem hospGetWorstMatch_of_ne_nil {m : List Nat} (h : m ≠ []) :
    ∃ w, hospGetWorstMatch m = some w ∧ w ∈ m := by
  have hlen : m.length ≠ 0 := by simpa using fun hc => h (List.length_eq_zero.mp hc)
  obtain ⟨w, hw⟩ : ∃ w, m.getLast? = some w := by
    cases hg : m.getLast? with
    | none => exact absurd (List.getLast?_eq_none_iff.mp hg) h
    | some w => exact ⟨w, rfl⟩
  refine ⟨w, by simp [hospGetWorstMatch, hlen, hw], ?_⟩
  obtain ⟨hne, hwl⟩ := List.mem_getLast?_eq_getLast (by simpa using hw)
  exact hwl ▸ List.getLast_mem hne

@[simp] theorem hrMatchPair_capacity (s : HRState) (r h : Nat) :
    (hrMatchPair s r h).capacity = s.capacity := rfl

@[simp] theorem hrUnmatchPair_capacity (s : HRState) (r h : Nat) :
    (hrUnmatchPair s r h).capacity = s.capacity := rfl

@[simp] theorem hrDeletePair_capacity (s : HRState) (h r : Nat) :
    (hrDeletePair s h r).capacity = s.capacity := rfl

@[simp] theorem hrMatchPair_rprefs (s : HRState) (r h : Nat) :
    (hrMatchPair s r h).rprefs = s.rprefs := rfl

@[simp] theorem hrUnmatchPair_rprefs (s : HRState) (r h : Nat) :
    (hrUnmatchPair s r h).rprefs = s.rprefs := rfl

@[simp] theorem hrMatchPair_hprefs (s : HRState) (r h : Nat) :
    (hrMatchPair s r h).hprefs = s.hprefs := rfl

@[simp] theorem hrUnmatchPair_hprefs (s : HRState) (r h : Nat) :
    (hrUnmatchPair s r h).hprefs = s.hprefs := rfl

@[simp] theorem hrDeletePair_hmatching (s : HRState) (h r : Nat) :
    (hrDeletePair s h r).hmatching = s.hmatching := rfl

@[simp] theorem hrDeletePair_rmatch (s : HRState) (h r : Nat) :
    (hrDeletePair s h r).rmatch = s.rmatch := rfl

theorem hrDeletePair_rprefs_subset (s : HRState) (h r : Nat) :
    ∀ r' x, x ∈ (hrDeletePair s h r).rprefs r' → x ∈ s.rprefs r' := by
  intro r' x hx
  by_cases hr : r' = r
  · subst hr
    simp only [hrDeletePair, Function.update_same] at hx
    exact List.mem_of_mem_filter hx
  · simpa [hrDeletePair, Function.update_noteq hr] using hx

theorem hrResDeletions_capacity (h : Nat) :
    ∀ (succs : List Nat) (s : HRState) (free : List Nat),
      (hrResDeletions h succs s free).1.capacity = s.capacity := by
  intro succs
  induction succs with
  | nil => intro s free; rfl
  | cons a rest ih => intro s free; simpa [hrResDeletions] using ih _ _

theorem hrResDeletions_hmatching (h : Nat) :
    ∀ (succs : List Nat) (s : HRState) (free : List Nat),
      (hrResDeletions h succs s free).1.hmatching = s.hmatching := by
  intro succs
  induction succs with
  | nil => intro s free; rfl
  | cons a rest ih => intro s free; simpa [hrResDeletions] using ih _ _

theorem hrResDeletions_rmatch (h : Nat) :
    ∀ (succs : List Nat) (s : HRState) (free : List Nat),
      (hrResDeletions h succs s free).1.rmatch = s.rmatch := by
  intro succs
  induction succs with
  | nil => intro s free; rfl
  | cons a rest ih => intro s free; simpa [hrResDeletions] using ih _ _

theorem hrResDeletions_rprefs_subset (h : Nat) :
    ∀ (succs : List Nat) (s : HRState) (free : List Nat) (r x : Nat),
      x ∈ (hrResDeletions h succs s free).1.rprefs r → x ∈ s.rprefs r := by
  intro succs
  induction succs with
  | nil => intro s free r x hx; exact hx
  | cons a rest ih =>
    intro s free r x hx
    simp only [hrResDeletions] at hx
    exact hrDeletePair_rprefs_subset s h a r x (ih _ _ r x hx)

/-! ## C10 — capacity ≥ 1 makes the resident-optimal eviction safe -/

/-- `checkInputsPlayerCapacity` with `clean` off: the capacity check
only collects warnings; the hospital set is left unchanged. -/
def hrCheckInputsPlayerCapacity (hospitals : List Nat) (s : HRState) :
    List Nat × List Nat :=
  (hospitals.filter (fun h => s.capacity h < 1), hospitals)

/-- C10.  If every hospital has capacity at least 1 (and residents rank
only hospitals of the game), `residentOptimal` never reaches the
`getWorstMatch()!` null dereference: the eviction branch is entered
only when `matching.length = capacity ≥ 1`, so a worst match exists.
Moreover the sub-one-capacity input check is non-fatal: it returns the
offending hospitals as warnings and removes nobody when clean mode is
off. -/
theorem c10_capacity_precondition (hospitals : List Nat) :
    ∀ (fuel : Nat) (free : List Nat) (s : HRState),
      (∀ h ∈ hospitals, 1 ≤ s.capacity h) →
      (∀ r x, x ∈ s.rprefs r → x ∈ hospitals) →
      hrResidentLoop fuel free s ≠ Res.err ∧
      (hrCheckInputsPlayerCapacity hospitals s).2 = hospitals ∧
      (∀ h, h ∈ (hrCheckInputsPlayerCapacity hospitals s).1 ↔
        (h ∈ hospitals ∧ s.capacity h < 1)) := by
  intro fuel
  induction fuel with
  | zero =>
    intro free s hcap hclos
    refine ⟨by simp [hrResidentLoop], rfl, ?_⟩
    intro h
    simp [hrCheckInputsPlayerCapacity]
  | succ fuel ih =>
    intro free s hcap hclos
    refine ⟨?_, rfl, ?_⟩
    · show hrResidentLoop (fuel + 1) free s ≠ Res.err
      unfold hrResidentLoop
      cases hpop : jsPop free with
      | none => simp
      | some p =>
        rcases p with ⟨rest, r⟩
        simp only
        cases hpr : s.rprefs r with
        | nil => exact (ih rest s hcap hclos).1
        | cons h tl =>
          have hmem : h ∈ hospitals := hclos r h (hpr ▸ List.mem_cons_self _ _)
          simp only
          by_cases hful : (s.hmatching h).length = s.capacity h
          · have hne : s.hmatching h ≠ [] := by
              intro hc
              have : s.capacity h = 0 := by
                rw [← hful, hc]; rfl
              have := hcap h hmem
              omega
            obtain ⟨w, hw, hwmem⟩ := hospGetWorstMatch_of_ne_nil hne
            simp only [hful, if_true, hw]
            set s1 := hrUnmatchPair s w h with hs1
            set s2 := hrMatchPair s1 r h with hs2
            have hcap2 : ∀ h' ∈ hospitals, 1 ≤ s2.capacity h' := by
              intro h' hh'; simpa [hs2, hs1] using hcap h' hh'
            have hclos2 : ∀ r' x, x ∈ s2.rprefs r' → x ∈ hospitals := by
              intro r' x hx; exact hclos r' x (by simpa [hs2, hs1] using hx)
            by_cases hful2 : (s2.hmatching h).length = s2.capacity h
            · simp only [hful2, if_true]
              set st := hrResDeletions h
                (hospGetSuccessors (s2.hprefs h) (s2.hmatching h)) s2
                (jsPush rest w) with hst
              refine (ih st.2 st.1 ?_ ?_).1
              · intro h' hh'
                rw [hst, hrResDeletions_capacity]
                exact hcap2 h' hh'
              · intro r' x hx
                exact hclos2 r' x (hrResDeletions_rprefs_subset _ _ _ _ _ _ hx)
            · simp only [hful2, if_false]
              exact (ih (jsPush rest w) s2 hcap2 hclos2).1
          · simp only [hful, if_false]
            set s2 := hrMatchPair s r h with hs2
            have hcap2 : ∀ h' ∈ hospitals, 1 ≤ s2.capacity h' := by
              intro h' hh'; simpa [hs2] using hcap h' hh'
            have hclos2 : ∀ r' x, x ∈ s2.rprefs r' → x ∈ hospitals := by
              intro r' x hx; exact hclos r' x (by simpa [hs2] using hx)
            by_cases hful2 : (s2.hmatching h).length = s2.capacity h
            · simp only [hful2, if_true]
              set st := hrResDeletions h
                (hospGetSuccessors (s2.hprefs h) (s2.hmatching h)) s2 rest with hst
              refine (ih st.2 st.1 ?_ ?_).1
              · intro h' hh'
                rw [hst, hrResDeletions_capacity]
                exact hcap2 h' hh'
              · intro r' x hx
                exact hclos2 r' x (hrResDeletions_rprefs_subset _ _ _ _ _ _ hx)
            · simp only [hful2, if_false]
              exact (ih rest s2 hcap2 hclos2).1
    · intro h
      simp [hrCheckInputsPlayerCapacity]

/-- Witness for `c10_capacity_precondition` at the spec's HR example
(capacities `X:2, Y:1`). -/
def hrExState : HRState :=
  { rprefs := fun r =>
      if r = 0 then [10, 11] else if r = 1 then [11, 10]
      else if r = 2 then [10, 11] else []
    rmatch := fun _ => none
    hprefs := fun h =>
      if h = 10 then [0, 2, 1] else if h = 11 then [1, 0, 2] else []
    hmatching := fun _ => []
    capacity := fun h => if h = 10 then 2 else if h = 11 then 1 else 1
    rorig := fun _ => none
    horig := fun _ => none }

theorem c10_capacity_precondition_witness :
    hrResidentLoop 20 [0, 1, 2] hrExState ≠ Res.err ∧
    (hrCheckInputsPlayerCapacity [10, 11] hrExState).2 = [10, 11] ∧
    (∀ h, h ∈ (hrCheckInputsPlayerCapacity [10, 11] hrExState).1 ↔
      (h ∈ [10, 11] ∧ hrExState.capacity h < 1)) :=
  c10_capacity_precondition [10, 11] 20 [0, 1, 2] hrExState
    (by decide)
    (by
      intro r x hx
      simp only [hrExState] at hx
      by_cases h0 : r = 0
      · simp [h0] at hx; rcases hx with rfl | rfl <;> simp
      · by_cases h1 : r = 1
        · simp [h0, h1] at hx; rcases hx with rfl | rfl <;> simp
        · by_cases h2 : r = 2
          · simp [h0, h1, h2] at hx; rcases hx with rfl | rfl <;> simp
          · simp [h0, h1, h2] at hx)

/-! ## C2 — capacity is respected at every committed state -/

/-- Every hospital of the game holds at most `capacity` matches. -/
def capRespected (hospitals : List Nat) (s : HRState) : Prop :=
  ∀ h ∈ hospitals, (s.hmatching h).length ≤ s.capacity h

/-- The capacity bound holds for the final state *and* for the state at
every committed loop boundary (exposed by running with partial fuel,
whose `timeout` carries the current state). -/
def hrCapOutcome (hospitals : List Nat) : Res HRState → Prop
  | .ok s => capRespected hospitals s
  | .timeout s => capRespected hospitals s
  | .err => True

theorem mem_hospMatchList {prefs m : List Nat} {r x : Nat} :
    x ∈ hospMatchList prefs m r ↔ (x ∈ m ∨ x = r) := by
  unfold hospMatchList
  rw [(jsSortByKey_perm (fun a => jsIndexOf prefs a) (jsPush m r)).mem_iff]
  simp [jsPush]

/-- `residentOptimal` preserves the capacity bound. -/
theorem hrResidentLoop_cap (hospitals : List Nat) :
    ∀ (fuel : Nat) (free : List Nat) (s : HRState),
      capRespected hospitals s →
      hrCapOutcome hospitals (hrResidentLoop fuel free s) := by
  intro fuel
  induction fuel with
  | zero => intro free s hinv; exact hinv
  | succ fuel ih =>
    intro free s hinv
    show hrCapOutcome hospitals (hrResidentLoop (fuel + 1) free s)
    unfold hrResidentLoop
    cases hpop : jsPop free with
    | none => exact hinv
    | some p =>
      rcases p with ⟨rest, r⟩
      simp only
      cases hpr : s.rprefs r with
      | nil => exact ih rest s hinv
      | cons h tl =>
        simp only
        by_cases hful : (s.hmatching h).length = s.capacity h
        · cases hw : hospGetWorstMatch (s.hmatching h) with
          | none =>
            simp only [hful, if_true, hw]
            exact trivial
          | some w =>
            simp only [hful, if_true, hw]
            have hwmem : w ∈ s.hmatching h := by
              have hne : s.hmatching h ≠ [] := by
                intro hc
                rw [hc] at hw
                simp [hospGetWorstMatch] at hw
              obtain ⟨w', hw', hwm⟩ := hospGetWorstMatch_of_ne_nil hne
              rw [hw] at hw'
              cases hw'
              exact hwm
            set s1 := hrUnmatchPair s w h with hs1
            set s2 := hrMatchPair s1 r h with hs2
            have hinv2 : capRespected hospitals s2 := by
              intro h' hh'
              by_cases hhh : h' = h
              · subst hhh
                have hlt : (s1.hmatching h').length < s.capacity h' := by
                  have : (s1.hmatching h').length < (s.hmatching h').length := by
                    simp only [hs1, hrUnmatchPair, Function.update_same]
                    exact length_filter_ne_lt hwmem
                  omega
                have : (s2.hmatching h').length = (s1.hmatching h').length + 1 := by
                  simp only [hs2, hrMatchPair, Function.update_same]
                  exact hospMatchList_length _ _ _
                simp only [hs2, hrMatchPair, hs1, hrUnmatchPair] at this ⊢
                simp only [hs1, hrUnmatchPair] at hlt
                omega
              · have : (s2.hmatching h') = s.hmatching h' := by
                  simp only [hs2, hrMatchPair, hs1, hrUnmatchPair]
                  rw [Function.update_noteq hhh, Function.update_noteq hhh]
                have hc : s2.capacity h' = s.capacity h' := rfl
                rw [this]
                rw [hc]
                exact hinv h' hh'
            by_cases hful2 : (s2.hmatching h).length = s2.capacity h
            · simp only [hful2, if_true]
              set st := hrResDeletions h
                (hospGetSuccessors (s2.hprefs h) (s2.hmatching h)) s2
                (jsPush rest w) with hst
              refine ih st.2 st.1 ?_
              intro h' hh'
              rw [hst, hrResDeletions_capacity, hrResDeletions_hmatching]
              exact hinv2 h' hh'
            · simp only [hful2, if_false]
              exact ih (jsPush rest w) s2 hinv2
        · simp only [hful, if_false]
          set s2 := hrMatchPair s r h with hs2
          have hinv2 : capRespected hospitals s2 := by
            intro h' hh'
            by_cases hhh : h' = h
            · subst hhh
              have hle : (s.hmatching h').length < s.capacity h' :=
                lt_of_le_of_ne (hinv h' hh') hful
              have : (s2.hmatching h').length = (s.hmatching h').length + 1 := by
                simp only [hs2, hrMatchPair, Function.update_same]
                exact hospMatchList_length _ _ _
              simp only [hs2, hrMatchPair] at this ⊢
              omega
            · have : (s2.hmatching h') = s.hmatching h' := by
                simp only [hs2, hrMatchPair]
                rw [Function.update_noteq hhh]
              rw [this]
              exact hinv h' hh'
          by_cases hful2 : (s2.hmatching h).length = s2.capacity h
          · simp only [hful2, if_true]
            set st := hrResDeletions h
              (hospGetSuccessors (s2.hprefs h) (s2.hmatching h)) s2 rest with hst
            refine ih st.2 st.1 ?_
            intro h' hh'
            rw [hst, hrResDeletions_capacity, hrResDeletions_hmatching]
            exact hinv2 h' hh'
          · simp only [hful2, if_false]
            exact ih rest s2 hinv2

/-- Invariant pack for `hospitalOptimal`: capacities respected, free
hospitals strictly under capacity, resident/hospital match references
mutually consistent, and a well-formed worklist. -/
structure HOInv (hospitals free : List Nat) (s : HRState) : Prop where
  capLe : ∀ h ∈ hospitals, (s.hmatching h).length ≤ s.capacity h
  freeLt : ∀ h ∈ free, (s.hmatching h).length < s.capacity h
  consis : ∀ r h, r ∈ s.hmatching h ↔ s.rmatch r = some h
  freeNodup : free.Nodup
  freeSub : ∀ h ∈ free, h ∈ hospitals
  matchSub : ∀ r h, s.rmatch r = some h → h ∈ hospitals

theorem hrUnmatchPair_consis {s : HRState} {r h0 : Nat}
    (hr0 : s.rmatch r = some h0)
    (hcons : ∀ r' h', r' ∈ s.hmatching h' ↔ s.rmatch r' = some h') :
    ∀ r' h', r' ∈ (hrUnmatchPair s r h0).hmatching h' ↔
      (hrUnmatchPair s r h0).rmatch r' = some h' := by
  intro r' h'
  simp only [hrUnmatchPair]
  by_cases hrr : r' = r
  · subst hrr
    rw [Function.update_same]
    simp only [reduceCtorEq, iff_false]
    by_cases hh : h' = h0
    · subst hh
      rw [Function.update_same]
      simp [List.mem_filter]
    · rw [Function.update_noteq hh]
      intro hc
      have := (hcons r' h').mp hc
      rw [hr0] at this
      exact hh (Option.some_injective _ this).symm
  · rw [Function.update_noteq hrr]
    by_cases hh : h' = h0
    · subst hh
      rw [Function.update_same]
      rw [List.mem_filter]
      simp only [ne_eq, decide_not, Bool.not_eq_true', decide_eq_false_iff_not]
      constructor
      · intro ⟨hm, _⟩; exact (hcons r' h').mp hm
      · intro hm; exact ⟨(hcons r' h').mpr hm, hrr⟩
    · rw [Function.update_noteq hh]
      exact hcons r' h'

theorem hrMatchPair_consis {s : HRState} {r h : Nat}
    (hnone : s.rmatch r = none)
    (hcons : ∀ r' h', r' ∈ s.hmatching h' ↔ s.rmatch r' = some h') :
    ∀ r' h', r' ∈ (hrMatchPair s r h).hmatching h' ↔
      (hrMatchPair s r h).rmatch r' = some h' := by
  intro r' h'
  simp only [hrMatchPair]
  by_cases hrr : r' = r
  · subst hrr
    rw [Function.update_same]
    by_cases hh : h' = h
    · subst hh
      rw [Function.update_same, mem_hospMatchList]
      simp
    · rw [Function.update_noteq hh]
      constructor
      · intro hc
        have := (hcons r' h').mp hc
        rw [hnone] at this
        exact absurd this (by simp)
      · intro hc
        exact absurd (Option.some_injective _ hc) (Ne.symm hh)
  · rw [Function.update_noteq hrr]
    by_cases hh : h' = h
    · subst hh
      rw [Function.update_same, mem_hospMatchList]
      constructor
      · intro hc
        rcases hc with hm | hr
        · exact (hcons r' h').mp hm
        · exact absurd hr hrr
      · intro hm
        exact Or.inl ((hcons r' h').mpr hm)
    · rw [Function.update_noteq hh]
      exact hcons r' h'

theorem hrHospDeletions_state (r : Nat) :
    ∀ (succs : List Nat) (s : HRState) (free : List Nat),
      (hrHospDeletions r succs s free).1.hmatching = s.hmatching ∧
      (hrHospDeletions r succs s free).1.rmatch = s.rmatch ∧
      (hrHospDeletions r succs s free).1.capacity = s.capacity := by
  intro succs
  induction succs with
  | nil => intro s free; exact ⟨rfl, rfl, rfl⟩
  | cons a rest ih =>
    intro s free
    simp only [hrHospDeletions]
    exact ih _ _

theorem hrHospDeletions_free_subset (r : Nat) :
    ∀ (succs : List Nat) (s : HRState) (free : List Nat),
      (∀ x ∈ (hrHospDeletions r succs s free).2, x ∈ free) ∧
      (free.Nodup → (hrHospDeletions r succs s free).2.Nodup) := by
  intro succs
  induction succs with
  | nil => intro s free; exact ⟨fun x hx => hx, fun h => h⟩
  | cons a rest ih =>
    intro s free
    simp only [hrHospDeletions]
    by_cases hc : ¬ hrCheckAvailable (hrDeletePair s a r) a = true ∧ a ∈ free
    · simp only [hc, if_true]
      constructor
      · intro x hx
        exact jsRemoveFirst_subset free a x
          ((ih (hrDeletePair s a r) (jsRemoveFirst free a)).1 x hx)
      · intro hnd
        exact (ih (hrDeletePair s a r) (jsRemoveFirst free a)).2
          (jsRemoveFirst_nodup a hnd)
    · simp only [hc, if_false]
      exact ih (hrDeletePair s a r) free

theorem hrHospDeletions_preserves (hospitals : List Nat) (r : Nat)
    (succs : List Nat) (s : HRState) (free : List Nat)
    (hinv : HOInv hospitals free s) :
    HOInv hospitals (hrHospDeletions r succs s free).2
      (hrHospDeletions r succs s free).1 := by
  obtain ⟨hm, hrm, hcap⟩ := hrHospDeletions_state r succs s free
  obtain ⟨hsub, hnd⟩ := hrHospDeletions_free_subset r succs s free
  refine ⟨?_, ?_, ?_, hnd hinv.freeNodup, ?_, ?_⟩
  · intro h hh
    rw [hm, hcap]
    exact hinv.capLe h hh
  · intro h hh
    rw [hm, hcap]
    exact hinv.freeLt h (hsub h hh)
  · intro r' h'
    rw [hm, hrm]
    exact hinv.consis r' h'
  · intro h hh
    exact hinv.freeSub h (hsub h hh)
  · intro r' h' hr'
    rw [hrm] at hr'
    exact hinv.matchSub r' h' hr'

/-- `hospitalOptimal` preserves the capacity bound (given the
hospital-side worklist invariants). -/
theorem hrHospitalLoop_cap (hospitals : List Nat) :
    ∀ (fuel : Nat) (free : List Nat) (s : HRState),
      HOInv hospitals free s →
      hrCapOutcome hospitals (hrHospitalLoop fuel free s) := by
  intro fuel
  induction fuel with
  | zero => intro free s hinv; exact hinv.capLe
  | succ fuel ih =>
    intro free s hinv
    show hrCapOutcome hospitals (hrHospitalLoop (fuel + 1) free s)
    unfold hrHospitalLoop
    cases hpop : jsPop free with
    | none => exact hinv.capLe
    | some p =>
      rcases p with ⟨rest, h⟩
      have hfree : free = rest ++ [h] := jsPop_eq_some hpop
      have hhfree : h ∈ free := by simp [hfree]
      have hhmem : h ∈ hospitals := hinv.freeSub h hhfree
      have hrestnd : rest.Nodup ∧ h ∉ rest := by
        have := hinv.freeNodup
        rw [hfree, List.nodup_append] at this
        exact ⟨this.1, fun hc => this.2.2 hc (List.mem_singleton_self h)⟩
      have hrestsub : ∀ x ∈ rest, x ∈ free := by
        intro x hx; simp [hfree, hx]
      have hinvRest : HOInv hospitals rest s :=
        ⟨hinv.capLe, fun x hx => hinv.freeLt x (hrestsub x hx), hinv.consis,
         hrestnd.1, fun x hx => hinv.freeSub x (hrestsub x hx), hinv.matchSub⟩
      simp only
      cases hfav : hrHospFavourite s h with
      | none => exact ih rest s hinvRest
      | some r =>
        have hrnotm : r ∉ s.hmatching h := by
          have := List.find?_some hfav
          simpa using this
        simp only
        -- step1: possibly unmatch r's current hospital
        rcases hrm : s.rmatch r with _ | h0
        · -- r was unmatched
          simp only
          set s2 := hrMatchPair s r h with hs2
          have hlth : (s.hmatching h).length < s.capacity h := hinv.freeLt h hhfree
          have hcons2 := @hrMatchPair_consis s r h hrm hinv.consis
          have hcapLe2 : ∀ h' ∈ hospitals, (s2.hmatching h').length ≤ s2.capacity h' := by
            intro h' hh'
            by_cases hhh : h' = h
            · subst hhh
              have : (s2.hmatching h').length = (s.hmatching h').length + 1 := by
                simp only [hs2, hrMatchPair, Function.update_same]
                exact hospMatchList_length _ _ _
              have hc : s2.capacity h' = s.capacity h' := rfl
              omega
            · have : s2.hmatching h' = s.hmatching h' := by
                simp only [hs2, hrMatchPair]
                rw [Function.update_noteq hhh]
              rw [this]
              exact hinv.capLe h' hh'
          have hnotrest : h ∉ rest := hrestnd.2
          set rest2 := if hrCheckAvailable s2 h then jsPush rest h else rest with hrest2
          have hinv2 : HOInv hospitals rest2 s2 := by
            refine ⟨hcapLe2, ?_, hcons2, ?_, ?_, ?_⟩
            · intro h' hh'
              have hcases : h' ∈ rest ∨ h' = h := by
                rw [hrest2] at hh'
                by_cases hca : hrCheckAvailable s2 h
                · simp only [hca, if_true, jsPush] at hh'
                  rcases List.mem_append.mp hh' with hx | hx
                  · exact Or.inl hx
                  · exact Or.inr (List.mem_singleton.mp hx)
                · simp only [hca, if_false] at hh'
                  exact Or.inl hh'
              rcases hcases with hx | rfl
              · have hne : h' ≠ h := fun hc => hnotrest (hc ▸ hx)
                have : s2.hmatching h' = s.hmatching h' := by
                  simp only [hs2, hrMatchPair]
                  rw [Function.update_noteq hne]
                rw [this]
                exact hinv.freeLt h' (hrestsub h' hx)
              · have hca : hrCheckAvailable s2 h' = true := by
                  by_contra hc
                  rw [hrest2] at hh'
                  simp only [hc, if_false] at hh'
                  exact hnotrest hh'
                have := hca
                unfold hrCheckAvailable at this
                have hlt := (Bool.and_eq_true _ _).mp this |>.1
                simpa using hlt
            · rw [hrest2]
              by_cases hca : hrCheckAvailable s2 h
              · simp only [hca, if_true, jsPush]
                rw [List.nodup_append]
                exact ⟨hrestnd.1, List.nodup_singleton h,
                  fun x hx hy => hnotrest ((List.mem_singleton.mp hy) ▸ hx)⟩
              · simp only [hca, if_false]
                exact hrestnd.1
            · intro h' hh'
              rw [hrest2] at hh'
              by_cases hca : hrCheckAvailable s2 h
              · simp only [hca, if_true, jsPush] at hh'
                rcases List.mem_append.mp hh' with hx | hx
                · exact hinv.freeSub h' (hrestsub h' hx)
                · exact (List.mem_singleton.mp hx) ▸ hhmem
              · simp only [hca, if_false] at hh'
                exact hinv.freeSub h' (hrestsub h' hh')
            · intro r' h' hr'
              by_cases hrr : r' = r
              · subst hrr
                have : s2.rmatch r' = some h := by
                  simp [hs2, hrMatchPair]
                rw [this] at hr'
                exact (Option.some_injective _ hr') ▸ hhmem
              · have : s2.rmatch r' = s.rmatch r' := by
                  simp only [hs2, hrMatchPair]
                  rw [Function.update_noteq hrr]
                rw [this] at hr'
                exact hinv.matchSub r' h' hr'
          exact ih _ _ (hrHospDeletions_preserves hospitals r _ s2 rest2 hinv2)
        · -- r held h0: unmatch it first
          simp only
          have hh0mem : h0 ∈ hospitals := hinv.matchSub r h0 hrm
          have hrInH0 : r ∈ s.hmatching h0 := (hinv.consis r h0).mpr hrm
          have hh0ne : h0 ≠ h := by
            intro hc
            exact hrnotm (hc ▸ hrInH0)
          set s1 := hrUnmatchPair s r h0 with hs1
          set rest1 := if h0 ∈ rest then rest else jsPush rest h0 with hrest1
          have hcons1 := @hrUnmatchPair_consis s r h0 hrm hinv.consis
          have hlenH0 : (s1.hmatching h0).length < s.capacity h0 := by
            have h1 : (s1.hmatching h0).length < (s.hmatching h0).length := by
              simp only [hs1, hrUnmatchPair, Function.update_same]
              exact length_filter_ne_lt hrInH0
            have h2 := hinv.capLe h0 hh0mem
            omega
          have hmatch1 : ∀ h', h' ≠ h0 → s1.hmatching h' = s.hmatching h' := by
            intro h' hne
            simp only [hs1, hrUnmatchPair]
            rw [Function.update_noteq hne]
          have hinv1 : HOInv hospitals rest1 s1 := by
            refine ⟨?_, ?_, hcons1, ?_, ?_, ?_⟩
            · intro h' hh'
              by_cases hne : h' = h0
              · subst hne
                have hc : s1.capacity h' = s.capacity h' := rfl
                omega
              · rw [hmatch1 h' hne]
                exact hinv.capLe h' hh'
            · intro h' hh'
              have hcases : h' ∈ rest ∨ h' = h0 := by
                rw [hrest1] at hh'
                by_cases hin : h0 ∈ rest
                · simp only [hin, if_true] at hh'
                  exact Or.inl hh'
                · simp only [hin, if_false, jsPush] at hh'
                  rcases List.mem_append.mp hh' with hx | hx
                  · exact Or.inl hx
                  · exact Or.inr (List.mem_singleton.mp hx)
              rcases hcases with hx | rfl
              · by_cases hne : h' = h0
                · subst hne
                  have hc : s1.capacity h' = s.capacity h' := rfl
                  omega
                · rw [hmatch1 h' hne]
                  exact hinv.freeLt h' (hrestsub h' hx)
              · have hc : s1.capacity h' = s.capacity h' := rfl
                omega
            · rw [hrest1]
              by_cases hin : h0 ∈ rest
              · simp only [hin, if_true]
                exact hrestnd.1
              · simp only [hin, if_false, jsPush]
                rw [List.nodup_append]
                exact ⟨hrestnd.1, List.nodup_singleton h0,
                  fun x hx hy => hin ((List.mem_singleton.mp hy) ▸ hx)⟩
            · intro h' hh'
              rw [hrest1] at hh'
              by_cases hin : h0 ∈ rest
              · simp only [hin, if_true] at hh'
                exact hinv.freeSub h' (hrestsub h' hh')
              · simp only [hin, if_false, jsPush] at hh'
                rcases List.mem_append.mp hh' with hx | hx
                · exact hinv.freeSub h' (hrestsub h' hx)
                · exact (List.mem_singleton.mp hx) ▸ hh0mem
            · intro r' h' hr'
              by_cases hrr : r' = r
              · subst hrr
                have : s1.rmatch r' = none := by
                  simp [hs1, hrUnmatchPair]
                rw [this] at hr'
                cases hr'
              · have : s1.rmatch r' = s.rmatch r' := by
                  simp only [hs1, hrUnmatchPair]
                  rw [Function.update_noteq hrr]
                rw [this] at hr'
                exact hinv.matchSub r' h' hr'
          -- now match r with h
          set s2 := hrMatchPair s1 r h with hs2
          have hrm1 : s1.rmatch r = none := by
            simp [hs1, hrUnmatchPair]
          have hcons2 := @hrMatchPair_consis s1 r h hrm1 hcons1
          have hnotrest1 : h ∉ rest1 := by
            rw [hrest1]
            by_cases hin : h0 ∈ rest
            · simp only [hin, if_true]
              exact hrestnd.2
            · simp only [hin, if_false, jsPush]
              intro hc
              rcases List.mem_append.mp hc with hx | hx
              · exact hrestnd.2 hx
              · exact hh0ne (List.mem_singleton.mp hx).symm
          have hlth : (s1.hmatching h).length < s1.capacity h := by
            rw [hmatch1 h (fun hc => hh0ne hc.symm)]
            exact hinv.freeLt h hhfree
          have hcapLe2 : ∀ h' ∈ hospitals, (s2.hmatching h').length ≤ s2.capacity h' := by
            intro h' hh'
            by_cases hhh : h' = h
            · subst hhh
              have : (s2.hmatching h').length = (s1.hmatching h').length + 1 := by
                simp only [hs2, hrMatchPair, Function.update_same]
                exact hospMatchList_length _ _ _
              have hc : s2.capacity h' = s1.capacity h' := rfl
              omega
            · have : s2.hmatching h' = s1.hmatching h' := by
                simp only [hs2, hrMatchPair]
                rw [Function.update_noteq hhh]
              rw [this]
              exact hinv1.capLe h' hh'
          set rest2 := if hrCheckAvailable s2 h then jsPush rest1 h else rest1 with hrest2
          have hinv2 : HOInv hospitals rest2 s2 := by
            refine ⟨hcapLe2, ?_, hcons2, ?_, ?_, ?_⟩
            · intro h' hh'
              have hcases : h' ∈ rest1 ∨ h' = h := by
                rw [hrest2] at hh'
                by_cases hca : hrCheckAvailable s2 h
                · simp only [hca, if_true, jsPush] at hh'
                  rcases List.mem_append.mp hh' with hx | hx
                  · exact Or.inl hx
                  · exact Or.inr (List.mem_singleton.mp hx)
                · simp only [hca, if_false] at hh'
                  exact Or.inl hh'
              rcases hcases with hx | rfl
              · have hne : h' ≠ h := fun hc => hnotrest1 (hc ▸ hx)
                have : s2.hmatching h' = s1.hmatching h' := by
                  simp only [hs2, hrMatchPair]
                  rw [Function.update_noteq hne]
                rw [this]
                exact hinv1.freeLt h' hx
              · have hca : hrCheckAvailable s2 h' = true := by
                  by_contra hc
                  rw [hrest2] at hh'
                  simp only [hc, if_false] at hh'
                  exact hnotrest1 hh'
                unfold hrCheckAvailable at hca
                have hlt := (Bool.and_eq_true _ _).mp hca |>.1
                simpa using hlt
            · rw [hrest2]
              by_cases hca : hrCheckAvailable s2 h
              · simp only [hca, if_true, jsPush]
                rw [List.nodup_append]
                exact ⟨hinv1.freeNodup, List.nodup_singleton h,
                  fun x hx hy => hnotrest1 ((List.mem_singleton.mp hy) ▸ hx)⟩
              · simp only [hca, if_false]
                exact hinv1.freeNodup
            · intro h' hh'
              rw [hrest2] at hh'
              by_cases hca : hrCheckAvailable s2 h
              · simp only [hca, if_true, jsPush] at hh'
                rcases List.mem_append.mp hh' with hx | hx
                · exact hinv1.freeSub h' hx
                · exact (List.mem_singleton.mp hx) ▸ hhmem
              · simp only [hca, if_false] at hh'
                exact hinv1.freeSub h' hh'
            · intro r' h' hr'
              by_cases hrr : r' = r
              · subst hrr
                have : s2.rmatch r' = some h := by
                  simp [hs2, hrMatchPair]
                rw [this] at hr'
                exact (Option.some_injective _ hr') ▸ hhmem
              · have : s2.rmatch r' = s1.rmatch r' := by
                  simp only [hs2, hrMatchPair]
                  rw [Function.update_noteq hrr]
                rw [this] at hr'
                exact hinv1.matchSub r' h' hr'
          exact ih _ _ (hrHospDeletions_preserves hospitals r _ s2 rest2 hinv2)

/-- C2.  For every Hospital-Resident instance of the data model
(capacities are positive integers; a fresh solve starts from empty
matchings), solving in either optimality direction keeps every
hospital's realized match count at or below its capacity — both in the
final state and at every committed loop boundary (the `timeout`
constructor exposes the state after any prefix of steps, so no
overcapacity ever survives a step). -/
theorem c2_capacity_invariant (residents hospitals : List Nat) (s : HRState)
    (hcap : ∀ h ∈ hospitals, 1 ≤ s.capacity h)
    (hfresh : ∀ h, s.hmatching h = [])
    (hrm : ∀ r, s.rmatch r = none)
    (hnd : hospitals.Nodup) :
    ∀ fuel : Nat,
      hrCapOutcome hospitals (hrSolve fuel residents hospitals s HROpt.resident) ∧
      hrCapOutcome hospitals (hrSolve fuel residents hospitals s HROpt.hospital) := by
  intro fuel
  constructor
  · exact hrResidentLoop_cap hospitals fuel residents s
      (fun h _ => by rw [hfresh h]; exact Nat.zero_le _)
  · refine hrHospitalLoop_cap hospitals fuel hospitals s ?_
    refine ⟨fun h _ => by rw [hfresh h]; exact Nat.zero_le _, ?_, ?_, hnd,
      fun h hh => hh, ?_⟩
    · intro h hh
      rw [hfresh h]
      exact lt_of_lt_of_le Nat.zero_lt_one (hcap h hh)
    · intro r h
      rw [hfresh h, hrm r]
      simp
    · intro r h hr
      rw [hrm r] at hr
      cases hr

/-- Witness for `c2_capacity_invariant` at the spec's HR example. -/
theorem c2_capacity_invariant_witness :
    hrCapOutcome [10, 11] (hrSolve 20 [0, 1, 2] [10, 11] hrExState HROpt.resident) ∧
    hrCapOutcome [10, 11] (hrSolve 20 [0, 1, 2] [10, 11] hrExState HROpt.hospital) :=
  c2_capacity_invariant [0, 1, 2] [10, 11] hrExState
    (by decide) (fun h => rfl) (fun r => rfl) (by decide) 20

/-! ## C8 — `checkStability` never throws and is a pure query

`prefers` is the only callee that can throw (when `_originalPrefs` was
never assigned); every comparison guards the `null` cases before
calling it, mirroring JavaScript's `&&`/`||` short-circuiting. -/

/-- `Player.prefers` on the SM heap; `none` models the
`Preferences not set` throw. -/
def smPrefersOpt (hp : Heap) (p a b : Nat) : Option Bool :=
  match (hp p).origPrefs with
  | none => none
  | some o => some (decide (jsIndexOf o a < jsIndexOf o b))

/-- Inner reviewer loop of `StableMarriage.checkStability`. -/
def smBlockingInner (hp : Heap) (su : Nat) :
    List Nat → List (Nat × Nat) → Option (List (Nat × Nat))
  | [], acc => some acc
  | rev :: rest, acc =>
    match (hp su).matching, (hp rev).matching with
    | some ms, some mr =>
      match smPrefersOpt hp su rev ms with
      | none => none
      | some false => smBlockingInner hp su rest acc
      | some true =>
        match smPrefersOpt hp rev su mr with
        | none => none
        | some b2 =>
          smBlockingInner hp su rest (if b2 then jsPush acc (su, rev) else acc)
    | _, _ => smBlockingInner hp su rest acc

/-- Outer suitor loop. -/
def smBlockingOuter (hp : Heap) (reviewers : List Nat) :
    List Nat → List (Nat × Nat) → Option (List (Nat × Nat))
  | [], acc => some acc
  | su :: rest, acc =>
    match smBlockingInner hp su reviewers acc with
    | none => none
    | some acc' => smBlockingOuter hp reviewers rest acc'

/-- `StableMarriage.checkStability`: records the blocking pairs and
returns whether there are none. -/
def smCheckStability (hp : Heap) (suitors reviewers : List Nat) :
    Option (Bool × List (Nat × Nat)) :=
  match smBlockingOuter hp reviewers suitors [] with
  | none => none
  | some prs => some (decide (prs.length = 0), prs)

/-- `Player.prefers` for residents / `Hospital.prefers`. -/
def hrPrefersR (s : HRState) (r a b : Nat) : Option Bool :=
  match s.rorig r with
  | none => none
  | some o => some (decide (jsIndexOf o a < jsIndexOf o b))

def hrPrefersH (s : HRState) (h a b : Nat) : Option Bool :=
  match s.horig h with
  | none => none
  | some o => some (decide (jsIndexOf o a < jsIndexOf o b))

/-- `checkMutualPreference(resident, hospital)` (current lists). -/
def hrMutualPref (s : HRState) (r h : Nat) : Bool :=
  r ∈ s.hprefs h && h ∈ s.rprefs r

/-- `checkResidentUnhappy`: unmatched or prefers `h` to the match. -/
def hrResidentUnhappy (s : HRState) (r h : Nat) : Option Bool :=
  match s.rmatch r with
  | none => some true
  | some m => hrPrefersR s r h m

/-- `hospital.matching.some((match) => hospital.prefers(resident, match))`. -/
def hrAnyPrefersH (s : HRState) (h r : Nat) : List Nat → Option Bool
  | [] => some false
  | m :: rest =>
    match hrPrefersH s h r m with
    | none => none
    | some true => some true
    | some false => hrAnyPrefersH s h r rest

/-- `checkHospitalUnhappy`: spare capacity or prefers the resident to
some current match. -/
def hrHospitalUnhappy (s : HRState) (r h : Nat) : Option Bool :=
  if (s.hmatching h).length < s.capacity h then some true
  else hrAnyPrefersH s h r (s.hmatching h)

/-- Inner hospital loop of `HospitalResident.checkStability`. -/
def hrBlockingInner (s : HRState) (r : Nat) :
    List Nat → List (Nat × Nat) → Option (List (Nat × Nat))
  | [], acc => some acc
  | hosp :: rest, acc =>
    if hrMutualPref s r hosp then
      match hrResidentUnhappy s r hosp with
      | none => none
      | some false => hrBlockingInner s r rest acc
      | some true =>
        match hrHospitalUnhappy s r hosp with
        | none => none
        | some b =>
          hrBlockingInner s r rest (if b then jsPush acc (r, hosp) else acc)
    else hrBlockingInner s r rest acc

/-- Outer resident loop. -/
def hrBlockingOuter (s : HRState) (hospitals : List Nat) :
    List Nat → List (Nat × Nat) → Option (List (Nat × Nat))
  | [], acc => some acc
  | r :: rest, acc =>
    match hrBlockingInner s r hospitals acc with
    | none => none
    | some acc' => hrBlockingOuter s hospitals rest acc'

/-- `HospitalResident.checkStability`. -/
def hrCheckStability (s : HRState) (residents hospitals : List Nat) :
    Option (Bool × List (Nat × Nat)) :=
  match hrBlockingOuter s hospitals residents [] with
  | none => none
  | some prs => some (decide (prs.length = 0), prs)

theorem smBlockingInner_total (hp : Heap) (su : Nat)
    (hsu : (hp su).origPrefs ≠ none)
    (hrev : ∀ r ∈ reviewers, (hp r).origPrefs ≠ none) :
    ∀ acc, ∃ res, smBlockingInner hp su reviewers acc = some res := by
  induction reviewers with
  | nil => intro acc; exact ⟨acc, rfl⟩
  | cons rev rest ih =>
    intro acc
    have hrevp : (hp rev).origPrefs ≠ none := hrev rev (List.mem_cons_self _ _)
    have hrest : ∀ r ∈ rest, (hp r).origPrefs ≠ none :=
      fun r hr => hrev r (List.mem_cons_of_mem _ hr)
    simp only [smBlockingInner]
    cases hms : (hp su).matching with
    | none => exact ih hrest acc
    | some ms =>
      cases hmr : (hp rev).matching with
      | none => exact ih hrest acc
      | some mr =>
        obtain ⟨o1, ho1⟩ := Option.ne_none_iff_exists'.mp hsu
        obtain ⟨o2, ho2⟩ := Option.ne_none_iff_exists'.mp hrevp
        simp only [smPrefersOpt, ho1, ho2]
        cases hdec : decide (jsIndexOf o1 rev < jsIndexOf o1 ms) with
        | false => exact ih hrest acc
        | true => exact ih hrest _

theorem smBlockingOuter_total (hp : Heap) (reviewers : List Nat)
    (hrev : ∀ r ∈ reviewers, (hp r).origPrefs ≠ none) :
    ∀ (suitors : List Nat), (∀ p ∈ suitors, (hp p).origPrefs ≠ none) →
      ∀ acc, ∃ res, smBlockingOuter hp reviewers suitors acc = some res := by
  intro suitors
  induction suitors with
  | nil => intro _ acc; exact ⟨acc, rfl⟩
  | cons su rest ih =>
    intro hsu acc
    obtain ⟨acc', hacc'⟩ := smBlockingInner_total hp su
      (hsu su (List.mem_cons_self _ _)) hrev acc
    simp only [smBlockingOuter, hacc']
    exact ih (fun p hp' => hsu p (List.mem_cons_of_mem _ hp')) acc'

theorem hrAnyPrefersH_total (s : HRState) (h r : Nat)
    (hh : s.horig h ≠ none) :
    ∀ l, ∃ b, hrAnyPrefersH s h r l = some b := by
  intro l
  induction l with
  | nil => exact ⟨false, rfl⟩
  | cons m rest ih =>
    obtain ⟨o, ho⟩ := Option.ne_none_iff_exists'.mp hh
    simp only [hrAnyPrefersH, hrPrefersH, ho]
    by_cases hb : jsIndexOf o r < jsIndexOf o m
    · exact ⟨true, by simp [hb]⟩
    · simpa [hb] using ih

theorem hrBlockingInner_total (s : HRState) (r : Nat)
    (hr : s.rorig r ≠ none)
    (hhos : ∀ h ∈ hospitals, s.horig h ≠ none) :
    ∀ acc, ∃ res, hrBlockingInner s r hospitals acc = some res := by
  induction hospitals with
  | nil => intro acc; exact ⟨acc, rfl⟩
  | cons hosp rest ih =>
    intro acc
    have hhosp : s.horig hosp ≠ none := hhos hosp (List.mem_cons_self _ _)
    have hrest : ∀ h ∈ rest, s.horig h ≠ none :=
      fun h hh => hhos h (List.mem_cons_of_mem _ hh)
    simp only [hrBlockingInner]
    by_cases hmut : hrMutualPref s r hosp
    · simp only [hmut, if_true]
      have hru : ∃ b, hrResidentUnhappy s r hosp = some b := by
        unfold hrResidentUnhappy
        cases hrm : s.rmatch r with
        | none => exact ⟨true, rfl⟩
        | some m =>
          obtain ⟨o, ho⟩ := Option.ne_none_iff_exists'.mp hr
          exact ⟨decide (jsIndexOf o hosp < jsIndexOf o m), by simp [hrPrefersR, ho]⟩
      obtain ⟨b, hb⟩ := hru
      rw [hb]
      cases b with
      | false => exact ih hrest acc
      | true =>
        have hhu : ∃ b2, hrHospitalUnhappy s r hosp = some b2 := by
          unfold hrHospitalUnhappy
          by_cases hcap : (s.hmatching hosp).length < s.capacity hosp
          · exact ⟨true, by simp [hcap]⟩
          · obtain ⟨b2, hb2⟩ := hrAnyPrefersH_total s hosp r hhosp (s.hmatching hosp)
            exact ⟨b2, by simp [hcap, hb2]⟩
        obtain ⟨b2, hb2⟩ := hhu
        rw [hb2]
        exact ih hrest _
    · simp only [hmut, if_false]
      exact ih hrest acc

theorem hrBlockingOuter_total (s : HRState) (hospitals : List Nat)
    (hhos : ∀ h ∈ hospitals, s.horig h ≠ none) :
    ∀ (residents : List Nat), (∀ r ∈ residents, s.rorig r ≠ none) →
      ∀ acc, ∃ res, hrBlockingOuter s hospitals residents acc = some res := by
  intro residents
  induction residents with
  | nil => intro _ acc; exact ⟨acc, rfl⟩
  | cons r rest ih =>
    intro hres acc
    obtain ⟨acc', hacc'⟩ := hrBlockingInner_total s r
      (hres r (List.mem_cons_self _ _)) hhos acc
    simp only [hrBlockingOuter, hacc']
    exact ih (fun p hp' => hres p (List.mem_cons_of_mem _ hp')) acc'

/-- On a heap where no suitor is matched (the state before `solve`),
the inner loop adds nothing. -/
theorem smBlockingInner_unmatched (hp : Heap) (su : Nat)
    (hm : (hp su).matching = none) :
    ∀ (reviewers : List Nat) (acc : List (Nat × Nat)),
      smBlockingInner hp su reviewers acc = some acc := by
  intro reviewers
  induction reviewers with
  | nil => intro acc; rfl
  | cons rev rest ih =>
    intro acc
    simp only [smBlockingInner, hm]
    exact ih acc

theorem smBlockingOuter_unmatched (hp : Heap) (reviewers : List Nat) :
    ∀ (suitors : List Nat), (∀ p ∈ suitors, (hp p).matching = none) →
      ∀ acc, smBlockingOuter hp reviewers suitors acc = some acc := by
  intro suitors
  induction suitors with
  | nil => intro _ acc; rfl
  | cons su rest ih =>
    intro hsu acc
    simp only [smBlockingOuter,
      smBlockingInner_unmatched hp su (hsu su (List.mem_cons_self _ _)) reviewers acc]
    exact ih (fun p hp' => hsu p (List.mem_cons_of_mem _ hp')) acc

/-- C8.  `checkStability` never throws on any game state in which every
party member's `_originalPrefs` has been assigned — which the game
constructors guarantee by calling `setPrefs` on every cloned entity —
whatever the current matching state is (before or after `solve`): it
returns a boolean that is `true` exactly when the recorded list of
witnessing blocking pairs is empty.  Before a solve (all matches
`null`), the Stable Marriage check returns `true` with no recorded
pairs.  (Shown for the cited `StableMarriage.checkStability` and
`HospitalResident.checkStability`.) -/
theorem c8_checkStability_total (hp : Heap) (suitors reviewers : List Nat)
    (s : HRState) (residents hospitals : List Nat)
    (hsu : ∀ p ∈ suitors, (hp p).origPrefs ≠ none)
    (hrev : ∀ r ∈ reviewers, (hp r).origPrefs ≠ none)
    (hres : ∀ r ∈ residents, s.rorig r ≠ none)
    (hhos : ∀ h ∈ hospitals, s.horig h ≠ none) :
    (∃ prs, smCheckStability hp suitors reviewers =
        some (decide (prs.length = 0), prs)) ∧
    (∃ prs, hrCheckStability s residents hospitals =
        some (decide (prs.length = 0), prs)) ∧
    ((∀ p ∈ suitors, (hp p).matching = none) →
      smCheckStability hp suitors reviewers = some (true, [])) := by
  refine ⟨?_, ?_, ?_⟩
  · obtain ⟨prs, hprs⟩ := smBlockingOuter_total hp reviewers hrev suitors hsu []
    exact ⟨prs, by simp [smCheckStability, hprs]⟩
  · obtain ⟨prs, hprs⟩ := hrBlockingOuter_total s hospitals hhos residents hres []
    exact ⟨prs, by simp [hrCheckStability, hprs]⟩
  · intro hall
    rw [smCheckStability, smBlockingOuter_unmatched hp reviewers suitors hall []]
    rfl

/-- Witness for `c8_checkStability_total` on concrete game states. -/
theorem c8_checkStability_total_witness :
    (∃ prs, smCheckStability (fun _ => ⟨"p", [], none, some []⟩) [0] [1] =
        some (decide (prs.length = 0), prs)) ∧
    (∃ prs, hrCheckStability
        ⟨fun _ => [], fun _ => none, fun _ => [], fun _ => [],
         fun _ => 1, fun _ => some [], fun _ => some []⟩ [0] [10] =
        some (decide (prs.length = 0), prs)) ∧
    ((∀ p ∈ [0], ((fun _ => (⟨"p", [], none, some []⟩ : PRec)) p).matching = none) →
      smCheckStability (fun _ => ⟨"p", [], none, some []⟩) [0] [1] =
        some (true, [])) :=
  c8_checkStability_total (fun _ => ⟨"p", [], none, some []⟩) [0] [1]
    ⟨fun _ => [], fun _ => none, fun _ => [], fun _ => [],
     fun _ => 1, fun _ => some [], fun _ => some []⟩ [0] [10]
    (fun p _ => by simp) (fun r _ => by simp)
    (fun r _ => by simp) (fun h _ => by simp)

/-! ## C9 — deep copy: no caller mutation, and determinism

The constructor allocates clones in the address region
`[base, base + n)`; the algorithm reads and writes only that region.
Hence (i) caller cells are never mutated, and (ii) re-constructing a
fresh game from the post-solve heap rebuilds a bit-identical game, so
a second solve returns identical results. -/

theorem rankIn_lt_length_of_mem {l : List Nat} {p : Nat} (h : p ∈ l) :
    rankIn l p < l.length := by
  induction l with
  | nil => cases h
  | cons a l ih =>
    by_cases hap : a = p
    · subst hap
      simp [rankIn, findIdx]
    · rcases List.mem_cons.mp h with rfl | h'
      · exact absurd rfl hap
      · have := ih h'
        rw [rankIn_cons_ne l hap h']
        simpa using Nat.succ_lt_succ this

/-- The clone region. -/
def InRegion (base n j : Nat) : Prop := base ≤ j ∧ j < base + n

theorem cloneId_inRegion {base : Nat} {allPlayers : List Nat} {p : Nat}
    (h : p ∈ allPlayers) :
    InRegion base allPlayers.length (cloneId base allPlayers p) :=
  ⟨Nat.le_add_right _ _, by
    have := rankIn_lt_length_of_mem h
    simp only [cloneId]
    omega⟩

instance (base n j : Nat) : Decidable (InRegion base n j) := by
  unfold InRegion
  infer_instance

/-- The allocation fold of `smConstruct`, characterised pointwise. -/
theorem smAlloc_fold_apply (base : Nat) (h : Heap) (allPlayers : List Nat) :
    ∀ (n : Nat) (hh : Heap) (j : Nat),
      ((List.range n).foldl (smAllocStep base h allPlayers) hh) j
        = if InRegion base n j then
            { pname := (h (allPlayers.getD (j - base) 0)).pname
              prefs := [], matching := none, origPrefs := none }
          else hh j := by
  intro n
  induction n with
  | zero =>
    intro hh j
    have hr : ¬ InRegion base 0 j := by
      intro hc
      rcases hc with ⟨h1, h2⟩
      omega
    simp [hr]
  | succ n ih =>
    intro hh j
    rw [List.range_succ, List.foldl_append]
    simp only [List.foldl_cons, List.foldl_nil]
    rw [smAllocStep, Function.update_apply, ih]
    by_cases hj : j = base + n
    · subst hj
      have h1 : InRegion base (n + 1) (base + n) :=
        ⟨Nat.le_add_right _ _, by omega⟩
      have h2 : ¬ InRegion base n (base + n) := by
        intro hc
        rcases hc with ⟨_, hc2⟩
        omega
      simp only [if_pos rfl, h2, if_false, h1, if_true]
      have : base + n - base = n := by omega
      rw [this]
    · simp only [hj, if_false]
      by_cases hr : InRegion base n j
      · have h1 : InRegion base (n + 1) j := ⟨hr.1, by have := hr.2; omega⟩
        simp [hr, h1]
      · by_cases h1 : InRegion base (n + 1) j
        · exfalso
          rcases h1 with ⟨ha, hb⟩
          exact hr ⟨ha, by omega⟩
        · simp [hr, h1]

/-- A fold whose steps write only region cells leaves all other cells
untouched. -/
theorem foldl_update_outside {α : Type} (P : Nat → Prop)
    (f : Heap → α → Heap) (l : List α)
    (hf : ∀ (hh : Heap) (a : α) (j : Nat), a ∈ l → ¬ P j → f hh a j = hh j) :
    ∀ (hh : Heap) (j : Nat), ¬ P j → (l.foldl f hh) j = hh j := by
  induction l with
  | nil => intro hh j _; rfl
  | cons a rest ih =>
    intro hh j hj
    simp only [List.foldl_cons]
    rw [ih (fun hh' a' j' ha' hj' => hf hh' a' j' (List.mem_cons_of_mem _ ha') hj')
      (f hh a) j hj]
    exact hf hh a j (List.mem_cons_self _ _) hj

/-- `smConstruct` writes only the clone region. -/
theorem smConstruct_outside (base : Nat) (h : Heap) (S R : List Nat) :
    ∀ j, ¬ InRegion base (S ++ R).length j →
      (smConstruct base h S R).1 j = h j := by
  intro j hj
  show ((S ++ R).foldl (smCloneStep base h (S ++ R))
    (((List.range (S ++ R).length).foldl (smAllocStep base h (S ++ R)) h))) j = h j
  rw [foldl_update_outside (InRegion base (S ++ R).length) _ _ ?hf _ j hj]
  · rw [smAlloc_fold_apply, if_neg hj]
  case hf =>
    intro hh p j' hp hj'
    refine Function.update_noteq (fun hc => hj' ?_) _ _
    exact hc ▸ cloneId_inRegion (by simpa using hp)

/-- After construction, every clone-region cell is unmatched and its
preference list stays inside the region. -/
theorem smConstruct_region_wf (base : Nat) (h : Heap) (S R : List Nat)
    (hclos : ∀ p ∈ S ++ R, ∀ q ∈ (h p).prefs, q ∈ S ++ R) :
    ∀ j, InRegion base (S ++ R).length j →
      ((smConstruct base h S R).1 j).matching = none ∧
      (∀ q ∈ ((smConstruct base h S R).1 j).prefs,
        InRegion base (S ++ R).length q) := by
  have hgen :
      ∀ (l : List Nat) (hh : Heap),
        (∀ p ∈ l, p ∈ S ++ R) →
        (∀ j, InRegion base (S ++ R).length j →
          (hh j).matching = none ∧
          (∀ q ∈ (hh j).prefs, InRegion base (S ++ R).length q)) →
        ∀ j, InRegion base (S ++ R).length j →
          ((l.foldl (smCloneStep base h (S ++ R)) hh) j).matching = none ∧
          (∀ q ∈ ((l.foldl (smCloneStep base h (S ++ R)) hh) j).prefs,
            InRegion base (S ++ R).length q) := by
    intro l
    induction l with
    | nil => intro hh _ hwf j hj; exact hwf j hj
    | cons p rest ih =>
      intro hh hmem hwf j hj
      simp only [List.foldl_cons]
      refine ih (smCloneStep base h (S ++ R) hh p)
        (fun q hq => hmem q (List.mem_cons_of_mem _ hq)) ?_ j hj
      intro j' hj'
      rw [smCloneStep, Function.update_apply]
      by_cases hcid : j' = cloneId base (S ++ R) p
      · simp only [hcid, if_true, if_pos rfl]
        refine ⟨(hwf _ (hcid ▸ hj')).1, ?_⟩
        intro q hq
        simp only [List.mem_map] at hq
        obtain ⟨q0, hq0, rfl⟩ := hq
        exact cloneId_inRegion (hclos p (hmem p (List.mem_cons_self _ _)) q0 hq0)
      · simp only [hcid, if_false]
        exact hwf j' hj'
  intro j hj
  refine hgen (S ++ R) _ (fun p hp => hp) ?_ j hj
  intro j' hj'
  rw [smAlloc_fold_apply, if_pos hj']
  exact ⟨rfl, fun q hq => absurd hq (List.not_mem_nil q)⟩

/-- The clone fold is determined by the caller cells it reads and the
region cells it rewrites. -/
theorem smClone_fold_congr (base : Nat) (h h' : Heap) (AP : List Nat) :
    ∀ (l : List Nat) (hh hh' : Heap),
      (∀ p ∈ l, h p = h' p) →
      (∀ p ∈ l, p ∈ AP) →
      (∀ j, InRegion base AP.length j → hh j = hh' j) →
      ∀ j, InRegion base AP.length j →
        (l.foldl (smCloneStep base h AP) hh) j =
          (l.foldl (smCloneStep base h' AP) hh') j := by
  intro l
  induction l with
  | nil => intro hh hh' _ _ hr j hj; exact hr j hj
  | cons p rest ih =>
    intro hh hh' hag hmem hr j hj
    simp only [List.foldl_cons]
    refine ih (smCloneStep base h AP hh p) (smCloneStep base h' AP hh' p)
      (fun q hq => hag q (List.mem_cons_of_mem _ hq))
      (fun q hq => hmem q (List.mem_cons_of_mem _ hq)) ?_ j hj
    intro j' hj'
    have hpmem : p ∈ AP := hmem p (List.mem_cons_self _ _)
    have hpeq : h p = h' p := hag p (List.mem_cons_self _ _)
    have hcidreg : InRegion base AP.length (cloneId base AP p) :=
      cloneId_inRegion hpmem
    simp only [smCloneStep]
    rw [Function.update_apply, Function.update_apply]
    by_cases hcid : j' = cloneId base AP p
    · simp only [hcid, if_true, if_pos rfl]
      rw [hpeq, hr _ hcidreg]
    · simp only [hcid, if_false]
      exact hr j' hj'

/-- Caller-cell agreement makes `smConstruct` produce identical clone
regions. -/
theorem smConstruct_congr (base : Nat) (h h' : Heap) (S R : List Nat)
    (hagree : ∀ p ∈ S ++ R, h p = h' p) :
    ∀ j, InRegion base (S ++ R).length j →
      (smConstruct base h S R).1 j = (smConstruct base h' S R).1 j := by
  intro j hj
  show ((S ++ R).foldl (smCloneStep base h (S ++ R)) _) j
    = ((S ++ R).foldl (smCloneStep base h' (S ++ R)) _) j
  refine smClone_fold_congr base h h' (S ++ R) (S ++ R) _ _ hagree
    (fun p hp => hp) ?_ j hj
  intro j' hj'
  rw [smAlloc_fold_apply, smAlloc_fold_apply, if_pos hj', if_pos hj']
  have hidx : j' - base < (S ++ R).length := by
    rcases hj' with ⟨h1, h2⟩
    omega
  have hmem : (S ++ R).getD (j' - base) 0 ∈ S ++ R := by
    rw [List.getD_eq_getElem _ _ hidx]
    exact List.getElem_mem _
  rw [hagree _ hmem]

/-! ### Write confinement of the `stableMarriage` loop -/

/-- Outside-region cells after a loop outcome are unchanged. -/
def resOutside (P : Nat → Prop) (h : Heap) : Res Heap → Prop
  | .ok h' => ∀ j, ¬ P j → h' j = h j
  | .timeout h' => ∀ j, ¬ P j → h' j = h j
  | .err => True

theorem smUnmatchPair_outside (h : Heap) (a b j : Nat)
    (ha : j ≠ a) (hb : j ≠ b) : smUnmatchPair h a b j = h j := by
  simp only [smUnmatchPair]
  rw [Function.update_noteq hb, Function.update_noteq ha]

theorem smMatchPair_outside (h : Heap) (a b j : Nat)
    (ha : j ≠ a) (hb : j ≠ b) : smMatchPair h a b j = h j := by
  simp only [smMatchPair]
  rw [Function.update_noteq hb, Function.update_noteq ha]

theorem smDeletePair_outside (h : Heap) (a b j : Nat)
    (ha : j ≠ a) (hb : j ≠ b) : smDeletePair h a b j = h j := by
  simp only [smDeletePair, smForget]
  rw [Function.update_noteq hb, Function.update_noteq ha]

theorem smUnmatchPair_prefs (h : Heap) (a b p : Nat) :
    ((smUnmatchPair h a b) p).prefs = (h p).prefs := by
  unfold smUnmatchPair
  by_cases hb : p = b
  · subst hb
    rw [Function.update_same]
    show (Function.update h a { h a with matching := none } p).prefs = (h p).prefs
    by_cases ha : p = a
    · subst ha
      rw [Function.update_same]
    · rw [Function.update_noteq ha]
  · rw [Function.update_noteq hb]
    by_cases ha : p = a
    · subst ha
      rw [Function.update_same]
    · rw [Function.update_noteq ha]

theorem smMatchPair_prefs (h : Heap) (a b p : Nat) :
    ((smMatchPair h a b) p).prefs = (h p).prefs := by
  unfold smMatchPair
  by_cases hb : p = b
  · subst hb
    rw [Function.update_same]
    show (Function.update h a { h a with matching := some p } p).prefs = (h p).prefs
    by_cases ha : p = a
    · subst ha
      rw [Function.update_same]
    · rw [Function.update_noteq ha]
  · rw [Function.update_noteq hb]
    by_cases ha : p = a
    · subst ha
      rw [Function.update_same]
    · rw [Function.update_noteq ha]

theorem smDeletePair_prefs_subset (h : Heap) (a b p q : Nat)
    (hq : q ∈ ((smDeletePair h a b) p).prefs) : q ∈ (h p).prefs := by
  simp only [smDeletePair, smForget] at hq
  rw [Function.update_apply] at hq
  by_cases hb : p = b
  · subst hb
    simp only [if_pos rfl] at hq
    rw [Function.update_apply] at hq
    by_cases ha : p = a
    · subst ha
      simp only [if_pos rfl] at hq
      exact List.mem_of_mem_filter (List.mem_of_mem_filter hq)
    · simp only [ha, if_false] at hq
      exact List.mem_of_mem_filter hq
  · simp only [hb, if_false] at hq
    rw [Function.update_apply] at hq
    by_cases ha : p = a
    · subst ha
      simp only [if_pos rfl] at hq
      exact List.mem_of_mem_filter hq
    · simpa [ha] using hq

theorem smDeletePair_matching (h : Heap) (a b p : Nat) :
    ((smDeletePair h a b) p).matching = (h p).matching := by
  simp only [smDeletePair, smForget]
  rw [Function.update_apply]
  by_cases hb : p = b
  · subst hb
    simp only [if_pos rfl]
    rw [Function.update_apply]
    by_cases ha : p = a <;> simp [ha]
  · simp only [hb, if_false]
    rw [Function.update_apply]
    by_cases ha : p = a <;> simp [ha]

theorem smDeletions_fold_outside (rev : Nat) (succs : List Nat) (hh : Heap)
    (P : Nat → Prop) (hsuc : ∀ sc ∈ succs, P sc) (hrev : P rev) :
    ∀ j, ¬ P j →
      (succs.foldl (fun hh sc => smDeletePair hh sc rev) hh) j = hh j := by
  intro j hj
  refine foldl_update_outside P _ succs ?_ hh j hj
  intro hh' sc j' hsc hj'
  exact smDeletePair_outside hh' sc rev j'
    (fun hc => hj' (hc ▸ hsuc sc hsc)) (fun hc => hj' (hc ▸ hrev))

theorem smDeletions_fold_prefs_subset (rev : Nat) :
    ∀ (succs : List Nat) (hh : Heap) (p q : Nat),
      q ∈ ((succs.foldl (fun hh sc => smDeletePair hh sc rev) hh) p).prefs →
      q ∈ (hh p).prefs := by
  intro succs
  induction succs with
  | nil => intro hh p q hq; exact hq
  | cons sc rest ih =>
    intro hh p q hq
    simp only [List.foldl_cons] at hq
    exact smDeletePair_prefs_subset hh sc rev p q (ih _ p q hq)

theorem smDeletions_fold_matching (rev : Nat) :
    ∀ (succs : List Nat) (hh : Heap) (p : Nat),
      ((succs.foldl (fun hh sc => smDeletePair hh sc rev) hh) p).matching =
        (hh p).matching := by
  intro succs
  induction succs with
  | nil => intro hh p; rfl
  | cons sc rest ih =>
    intro hh p
    simp only [List.foldl_cons]
    rw [ih _ p, smDeletePair_matching]

/-- The `stableMarriage` worklist loop reads and writes only cells of
the closed region `P`. -/
theorem smLoop_outside (P : Nat → Prop) :
    ∀ (fuel : Nat) (free : List Nat) (h : Heap),
      (∀ p ∈ free, P p) →
      (∀ p, P p → ∀ q ∈ (h p).prefs, P q) →
      (∀ p, P p → ∀ m, (h p).matching = some m → P m) →
      resOutside P h (smLoop fuel free h) := by
  intro fuel
  induction fuel with
  | zero => intro free h _ _ _ j _; rfl
  | succ fuel ih =>
    intro free h hfree hclos hmat
    show resOutside P h (smLoop (fuel + 1) free h)
    unfold smLoop
    cases hpop : jsPop free with
    | none => intro j _; rfl
    | some pr =>
      rcases pr with ⟨rest, su⟩
      have hsufree : su ∈ free := by
        rw [jsPop_eq_some hpop]; simp
      have hsu : P su := hfree su hsufree
      have hrest : ∀ p ∈ rest, P p := by
        intro p hp
        refine hfree p ?_
        rw [jsPop_eq_some hpop]
        simp [hp]
      simp only
      cases hpr : (h su).prefs with
      | nil => exact trivial
      | cons rev tl =>
        have hrev : P rev := hclos su hsu rev (by rw [hpr]; simp)
        simp only
        -- the step state and worklist
        rcases hcur : (h rev).matching with _ | cur
        · -- reviewer free
          simp only
          set h2 := smMatchPair h su rev with hh2
          set succs := playerGetSuccessors ((h2 rev).prefs) ((h2 rev).matching)
            with hsuccs
          set h3 := succs.foldl (fun hh sc => smDeletePair hh sc rev) h2 with hh3
          have hsuccsP : ∀ sc ∈ succs, P sc := by
            intro sc hsc
            rw [hsuccs] at hsc
            have : sc ∈ (h2 rev).prefs := by
              unfold playerGetSuccessors at hsc
              cases hm : (h2 rev).matching with
              | none => rw [hm] at hsc; cases hsc
              | some m =>
                rw [hm] at hsc
                exact List.mem_of_mem_drop hsc
            rw [hh2, smMatchPair_prefs] at this
            exact hclos rev hrev sc this
          have hout3 : ∀ j, ¬ P j → h3 j = h j := by
            intro j hj
            rw [hh3, smDeletions_fold_outside rev succs h2 P hsuccsP hrev j hj,
              hh2, smMatchPair_outside h su rev j
                (fun hc => hj (hc ▸ hsu)) (fun hc => hj (hc ▸ hrev))]
          have hclos3 : ∀ p, P p → ∀ q ∈ (h3 p).prefs, P q := by
            intro p hp q hq
            rw [hh3] at hq
            have := smDeletions_fold_prefs_subset rev succs h2 p q hq
            rw [hh2, smMatchPair_prefs] at this
            exact hclos p hp q this
          have hmat3 : ∀ p, P p → ∀ m, (h3 p).matching = some m → P m := by
            intro p hp m hm
            rw [hh3, smDeletions_fold_matching rev succs h2 p] at hm
            rw [hh2] at hm
            simp only [smMatchPair] at hm
            rw [Function.update_apply] at hm
            by_cases hpb : p = rev
            · simp only [hpb, if_pos rfl] at hm
              cases hm
              exact hsu
            · simp only [hpb, if_false] at hm
              rw [Function.update_apply] at hm
              by_cases hpa : p = su
              · simp only [hpa, if_pos rfl] at hm
                cases hm
                exact hrev
              · simp only [hpa, if_false] at hm
                exact hmat p hp m hm
          have hres := ih rest h3 hrest hclos3 hmat3
          cases hloop : smLoop fuel rest h3 with
          | ok hf =>
            intro j hj
            rw [hloop] at hres
            rw [hres j hj, hout3 j hj]
          | timeout hf =>
            intro j hj
            rw [hloop] at hres
            rw [hres j hj, hout3 j hj]
          | err => exact trivial
        · -- displace the current holder
          simp only
          have hcurP : P cur := hmat rev hrev cur hcur
          set h1 := smUnmatchPair h cur rev with hh1
          set h2 := smMatchPair h1 su rev with hh2
          set succs := playerGetSuccessors ((h2 rev).prefs) ((h2 rev).matching)
            with hsuccs
          set h3 := succs.foldl (fun hh sc => smDeletePair hh sc rev) h2 with hh3
          have hfree2 : ∀ p ∈ jsPush rest cur, P p := by
            intro p hp
            rcases List.mem_append.mp hp with hx | hx
            · exact hrest p hx
            · exact (List.mem_singleton.mp hx) ▸ hcurP
          have hsuccsP : ∀ sc ∈ succs, P sc := by
            intro sc hsc
            rw [hsuccs] at hsc
            have : sc ∈ (h2 rev).prefs := by
              unfold playerGetSuccessors at hsc
              cases hm : (h2 rev).matching with
              | none => rw [hm] at hsc; cases hsc
              | some m =>
                rw [hm] at hsc
                exact List.mem_of_mem_drop hsc
            rw [hh2, smMatchPair_prefs, hh1, smUnmatchPair_prefs] at this
            exact hclos rev hrev sc this
          have hout3 : ∀ j, ¬ P j → h3 j = h j := by
            intro j hj
            rw [hh3, smDeletions_fold_outside rev succs h2 P hsuccsP hrev j hj,
              hh2, smMatchPair_outside h1 su rev j
                (fun hc => hj (hc ▸ hsu)) (fun hc => hj (hc ▸ hrev)),
              hh1, smUnmatchPair_outside h cur rev j
                (fun hc => hj (hc ▸ hcurP)) (fun hc => hj (hc ▸ hrev))]
          have hclos3 : ∀ p, P p → ∀ q ∈ (h3 p).prefs, P q := by
            intro p hp q hq
            rw [hh3] at hq
            have := smDeletions_fold_prefs_subset rev succs h2 p q hq
            rw [hh2, smMatchPair_prefs, hh1, smUnmatchPair_prefs] at this
            exact hclos p hp q this
          have hmat3 : ∀ p, P p → ∀ m, (h3 p).matching = some m → P m := by
            intro p hp m hm
            rw [hh3, smDeletions_fold_matching rev succs h2 p] at hm
            rw [hh2] at hm
            simp only [smMatchPair] at hm
            rw [Function.update_apply] at hm
            by_cases hpb : p = rev
            · simp only [hpb, if_pos rfl] at hm
              cases hm
              exact hsu
            · simp only [hpb, if_false] at hm
              rw [Function.update_apply] at hm
              by_cases hpa : p = su
              · simp only [hpa, if_pos rfl] at hm
                cases hm
                exact hrev
              · simp only [hpa, if_false] at hm
                rw [hh1] at hm
                simp only [smUnmatchPair] at hm
                rw [Function.update_apply] at hm
                by_cases hpr' : p = rev
                · exact absurd hpr' hpb
                · simp only [hpr', if_false] at hm
                  rw [Function.update_apply] at hm
                  by_cases hpc : p = cur
                  · simp only [hpc, if_pos rfl] at hm
                    cases hm
                  · simp only [hpc, if_false] at hm
                    exact hmat p hp m hm
          have hres := ih (jsPush rest cur) h3 hfree2 hclos3 hmat3
          cases hloop : smLoop fuel (jsPush rest cur) h3 with
          | ok hf =>
            intro j hj
            rw [hloop] at hres
            rw [hres j hj, hout3 j hj]
          | timeout hf =>
            intro j hj
            rw [hloop] at hres
            rw [hres j hj, hout3 j hj]
          | err => exact trivial

/-- Extract the heap of a loop outcome (used only to name the
post-solve heap in witnesses). -/
def resHeapD : Res Heap → Heap
  | .ok x => x
  | .timeout x => x
  | .err => fun _ => ⟨"", [], none, none⟩

/-! ### The `HospitalResident` constructor's deep copy
(src/games/student-allocation.ts:685-723) over an explicit object
heap.  A cell holds a `Player` or a `Hospital`: resident cells use
`rmatch`, hospital cells use `hmatch` and `capacity`.  The solver is
the already-embedded `hrSolve`; its in-place mutations of the game's
entities are the cell-by-cell commit of its final state (`solve`
touches only `prefs` and `matching`: names, capacities and
`_originalPrefs` are read-only for it). -/

/-- A `Player`/`Hospital` heap cell for the HR facade. -/
structure HRRec where
  hrname : String
  prefs : List Nat
  rmatch : Option Nat
  hmatch : List Nat
  capacity : Nat
  origPrefs : Option (List Nat)
deriving Repr, DecidableEq

/-- The HR object heap. -/
def HRHeap : Type := Nat → HRRec

/-- `residentCloneMap`: resident clones are laid out from `base` in
caller order. -/
def hrCloneR (base : Nat) (Rs : List Nat) (r : Nat) : Nat :=
  base + rankIn Rs r

/-- `hospitalCloneMap`: hospital clones follow the resident clones. -/
def hrCloneH (base : Nat) (Rs Hs : List Nat) (x : Nat) : Nat :=
  base + Rs.length + rankIn Hs x

/-- `residentCloneMap.set(resident, new Player(resident.name))`. -/
def hrAllocResStep (base : Nat) (h : HRHeap) (Rs : List Nat)
    (hh : HRHeap) (i : Nat) : HRHeap :=
  Function.update hh (base + i)
    { hrname := (h (Rs.getD i 0)).hrname, prefs := [], rmatch := none,
      hmatch := [], capacity := 0, origPrefs := none }

/-- `hospitalCloneMap.set(hospital, new Hospital(hospital.name,
hospital.capacity))`. -/
def hrAllocHosStep (base : Nat) (h : HRHeap) (Rs Hs : List Nat)
    (hh : HRHeap) (i : Nat) : HRHeap :=
  Function.update hh (base + Rs.length + i)
    { hrname := (h (Hs.getD i 0)).hrname, prefs := [], rmatch := none,
      hmatch := [], capacity := (h (Hs.getD i 0)).capacity, origPrefs := none }

/-- `clone.setPrefs(resident.prefs.map(p => hospitalCloneMap.get(p)))`
with `setPrefs`'s null guard on `_originalPrefs`. -/
def hrCloneResStep (base : Nat) (h : HRHeap) (Rs Hs : List Nat)
    (hh : HRHeap) (r : Nat) : HRHeap :=
  Function.update hh (hrCloneR base Rs r)
    { hh (hrCloneR base Rs r) with
      prefs := (h r).prefs.map (hrCloneH base Rs Hs)
      origPrefs :=
        match (hh (hrCloneR base Rs r)).origPrefs with
        | none => some ((h r).prefs.map (hrCloneH base Rs Hs))
        | some o => some o }

/-- `clone.setPrefs(hospital.prefs.map(p => residentCloneMap.get(p)))`. -/
def hrCloneHosStep (base : Nat) (h : HRHeap) (Rs Hs : List Nat)
    (hh : HRHeap) (x : Nat) : HRHeap :=
  Function.update hh (hrCloneH base Rs Hs x)
    { hh (hrCloneH base Rs Hs x) with
      prefs := (h x).prefs.map (hrCloneR base Rs)
      origPrefs :=
        match (hh (hrCloneH base Rs Hs x)).origPrefs with
        | none => some ((h x).prefs.map (hrCloneR base Rs))
        | some o => some o }

/-- The `HospitalResident` constructor: allocate a fresh clone per
caller resident and hospital, then `setPrefs` each clone through the
clone maps.  Returns the new heap and the game's (clone-addressed)
resident and hospital lists. -/
def hrConstruct (base : Nat) (h : HRHeap) (Rs Hs : List Nat) :
    HRHeap × List Nat × List Nat :=
  let h1 := (List.range Rs.length).foldl (hrAllocResStep base h Rs) h
  let h2 := (List.range Hs.length).foldl (hrAllocHosStep base h Rs Hs) h1
  let h3 := Rs.foldl (hrCloneResStep base h Rs Hs) h2
  let h4 := Hs.foldl (hrCloneHosStep base h Rs Hs) h3
  (h4, Rs.map (hrCloneR base Rs), Hs.map (hrCloneH base Rs Hs))

/-- The algorithm's view of the heap: the fields `hospitalResident`
reads, cell by cell. -/
def hrView (h : HRHeap) : HRState :=
  { rprefs := fun r => (h r).prefs
    rmatch := fun r => (h r).rmatch
    hprefs := fun x => (h x).prefs
    hmatching := fun x => (h x).hmatch
    capacity := fun x => (h x).capacity
    rorig := fun r => (h r).origPrefs
    horig := fun x => (h x).origPrefs }

/-- The in-place mutations of a solve, committed cell by cell: each
game resident's `prefs`/`matching` and each game hospital's
`prefs`/`matching` take their final algorithm values. -/
def hrCommit (resIds hosIds : List Nat) (s : HRState) (h : HRHeap) : HRHeap :=
  let h1 := resIds.foldl (fun hh r =>
    Function.update hh r
      { hh r with prefs := s.rprefs r, rmatch := s.rmatch r }) h
  hosIds.foldl (fun hh x =>
    Function.update hh x
      { hh x with prefs := s.hprefs x, hmatch := s.hmatching x }) h1

/-- Construct at `base`, run `hospitalResident` on the game's
(cloned) entities, and commit the mutations back into the heap. -/
def hrRunOnHeap (fuel base : Nat) (h : HRHeap) (Rs Hs : List Nat)
    (opt : HROpt) : Res HRHeap :=
  let g := hrConstruct base h Rs Hs
  match hrSolve fuel g.2.1 g.2.2 (hrView g.1) opt with
  | .ok s => .ok (hrCommit g.2.1 g.2.2 s g.1)
  | .err => .err
  | .timeout s => .timeout (hrCommit g.2.1 g.2.2 s g.1)

/-- `matching.toRecord()` for HR: each (cloned) hospital's name mapped
to the names of its matched residents. -/
def hrRecordH (h : HRHeap) (gameHospitals : List Nat) :
    List (String × List String) :=
  gameHospitals.map (fun x =>
    ((h x).hrname, (h x).hmatch.map (fun r => (h r).hrname)))

/-- The full HR pipeline: construct (deep copy at `base`), solve,
commit, read the record. -/
def hrPipelineH (fuel base : Nat) (h : HRHeap) (Rs Hs : List Nat)
    (opt : HROpt) : Res (List (String × List String)) :=
  let g := hrConstruct base h Rs Hs
  match hrSolve fuel g.2.1 g.2.2 (hrView g.1) opt with
  | .ok s => .ok (hrRecordH (hrCommit g.2.1 g.2.2 s g.1) g.2.2)
  | .err => .err
  | .timeout s => .timeout (hrRecordH (hrCommit g.2.1 g.2.2 s g.1) g.2.2)

/-- Extract the heap of an HR outcome (names the post-solve heap in
witnesses). -/
def resHRHeapD : Res HRHeap → HRHeap
  | .ok x => x
  | .timeout x => x
  | .err => fun _ => ⟨"", [], none, [], 0, none⟩

/-- The caller entities of the README's HR example: residents `A,B,C`
at `0,1,2`, hospitals `CityHospital` (capacity 2) and `Memorial`
(capacity 1) at `3,4`. -/
def c9HrHeap : HRHeap := fun i =>
  match i with
  | 0 => ⟨"A", [3, 4], none, [], 0, none⟩
  | 1 => ⟨"B", [4, 3], none, [], 0, none⟩
  | 2 => ⟨"C", [3], none, [], 0, none⟩
  | 3 => ⟨"CityHospital", [0, 2, 1], none, [], 2, none⟩
  | _ => ⟨"Memorial", [1, 0], none, [], 1, none⟩

/-- Generic outside-confinement of a fold of cell updates. -/
theorem foldl_update_outside2 {β α : Type} (P : Nat → Prop)
    (f : (Nat → β) → α → (Nat → β)) (l : List α)
    (hf : ∀ (hh : Nat → β) (a : α) (j : Nat), a ∈ l → ¬ P j → f hh a j = hh j) :
    ∀ (hh : Nat → β) (j : Nat), ¬ P j → (l.foldl f hh) j = hh j := by
  induction l with
  | nil => intro hh j _; rfl
  | cons a rest ih =>
    intro hh j hj
    simp only [List.foldl_cons]
    rw [ih (fun hh' a' j' ha' hj' => hf hh' a' j' (List.mem_cons_of_mem _ ha') hj')
      (f hh a) j hj]
    exact hf hh a j (List.mem_cons_self _ _) hj

/-- Generic region congruence of two folds of cell updates. -/
theorem foldl_congr_region {β α : Type} (P : Nat → Prop)
    (f g : (Nat → β) → α → (Nat → β)) :
    ∀ (l : List α),
      (∀ (hh hh' : Nat → β), (∀ j, P j → hh j = hh' j) →
        ∀ a ∈ l, ∀ j, P j → f hh a j = g hh' a j) →
      ∀ (hh hh' : Nat → β), (∀ j, P j → hh j = hh' j) →
        ∀ j, P j → (l.foldl f hh) j = (l.foldl g hh') j := by
  intro l
  induction l with
  | nil => intro _ hh hh' hr j hj; exact hr j hj
  | cons a rest ih =>
    intro hfg hh hh' hr j hj
    simp only [List.foldl_cons]
    refine ih
      (fun hh2 hh2' hr2 b hb => hfg hh2 hh2' hr2 b (List.mem_cons_of_mem _ hb))
      (f hh a) (g hh' a) ?_ j hj
    intro j' hj'
    exact hfg hh hh' hr a (List.mem_cons_self _ _) j' hj'

theorem hrCloneR_inRegion {base : Nat} {Rs Hs : List Nat} {r : Nat}
    (h : r ∈ Rs) :
    InRegion base (Rs.length + Hs.length) (hrCloneR base Rs r) :=
  ⟨Nat.le_add_right _ _, by
    have := rankIn_lt_length_of_mem h
    simp only [hrCloneR]
    omega⟩

theorem hrCloneH_inRegion {base : Nat} {Rs Hs : List Nat} {x : Nat}
    (h : x ∈ Hs) :
    InRegion base (Rs.length + Hs.length) (hrCloneH base Rs Hs x) :=
  ⟨by simp only [hrCloneH]; omega, by
    have := rankIn_lt_length_of_mem h
    simp only [hrCloneH]
    omega⟩

/-- `hrConstruct` writes only the clone region. -/
theorem hrConstruct_outside (base : Nat) (h : HRHeap) (Rs Hs : List Nat) :
    ∀ j, ¬ InRegion base (Rs.length + Hs.length) j →
      (hrConstruct base h Rs Hs).1 j = h j := by
  intro j hj
  have h1 : ∀ (hh : HRHeap),
      ((List.range Rs.length).foldl (hrAllocResStep base h Rs) hh) j = hh j := by
    intro hh
    refine foldl_update_outside2 _ _ _ ?_ hh j hj
    intro hh' i j' hi hj'
    refine Function.update_noteq (fun hc => hj' ?_) _ _
    have hi' : i < Rs.length := List.mem_range.mp hi
    exact hc ▸ ⟨Nat.le_add_right _ _, by omega⟩
  have h2 : ∀ (hh : HRHeap),
      ((List.range Hs.length).foldl (hrAllocHosStep base h Rs Hs) hh) j = hh j := by
    intro hh
    refine foldl_update_outside2 _ _ _ ?_ hh j hj
    intro hh' i j' hi hj'
    refine Function.update_noteq (fun hc => hj' ?_) _ _
    have hi' : i < Hs.length := List.mem_range.mp hi
    exact hc ▸ ⟨by omega, by omega⟩
  have h3 : ∀ (hh : HRHeap),
      (Rs.foldl (hrCloneResStep base h Rs Hs) hh) j = hh j := by
    intro hh
    refine foldl_update_outside2 _ _ _ ?_ hh j hj
    intro hh' r j' hr hj'
    refine Function.update_noteq (fun hc => hj' ?_) _ _
    exact hc ▸ hrCloneR_inRegion hr
  have h4 : ∀ (hh : HRHeap),
      (Hs.foldl (hrCloneHosStep base h Rs Hs) hh) j = hh j := by
    intro hh
    refine foldl_update_outside2 _ _ _ ?_ hh j hj
    intro hh' x j' hx hj'
    refine Function.update_noteq (fun hc => hj' ?_) _ _
    exact hc ▸ hrCloneH_inRegion hx
  show (Hs.foldl (hrCloneHosStep base h Rs Hs)
    (Rs.foldl (hrCloneResStep base h Rs Hs)
      ((List.range Hs.length).foldl (hrAllocHosStep base h Rs Hs)
        ((List.range Rs.length).foldl (hrAllocResStep base h Rs) h)))) j = h j
  rw [h4 _, h3 _, h2 _, h1 _]

/-- `hrCommit` writes only the game's entity cells. -/
theorem hrCommit_outside (resIds hosIds : List Nat) (s : HRState)
    (h : HRHeap) (P : Nat → Prop)
    (hres : ∀ r ∈ resIds, P r) (hhos : ∀ x ∈ hosIds, P x) :
    ∀ j, ¬ P j → hrCommit resIds hosIds s h j = h j := by
  intro j hj
  have h1 : ∀ (hh : HRHeap),
      (resIds.foldl (fun hh r => Function.update hh r
        { hh r with prefs := s.rprefs r, rmatch := s.rmatch r }) hh) j = hh j := by
    intro hh
    refine foldl_update_outside2 P _ _ ?_ hh j hj
    intro hh' r j' hr hj'
    refine Function.update_noteq (fun hc => hj' ?_) _ _
    exact hc ▸ hres r hr
  have h2 : ∀ (hh : HRHeap),
      (hosIds.foldl (fun hh x => Function.update hh x
        { hh x with prefs := s.hprefs x, hmatch := s.hmatching x }) hh) j = hh j := by
    intro hh
    refine foldl_update_outside2 P _ _ ?_ hh j hj
    intro hh' x j' hx hj'
    refine Function.update_noteq (fun hc => hj' ?_) _ _
    exact hc ▸ hhos x hx
  exact (h2 (List.foldl (fun hh r => Function.update hh r
    { hh r with prefs := s.rprefs r, rmatch := s.rmatch r }) h resIds)).trans (h1 h)

/-- The resident allocation fold, characterised pointwise. -/
theorem hrAllocRes_fold_apply (base : Nat) (h : HRHeap) (Rs : List Nat) :
    ∀ (n : Nat) (hh : HRHeap) (j : Nat),
      ((List.range n).foldl (hrAllocResStep base h Rs) hh) j
        = if InRegion base n j then
            { hrname := (h (Rs.getD (j - base) 0)).hrname, prefs := [],
              rmatch := none, hmatch := [], capacity := 0, origPrefs := none }
          else hh j := by
  intro n
  induction n with
  | zero =>
    intro hh j
    have hr : ¬ InRegion base 0 j := by
      intro hc
      rcases hc with ⟨h1, h2⟩
      omega
    simp [hr]
  | succ n ih =>
    intro hh j
    rw [List.range_succ, List.foldl_append]
    simp only [List.foldl_cons, List.foldl_nil]
    rw [hrAllocResStep, Function.update_apply, ih]
    by_cases hj : j = base + n
    · subst hj
      have h1 : InRegion base (n + 1) (base + n) :=
        ⟨Nat.le_add_right _ _, by omega⟩
      have h2 : ¬ InRegion base n (base + n) := by
        intro hc
        rcases hc with ⟨_, hc2⟩
        omega
      simp only [if_pos rfl, h2, if_false, h1, if_true]
      have : base + n - base = n := by omega
      rw [this]
    · simp only [hj, if_false]
      by_cases hr : InRegion base n j
      · have h1 : InRegion base (n + 1) j := ⟨hr.1, by have := hr.2; omega⟩
        simp [hr, h1]
      · by_cases h1 : InRegion base (n + 1) j
        · exfalso
          rcases h1 with ⟨ha, hb⟩
          exact hr ⟨ha, by omega⟩
        · simp [hr, h1]

/-- The hospital allocation fold, characterised pointwise (it occupies
the region offset by the resident count). -/
theorem hrAllocHos_fold_apply (base : Nat) (h : HRHeap) (Rs Hs : List Nat) :
    ∀ (n : Nat) (hh : HRHeap) (j : Nat),
      ((List.range n).foldl (hrAllocHosStep base h Rs Hs) hh) j
        = if InRegion (base + Rs.length) n j then
            { hrname := (h (Hs.getD (j - (base + Rs.length)) 0)).hrname,
              prefs := [], rmatch := none, hmatch := [],
              capacity := (h (Hs.getD (j - (base + Rs.length)) 0)).capacity,
              origPrefs := none }
          else hh j := by
  intro n
  induction n with
  | zero =>
    intro hh j
    have hr : ¬ InRegion (base + Rs.length) 0 j := by
      intro hc
      rcases hc with ⟨h1, h2⟩
      omega
    simp [hr]
  | succ n ih =>
    intro hh j
    rw [List.range_succ, List.foldl_append]
    simp only [List.foldl_cons, List.foldl_nil]
    rw [hrAllocHosStep, Function.update_apply, ih]
    by_cases hj : j = base + Rs.length + n
    · subst hj
      have h1 : InRegion (base + Rs.length) (n + 1) (base + Rs.length + n) :=
        ⟨Nat.le_add_right _ _, by omega⟩
      have h2 : ¬ InRegion (base + Rs.length) n (base + Rs.length + n) := by
        intro hc
        rcases hc with ⟨_, hc2⟩
        omega
      simp only [if_pos rfl, h2, if_false, h1, if_true]
      have : base + Rs.length + n - (base + Rs.length) = n := by omega
      rw [this]
    · simp only [hj, if_false]
      by_cases hr : InRegion (base + Rs.length) n j
      · have h1 : InRegion (base + Rs.length) (n + 1) j :=
          ⟨hr.1, by have := hr.2; omega⟩
        simp [hr, h1]
      · by_cases h1 : InRegion (base + Rs.length) (n + 1) j
        · exfalso
          rcases h1 with ⟨ha, hb⟩
          exact hr ⟨ha, by omega⟩
        · simp [hr, h1]

/-- Caller-cell agreement makes `hrConstruct` produce identical clone
regions. -/
theorem hrConstruct_congr (base : Nat) (h h' : HRHeap) (Rs Hs : List Nat)
    (hagree : ∀ p ∈ Rs ++ Hs, h p = h' p) :
    ∀ j, InRegion base (Rs.length + Hs.length) j →
      (hrConstruct base h Rs Hs).1 j = (hrConstruct base h' Rs Hs).1 j := by
  have hallocAgree : ∀ j, InRegion base (Rs.length + Hs.length) j →
      ((List.range Hs.length).foldl (hrAllocHosStep base h Rs Hs)
        ((List.range Rs.length).foldl (hrAllocResStep base h Rs) h)) j
      = ((List.range Hs.length).foldl (hrAllocHosStep base h' Rs Hs)
        ((List.range Rs.length).foldl (hrAllocResStep base h' Rs) h')) j := by
    intro j hj
    rw [hrAllocHos_fold_apply, hrAllocHos_fold_apply,
      hrAllocRes_fold_apply, hrAllocRes_fold_apply]
    by_cases hjh : InRegion (base + Rs.length) Hs.length j
    · rw [if_pos hjh, if_pos hjh]
      have hidx : j - (base + Rs.length) < Hs.length := by
        rcases hjh with ⟨h1, h2⟩
        omega
      have hmem : Hs.getD (j - (base + Rs.length)) 0 ∈ Hs := by
        rw [List.getD_eq_getElem _ _ hidx]
        exact List.getElem_mem _
      rw [hagree _ (List.mem_append.mpr (Or.inr hmem))]
    · rw [if_neg hjh, if_neg hjh]
      have hjr : InRegion base Rs.length j := by
        rcases hj with ⟨hj1, hj2⟩
        simp only [InRegion, not_and, not_lt] at hjh
        refine ⟨hj1, ?_⟩
        by_cases hge : base + Rs.length ≤ j
        · have := hjh hge
          omega
        · omega
      rw [if_pos hjr, if_pos hjr]
      have hidx : j - base < Rs.length := by
        rcases hjr with ⟨h1, h2⟩
        omega
      have hmem : Rs.getD (j - base) 0 ∈ Rs := by
        rw [List.getD_eq_getElem _ _ hidx]
        exact List.getElem_mem _
      rw [hagree _ (List.mem_append.mpr (Or.inl hmem))]
  have hresAgree : ∀ j, InRegion base (Rs.length + Hs.length) j →
      (Rs.foldl (hrCloneResStep base h Rs Hs)
        ((List.range Hs.length).foldl (hrAllocHosStep base h Rs Hs)
          ((List.range Rs.length).foldl (hrAllocResStep base h Rs) h))) j
      = (Rs.foldl (hrCloneResStep base h' Rs Hs)
        ((List.range Hs.length).foldl (hrAllocHosStep base h' Rs Hs)
          ((List.range Rs.length).foldl (hrAllocResStep base h' Rs) h'))) j := by
    refine foldl_congr_region (InRegion base (Rs.length + Hs.length)) _ _ Rs
      ?_ _ _ hallocAgree
    intro hh hh' hr r hrRs j hj
    have hrid : InRegion base (Rs.length + Hs.length) (hrCloneR base Rs r) :=
      hrCloneR_inRegion hrRs
    have hpeq : h r = h' r := hagree r (List.mem_append.mpr (Or.inl hrRs))
    simp only [hrCloneResStep]
    rw [Function.update_apply, Function.update_apply]
    by_cases hcid : j = hrCloneR base Rs r
    · simp only [hcid, if_true, if_pos rfl]
      rw [hpeq, hr _ hrid]
    · simp only [hcid, if_false]
      exact hr j hj
  intro j hj
  show (Hs.foldl (hrCloneHosStep base h Rs Hs) _) j
    = (Hs.foldl (hrCloneHosStep base h' Rs Hs) _) j
  refine foldl_congr_region (InRegion base (Rs.length + Hs.length)) _ _ Hs
    ?_ _ _ hresAgree j hj
  intro hh hh' hr x hxHs j' hj'
  have hxid : InRegion base (Rs.length + Hs.length) (hrCloneH base Rs Hs x) :=
    hrCloneH_inRegion hxHs
  have hpeq : h x = h' x := hagree x (List.mem_append.mpr (Or.inr hxHs))
  simp only [hrCloneHosStep]
  rw [Function.update_apply, Function.update_apply]
  by_cases hcid : j' = hrCloneH base Rs Hs x
  · simp only [hcid, if_true, if_pos rfl]
    rw [hpeq, hr _ hxid]
  · simp only [hcid, if_false]
    exact hr j' hj'

/-- C9.  With caller entities below `base` and caller preference lists
closed over the caller entities, for both cited facades
(`StableMarriage.constructor` and `HospitalResident.constructor`):
(i) the constructor's deep copy writes only fresh clone cells, never a
caller cell; (ii) solving mutates only the game's clone cells, so
every caller cell is bit-identical after a solve (complete or
interrupted); and (iii) constructing a *fresh* second game from the
post-solve world rebuilds exactly the same game as the first
construction, hence re-solving it — with any fuel and either
optimality — returns identical results. -/
theorem c9_deep_copy_frame_and_determinism
    (fuel base : Nat) (h : Heap) (S R : List Nat) (opt : SMOpt)
    (hp : HRHeap) (Rs Hs : List Nat) (hropt : HROpt)
    (hlt : ∀ p ∈ S ++ R, p < base)
    (hclos : ∀ p ∈ S ++ R, ∀ q ∈ (h p).prefs, q ∈ S ++ R)
    (hrlt : ∀ p ∈ Rs ++ Hs, p < base) :
    ((∀ j, j < base → (smConstruct base h S R).1 j = h j) ∧
     (∀ h₁,
       (smStableMarriage fuel (smConstruct base h S R).1
           (smConstruct base h S R).2.1 (smConstruct base h S R).2.2 opt
             = Res.ok h₁ ∨
        smStableMarriage fuel (smConstruct base h S R).1
           (smConstruct base h S R).2.1 (smConstruct base h S R).2.2 opt
             = Res.timeout h₁) →
       (∀ j, j < base → h₁ j = h j) ∧
       smConstruct base h₁ S R = smConstruct base h S R ∧
       (∀ (fuel2 : Nat) (opt2 : SMOpt),
         smPipeline fuel2 base h₁ S R opt2 = smPipeline fuel2 base h S R opt2))) ∧
    ((∀ j, j < base → (hrConstruct base hp Rs Hs).1 j = hp j) ∧
     (∀ hp₁,
       (hrRunOnHeap fuel base hp Rs Hs hropt = Res.ok hp₁ ∨
        hrRunOnHeap fuel base hp Rs Hs hropt = Res.timeout hp₁) →
       (∀ j, j < base → hp₁ j = hp j) ∧
       hrConstruct base hp₁ Rs Hs = hrConstruct base hp Rs Hs ∧
       (∀ (fuel2 : Nat) (opt2 : HROpt),
         hrPipelineH fuel2 base hp₁ Rs Hs opt2
           = hrPipelineH fuel2 base hp Rs Hs opt2))) := by
  constructor
  · -- Stable Marriage facade
    set n := (S ++ R).length with hn
    have houtside : ∀ j, j < base → ¬ InRegion base n j := by
      intro j hj hc
      rcases hc with ⟨h1, _⟩
      omega
    have hconJ : ∀ j, j < base → (smConstruct base h S R).1 j = h j :=
      fun j hj => smConstruct_outside base h S R j (houtside j hj)
    refine ⟨hconJ, ?_⟩
    intro h₁ hok
    have hwf := smConstruct_region_wf base h S R hclos
    have hfreeP : ∀ p ∈ (match opt with
        | SMOpt.suitor => (smConstruct base h S R).2.1
        | SMOpt.reviewer => (smConstruct base h S R).2.2), InRegion base n p := by
      cases opt with
      | suitor =>
        intro p hpm
        simp only [smConstruct, List.mem_map] at hpm
        obtain ⟨q, hq, rfl⟩ := hpm
        exact cloneId_inRegion (List.mem_append.mpr (Or.inl hq))
      | reviewer =>
        intro p hpm
        simp only [smConstruct, List.mem_map] at hpm
        obtain ⟨q, hq, rfl⟩ := hpm
        exact cloneId_inRegion (List.mem_append.mpr (Or.inr hq))
    have hloopOut : ∀ j, ¬ InRegion base n j →
        h₁ j = (smConstruct base h S R).1 j := by
      have hout := smLoop_outside (InRegion base n) fuel
        (match opt with
          | SMOpt.suitor => (smConstruct base h S R).2.1
          | SMOpt.reviewer => (smConstruct base h S R).2.2)
        (smConstruct base h S R).1
        hfreeP
        (fun p hpm q hq => (hwf p hpm).2 q hq)
        (fun p hpm m hm => absurd ((hwf p hpm).1 ▸ hm) (by simp))
      have hsm : smStableMarriage fuel (smConstruct base h S R).1
          (smConstruct base h S R).2.1 (smConstruct base h S R).2.2 opt
          = smLoop fuel
            (match opt with
              | SMOpt.suitor => (smConstruct base h S R).2.1
              | SMOpt.reviewer => (smConstruct base h S R).2.2)
            (smConstruct base h S R).1 := by
        cases opt <;> rfl
      rcases hok with hok | hok
      · rw [hsm] at hok
        rw [hok] at hout
        exact hout
      · rw [hsm] at hok
        rw [hok] at hout
        exact hout
    have hcallerEq : ∀ j, j < base → h₁ j = h j := by
      intro j hj
      rw [hloopOut j (houtside j hj), hconJ j hj]
    have hagree : ∀ p ∈ S ++ R, h₁ p = h p :=
      fun p hpm => hcallerEq p (hlt p hpm)
    have hConEq : smConstruct base h₁ S R = smConstruct base h S R := by
      have hheapEq : (smConstruct base h₁ S R).1 = (smConstruct base h S R).1 := by
        funext j
        by_cases hj : InRegion base n j
        · exact smConstruct_congr base h₁ h S R hagree j hj
        · rw [smConstruct_outside base h₁ S R j hj]
          exact hloopOut j hj
      exact Prod.ext hheapEq rfl
    refine ⟨hcallerEq, hConEq, ?_⟩
    intro fuel2 opt2
    unfold smPipeline
    rw [hConEq]
  · -- Hospital-Resident facade
    have hroutside : ∀ j, j < base → ¬ InRegion base (Rs.length + Hs.length) j := by
      intro j hj hc
      rcases hc with ⟨h1, _⟩
      omega
    have hrconJ : ∀ j, j < base → (hrConstruct base hp Rs Hs).1 j = hp j :=
      fun j hj => hrConstruct_outside base hp Rs Hs j (hroutside j hj)
    refine ⟨hrconJ, ?_⟩
    intro hp₁ hok
    have hresIds : ∀ p ∈ (hrConstruct base hp Rs Hs).2.1,
        InRegion base (Rs.length + Hs.length) p := by
      intro p hpm
      simp only [hrConstruct, List.mem_map] at hpm
      obtain ⟨q, hq, rfl⟩ := hpm
      exact hrCloneR_inRegion hq
    have hhosIds : ∀ p ∈ (hrConstruct base hp Rs Hs).2.2,
        InRegion base (Rs.length + Hs.length) p := by
      intro p hpm
      simp only [hrConstruct, List.mem_map] at hpm
      obtain ⟨q, hq, rfl⟩ := hpm
      exact hrCloneH_inRegion hq
    have hcommitOut : ∀ j, ¬ InRegion base (Rs.length + Hs.length) j →
        hp₁ j = (hrConstruct base hp Rs Hs).1 j := by
      intro j hj
      rcases hok with hok | hok
      · have hok1 : (match hrSolve fuel (hrConstruct base hp Rs Hs).2.1
            (hrConstruct base hp Rs Hs).2.2
            (hrView (hrConstruct base hp Rs Hs).1) hropt with
          | Res.ok s => Res.ok (hrCommit (hrConstruct base hp Rs Hs).2.1
              (hrConstruct base hp Rs Hs).2.2 s (hrConstruct base hp Rs Hs).1)
          | Res.err => Res.err
          | Res.timeout s => Res.timeout (hrCommit (hrConstruct base hp Rs Hs).2.1
              (hrConstruct base hp Rs Hs).2.2 s (hrConstruct base hp Rs Hs).1)) = Res.ok hp₁ := hok
        cases hs : hrSolve fuel (hrConstruct base hp Rs Hs).2.1
            (hrConstruct base hp Rs Hs).2.2
            (hrView (hrConstruct base hp Rs Hs).1) hropt with
        | ok s =>
          rw [hs] at hok1
          have hok2 : Res.ok (hrCommit (hrConstruct base hp Rs Hs).2.1
              (hrConstruct base hp Rs Hs).2.2 s (hrConstruct base hp Rs Hs).1)
              = Res.ok hp₁ := hok1
          injection hok2 with he
          rw [← he]
          exact hrCommit_outside _ _ s _ (InRegion base (Rs.length + Hs.length))
            hresIds hhosIds j hj
        | err =>
          rw [hs] at hok1
          have hok2 : (Res.err : Res HRHeap) = Res.ok hp₁ := hok1
          exact Res.noConfusion hok2
        | timeout s =>
          rw [hs] at hok1
          have hok2 : Res.timeout (hrCommit (hrConstruct base hp Rs Hs).2.1
              (hrConstruct base hp Rs Hs).2.2 s (hrConstruct base hp Rs Hs).1)
              = Res.ok hp₁ := hok1
          exact Res.noConfusion hok2
      · have hok1 : (match hrSolve fuel (hrConstruct base hp Rs Hs).2.1
            (hrConstruct base hp Rs Hs).2.2
            (hrView (hrConstruct base hp Rs Hs).1) hropt with
          | Res.ok s => Res.ok (hrCommit (hrConstruct base hp Rs Hs).2.1
              (hrConstruct base hp Rs Hs).2.2 s (hrConstruct base hp Rs Hs).1)
          | Res.err => Res.err
          | Res.timeout s => Res.timeout (hrCommit (hrConstruct base hp Rs Hs).2.1
              (hrConstruct base hp Rs Hs).2.2 s (hrConstruct base hp Rs Hs).1)) = Res.timeout hp₁ := hok
        cases hs : hrSolve fuel (hrConstruct base hp Rs Hs).2.1
            (hrConstruct base hp Rs Hs).2.2
            (hrView (hrConstruct base hp Rs Hs).1) hropt with
        | ok s =>
          rw [hs] at hok1
          have hok2 : Res.ok (hrCommit (hrConstruct base hp Rs Hs).2.1
              (hrConstruct base hp Rs Hs).2.2 s (hrConstruct base hp Rs Hs).1)
              = Res.timeout hp₁ := hok1
          exact Res.noConfusion hok2
        | err =>
          rw [hs] at hok1
          have hok2 : (Res.err : Res HRHeap) = Res.timeout hp₁ := hok1
          exact Res.noConfusion hok2
        | timeout s =>
          rw [hs] at hok1
          have hok2 : Res.timeout (hrCommit (hrConstruct base hp Rs Hs).2.1
              (hrConstruct base hp Rs Hs).2.2 s (hrConstruct base hp Rs Hs).1)
              = Res.timeout hp₁ := hok1
          injection hok2 with he
          rw [← he]
          exact hrCommit_outside _ _ s _ (InRegion base (Rs.length + Hs.length))
            hresIds hhosIds j hj
    have hcallerEq : ∀ j, j < base → hp₁ j = hp j := by
      intro j hj
      rw [hcommitOut j (hroutside j hj), hrconJ j hj]
    have hagree : ∀ p ∈ Rs ++ Hs, hp₁ p = hp p :=
      fun p hpm => hcallerEq p (hrlt p hpm)
    have hConEq : hrConstruct base hp₁ Rs Hs = hrConstruct base hp Rs Hs := by
      have hheapEq : (hrConstruct base hp₁ Rs Hs).1
          = (hrConstruct base hp Rs Hs).1 := by
        funext j
        by_cases hj : InRegion base (Rs.length + Hs.length) j
        · exact hrConstruct_congr base hp₁ hp Rs Hs hagree j hj
        · rw [hrConstruct_outside base hp₁ Rs Hs j hj]
          exact hcommitOut j hj
      exact Prod.ext hheapEq rfl
    refine ⟨hcallerEq, hConEq, ?_⟩
    intro fuel2 opt2
    unfold hrPipelineH
    rw [hConEq]

/-- Witness for `c9_deep_copy_frame_and_determinism` at the Stable
Marriage example and the README's Hospital-Resident example. -/
theorem c9_deep_copy_witness :
    ((smConstruct 6 c1Heap [0, 1, 2] [3, 4, 5]).1 0 = c1Heap 0) ∧
    (resHeapD (smStableMarriage 100 (smConstruct 6 c1Heap [0, 1, 2] [3, 4, 5]).1
        (smConstruct 6 c1Heap [0, 1, 2] [3, 4, 5]).2.1
        (smConstruct 6 c1Heap [0, 1, 2] [3, 4, 5]).2.2 SMOpt.suitor)) 2 = c1Heap 2 ∧
    smPipeline 100 6
      (resHeapD (smStableMarriage 100 (smConstruct 6 c1Heap [0, 1, 2] [3, 4, 5]).1
        (smConstruct 6 c1Heap [0, 1, 2] [3, 4, 5]).2.1
        (smConstruct 6 c1Heap [0, 1, 2] [3, 4, 5]).2.2 SMOpt.suitor))
      [0, 1, 2] [3, 4, 5] SMOpt.suitor =
    smPipeline 100 6 c1Heap [0, 1, 2] [3, 4, 5] SMOpt.suitor ∧
    ((hrConstruct 6 c9HrHeap [0, 1, 2] [3, 4]).1 0 = c9HrHeap 0) ∧
    (resHRHeapD (hrRunOnHeap 100 6 c9HrHeap [0, 1, 2] [3, 4] HROpt.resident)) 2
      = c9HrHeap 2 ∧
    hrPipelineH 100 6
      (resHRHeapD (hrRunOnHeap 100 6 c9HrHeap [0, 1, 2] [3, 4] HROpt.resident))
      [0, 1, 2] [3, 4] HROpt.resident =
    hrPipelineH 100 6 c9HrHeap [0, 1, 2] [3, 4] HROpt.resident := by
  have hmain := c9_deep_copy_frame_and_determinism 100 6 c1Heap [0, 1, 2] [3, 4, 5]
    SMOpt.suitor c9HrHeap [0, 1, 2] [3, 4] HROpt.resident (by decide)
    (by
      intro p hpm q hq
      fin_cases hpm <;> simp_all [c1Heap] <;> omega)
    (by decide)
  have hok : smStableMarriage 100 (smConstruct 6 c1Heap [0, 1, 2] [3, 4, 5]).1
      (smConstruct 6 c1Heap [0, 1, 2] [3, 4, 5]).2.1
      (smConstruct 6 c1Heap [0, 1, 2] [3, 4, 5]).2.2 SMOpt.suitor
      = Res.ok (resHeapD (smStableMarriage 100
          (smConstruct 6 c1Heap [0, 1, 2] [3, 4, 5]).1
          (smConstruct 6 c1Heap [0, 1, 2] [3, 4, 5]).2.1
          (smConstruct 6 c1Heap [0, 1, 2] [3, 4, 5]).2.2 SMOpt.suitor)) := by
    rfl
  have hrok : hrRunOnHeap 100 6 c9HrHeap [0, 1, 2] [3, 4] HROpt.resident
      = Res.ok (resHRHeapD (hrRunOnHeap 100 6 c9HrHeap [0, 1, 2] [3, 4]
          HROpt.resident)) := by
    rfl
  have h2 := hmain.1.2 _ (Or.inl hok)
  have h3 := hmain.2.2 _ (Or.inl hrok)
  exact ⟨hmain.1.1 0 (by decide), h2.1 2 (by decide), h2.2.2 100 SMOpt.suitor,
    hmain.2.1 0 (by decide), h3.1 2 (by decide), h3.2.2 100 HROpt.resident⟩

/-! ## C3 — symmetry of the Stable Roommates matching

Irving's algorithm as implemented produces a symmetric matching on
every run that leaves no player unmatched; on no-solution instances
the best-effort matching can pair players asymmetrically (shown on
Irving's classic 6-player instance).  The proof tracks the proposal
invariants of phase 1 and the mutual-deletion invariant of both
phases. -/

theorem jsPop_eq_none_iff {α : Type} {l : List α} : jsPop l = none ↔ l = [] := by
  cases l with
  | nil => simp [jsPop]
  | cons x xs =>
    cases xs with
    | nil => simp [jsPop]
    | cons y ys =>
      simp only [jsPop]
      constructor
      · intro h
        cases hrec : jsPop (y :: ys) with
        | none =>
          exact absurd (jsPop_eq_none_iff.mp hrec) (by simp)
        | some p => rw [hrec] at h; simp at h
      · intro h; cases h

theorem head?_filter_of_ne {l : List Nat} {x a : Nat}
    (hh : l.head? = some x) (hxa : x ≠ a) :
    (l.filter (fun q => q ≠ a)).head? = some x := by
  cases l with
  | nil => simp at hh
  | cons y ys =>
    simp only [List.head?_cons, Option.some_injective] at hh
    cases hh
    have : (x :: ys).filter (fun q => q ≠ a) = x :: ys.filter (fun q => q ≠ a) := by
      simp [hxa]
    rw [this]
    rfl

/-- Membership after `deletePair`: exactly the unordered pair
`{a, b}` is removed, from both sides. -/
theorem srDeletePair_mem (s : SRState) (a b x q : Nat) :
    q ∈ (srDeletePair s a b).prefs x ↔
      (q ∈ s.prefs x ∧ ¬(x = a ∧ q = b) ∧ ¬(x = b ∧ q = a)) := by
  simp only [srDeletePair, srForget, Function.update_apply]
  by_cases hxb : x = b
  · by_cases hxa : x = a
    · subst hxa
      subst hxb
      simp [List.mem_filter]
    · subst hxb
      simp [hxa, List.mem_filter]
  · by_cases hxa : x = a
    · subst hxa
      simp [hxb, List.mem_filter]
    · simp [hxb, hxa]

@[simp] theorem srDeletePair_matching (s : SRState) (a b : Nat) :
    (srDeletePair s a b).matching = s.matching := rfl

@[simp] theorem srSetMatch_prefs (s : SRState) (p : Nat) (m : Option Nat) :
    (srSetMatch s p m).prefs = s.prefs := rfl

theorem srDeletePair_prefs_subset (s : SRState) (a b x q : Nat)
    (h : q ∈ (srDeletePair s a b).prefs x) : q ∈ s.prefs x :=
  ((srDeletePair_mem s a b x q).mp h).1

theorem srDeletePair_nodup (s : SRState) (a b x : Nat)
    (h : (s.prefs x).Nodup) : ((srDeletePair s a b).prefs x).Nodup := by
  simp only [srDeletePair, srForget]
  rw [Function.update_apply]
  by_cases hxb : x = b
  · subst hxb
    simp only [if_pos rfl]
    rw [Function.update_apply]
    by_cases hxa : x = a
    · subst hxa
      simp only [if_pos rfl]
      exact List.Nodup.filter _ (List.Nodup.filter _ h)
    · simp only [hxa, if_false]
      exact List.Nodup.filter _ h
  · simp only [hxb, if_false]
    rw [Function.update_apply]
    by_cases hxa : x = a
    · subst hxa
      simp only [if_pos rfl]
      exact List.Nodup.filter _ h
    · simpa [hxa] using h

/-- First-occurrence decomposition used for the successor snapshot. -/
theorem firstOcc_split {l : List Nat} {p : Nat} (hp : p ∈ l) :
    ∃ B A, l = B ++ p :: A ∧ p ∉ B ∧
      jsSliceAfter l (jsIndexOf l p) = A := by
  induction l with
  | nil => cases hp
  | cons y ys ih =>
    by_cases hyp : y = p
    · subst hyp
      refine ⟨[], ys, rfl, by simp, ?_⟩
      simp [jsSliceAfter, jsIndexOf, findIdx]
    · have hp' : p ∈ ys := by
        rcases List.mem_cons.mp hp with hc | hc
        · exact absurd hc.symm hyp
        · exact hc
      obtain ⟨B, A, hBA, hpB, hslice⟩ := ih hp'
      refine ⟨y :: B, A, by rw [hBA]; rfl, ?_, ?_⟩
      · simp only [List.mem_cons]
        rintro (hc | hc)
        · exact hyp hc.symm
        · exact hpB hc
      · obtain ⟨i, hi⟩ := findIdx_isSome_of_mem hp'
        simp only [jsIndexOf, findIdx, hyp, if_false, hi, Option.map_some']
        simp only [jsIndexOf, hi] at hslice
        simp only [jsSliceAfter] at hslice ⊢
        have h2 : (((i + 1 : Nat) : Int) + 1).toNat = i + 2 := by omega
        rw [h2]
        have h3 : ((i : Int) + 1).toNat = i + 1 := by omega
        rw [h3] at hslice
        simpa using hslice

/-- `srFinalMatching` leaves preferences untouched. -/
theorem srFinalMatching_prefs (s : SRState) :
    ∀ (l : List Nat), (srFinalMatching l s).prefs = s.prefs := by
  intro l
  induction l generalizing s with
  | nil => rfl
  | cons q rest ih =>
    show (srFinalMatching rest _).prefs = s.prefs
    rw [ih]
    show (match (srSetMatch s q none).prefs q with
      | [] => srSetMatch s q none
      | f :: _ => srSetMatch (srSetMatch s q none) q (some f)).prefs = s.prefs
    split
    · rfl
    · rfl

/-- `srFinalMatching` does not touch the matching of a player outside the list. -/
theorem srFinalMatching_matching_notmem (s : SRState) :
    ∀ (l : List Nat) (p : Nat), p ∉ l →
      (srFinalMatching l s).matching p = s.matching p := by
  intro l
  induction l generalizing s with
  | nil => intro p _; rfl
  | cons q rest ih =>
    intro p hp
    have hpq : p ≠ q := fun hc => hp (hc ▸ List.mem_cons_self _ _)
    have hprest : p ∉ rest := fun hc => hp (List.mem_cons_of_mem _ hc)
    show (srFinalMatching rest _).matching p = s.matching p
    rw [ih _ p hprest]
    show (match (srSetMatch s q none).prefs q with
      | [] => srSetMatch s q none
      | f :: _ => srSetMatch (srSetMatch s q none) q (some f)).matching p = s.matching p
    split
    · show (srSetMatch s q none).matching p = s.matching p
      simp only [srSetMatch]
      rw [Function.update_noteq hpq]
    · show (srSetMatch (srSetMatch s q none) q _).matching p = s.matching p
      simp only [srSetMatch]
      rw [Function.update_noteq hpq, Function.update_noteq hpq]

/-- On a duplicate-free player list, `srFinalMatching` sets each listed player's
matching to the head of its (unchanged) preference list. -/
theorem srFinalMatching_matching_mem (s : SRState) :
    ∀ (l : List Nat) (p : Nat), l.Nodup → p ∈ l →
      (srFinalMatching l s).matching p = (s.prefs p).head? := by
  intro l
  induction l generalizing s with
  | nil => intro p _ hp; cases hp
  | cons q rest ih =>
    intro p hnd hp
    rcases List.nodup_cons.mp hnd with ⟨hqrest, hndrest⟩
    by_cases hpq : p = q
    · subst hpq
      show (srFinalMatching rest _).matching p = (s.prefs p).head?
      rw [srFinalMatching_matching_notmem _ rest p hqrest]
      show (match (srSetMatch s p none).prefs p with
        | [] => srSetMatch s p none
        | f :: _ => srSetMatch (srSetMatch s p none) p (some f)).matching p = (s.prefs p).head?
      split
      · rename_i heq
        have hq : s.prefs p = [] := heq
        rw [hq]
        simp [srSetMatch]
      · rename_i f tl heq
        have hq : s.prefs p = f :: tl := heq
        rw [hq]
        simp [srSetMatch]
    · have hprest : p ∈ rest := by
        rcases List.mem_cons.mp hp with hc | hc
        · exact absurd hc hpq
        · exact hc
      show (srFinalMatching rest _).matching p = (s.prefs p).head?
      rw [ih _ p hndrest hprest]
      show ((match (srSetMatch s q none).prefs q with
        | [] => srSetMatch s q none
        | f :: _ => srSetMatch (srSetMatch s q none) q (some f)).prefs p).head? = (s.prefs p).head?
      split
      · rfl
      · rfl

/-- A list head survives any filter that keeps it. -/
theorem head?_filter_pos {l : List Nat} {x : Nat} {P : Nat → Bool}
    (hh : l.head? = some x) (hP : P x = true) :
    (l.filter P).head? = some x := by
  cases l with
  | nil => simp at hh
  | cons y ys =>
    simp only [List.head?_cons, Option.some.injEq] at hh
    cases hh
    simp [List.filter_cons, hP]

/-- A list's last element survives any filter that keeps it. -/
theorem getLast?_filter_pos {l : List Nat} {x : Nat} {P : Nat → Bool}
    (hh : l.getLast? = some x) (hP : P x = true) :
    (l.filter P).getLast? = some x := by
  induction l with
  | nil => simp at hh
  | cons y ys ih =>
    cases ys with
    | nil =>
      simp only [List.getLast?_singleton, Option.some.injEq] at hh
      cases hh
      simp [List.filter_cons, hP]
    | cons z zs =>
      rw [List.getLast?_cons_cons] at hh
      have hrec := ih hh
      rw [List.filter_cons]
      by_cases hy : P y = true
      · rw [if_pos hy]
        cases hf : (z :: zs).filter P with
        | nil => rw [hf] at hrec; simp at hrec
        | cons w ws =>
          rw [hf] at hrec
          rw [List.getLast?_cons_cons]
          exact hrec
      · rw [if_neg hy]
        exact hrec

theorem mem_of_head?_eq {l : List Nat} {x : Nat} (h : l.head? = some x) :
    x ∈ l := by
  cases l with
  | nil => simp at h
  | cons y ys =>
    simp only [List.head?_cons, Option.some.injEq] at h
    cases h
    exact List.mem_cons_self _ _

theorem eq_singleton_of_head?_length {l : List Nat} {x : Nat}
    (hh : l.head? = some x) (hlen : l.length ≤ 1) : l = [x] := by
  cases l with
  | nil => simp at hh
  | cons y ys =>
    cases ys with
    | nil => simpa using hh
    | cons z zs => simp at hlen

theorem eq_singleton_of_mem_length {l : List Nat} {x : Nat}
    (hx : x ∈ l) (hlen : l.length ≤ 1) : l = [x] := by
  cases l with
  | nil => cases hx
  | cons y ys =>
    cases ys with
    | nil => simpa using (List.mem_singleton.mp hx).symm
    | cons z zs => simp at hlen

/-- Filtering out exactly the tail `A` from a duplicate-free
`B ++ p :: A` leaves `B ++ [p]`. -/
theorem filter_not_mem_decomp {B A : List Nat} {p : Nat}
    (hnd : (B ++ p :: A).Nodup) :
    (B ++ p :: A).filter (fun q => decide (q ∉ A)) = B ++ [p] := by
  rw [List.filter_append]
  have hpA : p ∉ A :=
    (List.nodup_cons.mp (List.Nodup.of_append_right hnd)).1
  congr 1
  · apply List.filter_eq_self.mpr
    intro b hb
    simp only [decide_eq_true_eq]
    intro hbA
    exact (List.disjoint_of_nodup_append hnd) hb (List.mem_cons_of_mem _ hbA)
  · rw [List.filter_cons, if_pos (by simpa using hpA)]
    have : A.filter (fun q => decide (q ∉ A)) = [] := by
      apply List.filter_eq_nil_iff.mpr
      intro a ha
      simpa using ha
    rw [this]

/-- `deletePair a b`: `a`'s own list just drops `b`. -/
theorem srDeletePair_prefs_self {s : SRState} {a b : Nat} (hab : a ≠ b) :
    (srDeletePair s a b).prefs a = (s.prefs a).filter (fun q => decide (q ≠ b)) := by
  show (Function.update (Function.update s.prefs a
    ((s.prefs a).filter (fun q => decide (q ≠ b)))) b _) a = _
  rw [Function.update_noteq hab, Function.update_same]

/-- `deletePair a b`: `b`'s list just drops `a`. -/
theorem srDeletePair_prefs_other {s : SRState} {a b : Nat} (hab : a ≠ b) :
    (srDeletePair s a b).prefs b = (s.prefs b).filter (fun q => decide (q ≠ a)) := by
  show (Function.update (Function.update s.prefs a _) b
    (((Function.update s.prefs a _) b).filter (fun q => decide (q ≠ a)))) b = _
  rw [Function.update_same, Function.update_noteq (Ne.symm hab)]

/-- `deletePair a b` leaves every third player's list alone. -/
theorem srDeletePair_prefs_untouched {s : SRState} {a b x : Nat}
    (hxa : x ≠ a) (hxb : x ≠ b) :
    (srDeletePair s a b).prefs x = s.prefs x := by
  show (Function.update (Function.update s.prefs a _) b _) x = _
  rw [Function.update_noteq hxb, Function.update_noteq hxa]

/-- The state component of the successor-deletion loop: a fold of
`deletePair (successor, favourite)` over the snapshot. -/
def srDelFold (favourite : Nat) (succs : List Nat) (s : SRState) : SRState :=
  succs.foldl (fun st a => srDeletePair st a favourite) s

theorem srDelFold_nil (favourite : Nat) (s : SRState) :
    srDelFold favourite [] s = s := rfl

theorem srDelFold_cons (favourite a : Nat) (L : List Nat) (s : SRState) :
    srDelFold favourite (a :: L) s =
      srDelFold favourite L (srDeletePair s a favourite) := rfl

theorem srDelFold_matching (favourite : Nat) :
    ∀ (L : List Nat) (s : SRState),
      (srDelFold favourite L s).matching = s.matching := by
  intro L
  induction L with
  | nil => intro s; rfl
  | cons a L ih =>
    intro s
    rw [srDelFold_cons, ih, srDeletePair_matching]

theorem srDelFold_mem (favourite : Nat) :
    ∀ (L : List Nat) (s : SRState) (x q : Nat),
      q ∈ (srDelFold favourite L s).prefs x ↔
        (q ∈ s.prefs x ∧ ¬(x = favourite ∧ q ∈ L) ∧ ¬(q = favourite ∧ x ∈ L)) := by
  intro L
  induction L with
  | nil =>
    intro s x q
    simp [srDelFold_nil]
  | cons a L ih =>
    intro s x q
    rw [srDelFold_cons, ih, srDeletePair_mem]
    simp only [List.mem_cons]
    tauto

theorem srDelFold_nodup (favourite : Nat) :
    ∀ (L : List Nat) (s : SRState) (x : Nat),
      (s.prefs x).Nodup → ((srDelFold favourite L s).prefs x).Nodup := by
  intro L
  induction L with
  | nil => intro s x h; exact h
  | cons a L ih =>
    intro s x h
    rw [srDelFold_cons]
    exact ih _ x (srDeletePair_nodup s a favourite x h)

theorem srDelFold_prefs_untouched (favourite : Nat) :
    ∀ (L : List Nat) (s : SRState) (x : Nat), x ≠ favourite → x ∉ L →
      (srDelFold favourite L s).prefs x = s.prefs x := by
  intro L
  induction L with
  | nil => intro s x _ _; rfl
  | cons a L ih =>
    intro s x hxf hxL
    have hxa : x ≠ a := fun h => hxL (h ▸ List.mem_cons_self a L)
    have hxL' : x ∉ L := fun h => hxL (List.mem_cons_of_mem _ h)
    rw [srDelFold_cons, ih _ x hxf hxL', srDeletePair_prefs_untouched hxa hxf]

theorem srDelFold_prefs_fav (favourite : Nat) :
    ∀ (L : List Nat) (s : SRState), favourite ∉ L →
      (srDelFold favourite L s).prefs favourite =
        (s.prefs favourite).filter (fun q => decide (q ∉ L)) := by
  intro L
  induction L with
  | nil =>
    intro s _
    rw [srDelFold_nil]
    symm
    apply List.filter_eq_self.mpr
    intro b _
    simp
  | cons a L ih =>
    intro s hfav
    have hfa : favourite ≠ a := fun h => hfav (h ▸ List.mem_cons_self a L)
    have hfL : favourite ∉ L := fun h => hfav (List.mem_cons_of_mem _ h)
    rw [srDelFold_cons, ih _ hfL, srDeletePair_prefs_other (Ne.symm hfa),
      List.filter_filter]
    apply List.filter_congr
    intro q _
    rw [Bool.eq_iff_iff]
    simp only [Bool.and_eq_true, decide_eq_true_eq, List.mem_cons]
    tauto

theorem srDelFold_prefs_inL (favourite : Nat) :
    ∀ (L : List Nat) (s : SRState) (x : Nat), x ≠ favourite → x ∈ L → L.Nodup →
      (srDelFold favourite L s).prefs x =
        (s.prefs x).filter (fun q => decide (q ≠ favourite)) := by
  intro L
  induction L with
  | nil => intro s x _ hx _; cases hx
  | cons a L ih =>
    intro s x hxf hxL hnd
    obtain ⟨haL, hndL⟩ := List.nodup_cons.mp hnd
    by_cases hxa : x = a
    · subst hxa
      rw [srDelFold_cons, srDelFold_prefs_untouched favourite L _ x hxf haL,
        srDeletePair_prefs_self hxf]
    · have hxL' : x ∈ L := by
        rcases List.mem_cons.mp hxL with hc | hc
        · exact absurd hc hxa
        · exact hc
      rw [srDelFold_cons, ih _ x hxf hxL' hndL,
        srDeletePair_prefs_untouched hxa hxf]

theorem srPhase1Deletions_fst (favourite : Nat) :
    ∀ (L : List Nat) (s : SRState) (free : List Nat),
      (srPhase1Deletions favourite L s free).1 = srDelFold favourite L s := by
  intro L
  induction L with
  | nil => intro s free; rfl
  | cons a L ih =>
    intro s free
    show (srPhase1Deletions favourite L (srDeletePair s a favourite) _).1 = _
    rw [ih, srDelFold_cons]

theorem srPhase1Deletions_snd_sub (favourite : Nat) :
    ∀ (L : List Nat) (s : SRState) (free : List Nat),
      ∀ x ∈ (srPhase1Deletions favourite L s free).2, x ∈ free := by
  intro L
  induction L with
  | nil => intro s free x hx; exact hx
  | cons a L ih =>
    intro s free x hx
    have hx' := ih (srDeletePair s a favourite) _ x hx
    split at hx'
    · exact jsRemoveFirst_subset free a x hx'
    · exact hx'


/-- The loop invariant of `firstPhase`.  `free` is the current worklist.
`holdLast`/`holdHead` say: whoever holds a proposal holds it from the
last entry of their own list, and the proposer has the holder at the
head of theirs. -/
structure SR1Inv (players free : List Nat) (s : SRState) : Prop where
  freeSub : ∀ p ∈ free, p ∈ players
  clos : ∀ p ∈ players, ∀ q ∈ s.prefs p, q ∈ players
  nodup : ∀ p ∈ players, (s.prefs p).Nodup
  selfless : ∀ p ∈ players, p ∉ s.prefs p
  mutp : ∀ p ∈ players, ∀ q ∈ s.prefs p, p ∈ s.prefs q
  matchDom : ∀ q x, s.matching q = some x → q ∈ players ∧ x ∈ players
  holdLast : ∀ q x, s.matching q = some x → (s.prefs q).getLast? = some x
  holdHead : ∀ q x, s.matching q = some x → (s.prefs x).head? = some q

theorem srSetMatch_matching (s : SRState) (p : Nat) (m : Option Nat) :
    (srSetMatch s p m).matching = Function.update s.matching p m := rfl

/-- Core of the phase-1 step: one accepted proposal followed by the
successor deletions preserves the invariant, for any new free list that
stays inside the player set. -/
theorem srPhase1_core_inv (players oldfree free' : List Nat)
    (player favourite : Nat) (B A : List Nat) (s : SRState)
    (hinv : SR1Inv players oldfree s)
    (hpM : player ∈ players)
    (hBA : s.prefs favourite = B ++ player :: A)
    (hplHead : (s.prefs player).head? = some favourite)
    (hfreeSub : ∀ x ∈ free', x ∈ players) :
    SR1Inv players free'
      (srDelFold favourite A (srSetMatch s favourite (some player))) := by
  have hfavP : favourite ∈ s.prefs player := mem_of_head?_eq hplHead
  have hfM : favourite ∈ players := hinv.clos player hpM favourite hfavP
  have hfp : favourite ≠ player := fun h => hinv.selfless player hpM (h ▸ hfavP)
  have hndF : (s.prefs favourite).Nodup := hinv.nodup favourite hfM
  have hndBA : (B ++ player :: A).Nodup := hBA ▸ hndF
  have hpA : player ∉ A :=
    (List.nodup_cons.mp (List.Nodup.of_append_right hndBA)).1
  have hAnd : A.Nodup :=
    (List.nodup_cons.mp (List.Nodup.of_append_right hndBA)).2
  have hAsub : ∀ a ∈ A, a ∈ s.prefs favourite := by
    intro a ha
    rw [hBA]
    exact List.mem_append_right _ (List.mem_cons_of_mem _ ha)
  have hfavA : favourite ∉ A := fun h => hinv.selfless favourite hfM (hAsub _ h)
  have hprefsFav :
      (srDelFold favourite A (srSetMatch s favourite (some player))).prefs favourite =
        B ++ [player] := by
    rw [srDelFold_prefs_fav favourite A _ hfavA, srSetMatch_prefs, hBA]
    exact filter_not_mem_decomp hndBA
  have hmatch :
      (srDelFold favourite A (srSetMatch s favourite (some player))).matching =
        Function.update s.matching favourite (some player) := by
    rw [srDelFold_matching, srSetMatch_matching]
  refine ⟨hfreeSub, ?_, ?_, ?_, ?_, ?_, ?_, ?_⟩
  · -- clos
    intro p hp q hq
    have h1 := (srDelFold_mem favourite A _ p q).mp hq
    rw [srSetMatch_prefs] at h1
    exact hinv.clos p hp q h1.1
  · -- nodup
    intro p hp
    apply srDelFold_nodup
    rw [srSetMatch_prefs]
    exact hinv.nodup p hp
  · -- selfless
    intro p hp hmem
    have h1 := (srDelFold_mem favourite A _ p p).mp hmem
    rw [srSetMatch_prefs] at h1
    exact hinv.selfless p hp h1.1
  · -- mut
    intro p hp q hq
    have h1 := (srDelFold_mem favourite A _ p q).mp hq
    rw [srSetMatch_prefs] at h1
    have h2 := hinv.mutp p hp q h1.1
    apply (srDelFold_mem favourite A _ q p).mpr
    rw [srSetMatch_prefs]
    exact ⟨h2, h1.2.2, h1.2.1⟩
  · -- matchDom
    intro q x hqx
    rw [hmatch] at hqx
    by_cases hq : q = favourite
    · subst hq
      rw [Function.update_same] at hqx
      cases hqx
      exact ⟨hfM, hpM⟩
    · rw [Function.update_noteq hq] at hqx
      exact hinv.matchDom q x hqx
  · -- holdLast
    intro q x hqx
    rw [hmatch] at hqx
    by_cases hq : q = favourite
    · subst hq
      rw [Function.update_same] at hqx
      cases hqx
      rw [hprefsFav]
      exact List.getLast?_concat _
    · rw [Function.update_noteq hq] at hqx
      have hold := hinv.holdLast q x hqx
      by_cases hqA : q ∈ A
      · rw [srDelFold_prefs_inL favourite A _ q hq hqA hAnd, srSetMatch_prefs]
        apply getLast?_filter_pos hold
        have hxf : x ≠ favourite := by
          intro he
          subst he
          have hhead := hinv.holdHead q x hqx
          rw [hBA] at hhead
          cases B with
          | nil =>
            simp only [List.nil_append, List.head?_cons, Option.some.injEq] at hhead
            exact hpA (hhead ▸ hqA)
          | cons b B2 =>
            simp only [List.cons_append, List.head?_cons, Option.some.injEq] at hhead
            exact (List.disjoint_of_nodup_append hndBA)
              (hhead ▸ List.mem_cons_self b B2) (List.mem_cons_of_mem _ hqA)
        simpa using hxf
      · rw [srDelFold_prefs_untouched favourite A _ q hq hqA, srSetMatch_prefs]
        exact hold
  · -- holdHead
    intro q x hqx
    rw [hmatch] at hqx
    by_cases hq : q = favourite
    · subst hq
      rw [Function.update_same] at hqx
      cases hqx
      rw [srDelFold_prefs_untouched _ A _ _ (Ne.symm hfp) hpA,
        srSetMatch_prefs]
      exact hplHead
    · rw [Function.update_noteq hq] at hqx
      have hold := hinv.holdHead q x hqx
      by_cases hxf : x = favourite
      · subst hxf
        rw [hprefsFav]
        rw [hBA] at hold
        cases B with
        | nil => simpa using hold
        | cons b B2 => simpa using hold
      · by_cases hxA : x ∈ A
        · rw [srDelFold_prefs_inL favourite A _ x hxf hxA hAnd, srSetMatch_prefs]
          apply head?_filter_pos hold
          simpa using hq
        · rw [srDelFold_prefs_untouched favourite A _ x hxf hxA, srSetMatch_prefs]
          exact hold

/-- One `firstPhase` worklist step preserves the invariant. -/
theorem srPhase1Step_inv (players rest : List Nat) (player favourite : Nat)
    (rst : List Nat) (s : SRState)
    (hinv : SR1Inv players (rest ++ [player]) s)
    (hpl : s.prefs player = favourite :: rst) :
    SR1Inv players (srPhase1Step favourite player rest s).2
      (srPhase1Step favourite player rest s).1 := by
  have hpM : player ∈ players := hinv.freeSub player (by simp)
  have hplHead : (s.prefs player).head? = some favourite := by rw [hpl]; rfl
  have hfavP : favourite ∈ s.prefs player := mem_of_head?_eq hplHead
  have hpF : player ∈ s.prefs favourite := hinv.mutp player hpM favourite hfavP
  obtain ⟨B, A, hBA, hpB, hslice⟩ := firstOcc_split hpF
  have hsuccA : playerGetSuccessors
      ((srSetMatch s favourite (some player)).prefs favourite)
      ((srSetMatch s favourite (some player)).matching favourite) = A := by
    rw [srSetMatch_prefs, srSetMatch_matching, Function.update_same]
    show jsSliceAfter (s.prefs favourite) (jsIndexOf (s.prefs favourite) player) = A
    exact hslice
  cases hm : s.matching favourite with
  | none =>
    have hstep1 : (srPhase1Step favourite player rest s).1 =
        srDelFold favourite A (srSetMatch s favourite (some player)) := by
      unfold srPhase1Step
      simp only [hm]
      rw [srPhase1Deletions_fst, hsuccA]
    have hstep2 : ∀ x ∈ (srPhase1Step favourite player rest s).2, x ∈ players := by
      intro x hx
      unfold srPhase1Step at hx
      simp only [hm] at hx
      have hx2 := srPhase1Deletions_snd_sub favourite _ _ rest x hx
      exact hinv.freeSub x (List.mem_append_left _ hx2)
    rw [hstep1]
    exact srPhase1_core_inv players (rest ++ [player]) _ player favourite B A s
      hinv hpM hBA hplHead hstep2
  | some current =>
    have hcollapse : srSetMatch (srSetMatch s favourite none) favourite (some player) =
        srSetMatch s favourite (some player) := by
      show SRState.mk s.prefs
          (Function.update (Function.update s.matching favourite none) favourite
            (some player)) = SRState.mk s.prefs _
      rw [Function.update_idem]
    have hstep1 : (srPhase1Step favourite player rest s).1 =
        srDelFold favourite A (srSetMatch s favourite (some player)) := by
      unfold srPhase1Step
      simp only [hm]
      rw [hcollapse, srPhase1Deletions_fst, hsuccA]
    have hstep2 : ∀ x ∈ (srPhase1Step favourite player rest s).2, x ∈ players := by
      intro x hx
      unfold srPhase1Step at hx
      simp only [hm] at hx
      rw [hcollapse] at hx
      have hx2 := srPhase1Deletions_snd_sub favourite _ _ (jsPush rest current) x hx
      rcases List.mem_append.mp hx2 with hc | hc
      · exact hinv.freeSub x (List.mem_append_left _ hc)
      · have hcur := (hinv.matchDom favourite current hm).2
        cases List.mem_singleton.mp hc
        exact hcur
    rw [hstep1]
    exact srPhase1_core_inv players (rest ++ [player]) _ player favourite B A s
      hinv hpM hBA hplHead hstep2

/-- Phase 1 preserves the invariant all the way to an empty worklist. -/
theorem srPhase1_inv (players : List Nat) :
    ∀ (fuel : Nat) (free : List Nat) (s s1 : SRState),
      SR1Inv players free s → srPhase1 fuel free s = some s1 →
      SR1Inv players [] s1 := by
  intro fuel
  induction fuel with
  | zero => intro free s s1 _ h; cases h
  | succ n ih =>
    intro free s s1 hinv h
    have h1 : (match jsPop free with
        | none => some s
        | some (rest, player) =>
          match s.prefs player with
          | [] => srPhase1 n rest s
          | favourite :: _ =>
            srPhase1 n (srPhase1Step favourite player rest s).2
              (srPhase1Step favourite player rest s).1) = some s1 := h
    cases hpop : jsPop free with
    | none =>
      rw [hpop] at h1
      have hfree : free = [] := jsPop_eq_none_iff.mp hpop
      subst hfree
      have h2 : some s = some s1 := h1
      cases h2
      exact hinv
    | some p =>
      obtain ⟨rest, player⟩ := p
      have hfree : free = rest ++ [player] := jsPop_eq_some hpop
      subst hfree
      rw [hpop] at h1
      have h2 : (match s.prefs player with
          | [] => srPhase1 n rest s
          | favourite :: _ =>
            srPhase1 n (srPhase1Step favourite player rest s).2
              (srPhase1Step favourite player rest s).1) = some s1 := h1
      cases hpl : s.prefs player with
      | nil =>
        rw [hpl] at h2
        have h3 : srPhase1 n rest s = some s1 := h2
        have hinv2 : SR1Inv players rest s :=
          ⟨fun x hx => hinv.freeSub x (List.mem_append_left _ hx),
            hinv.clos, hinv.nodup, hinv.selfless, hinv.mutp, hinv.matchDom,
            hinv.holdLast, hinv.holdHead⟩
        exact ih rest s s1 hinv2 h3
      | cons favourite rst =>
        rw [hpl] at h2
        have h3 : srPhase1 n (srPhase1Step favourite player rest s).2
            (srPhase1Step favourite player rest s).1 = some s1 := h2
        exact ih _ _ s1 (srPhase1Step_inv players rest player favourite rst s hinv hpl) h3

/-- A freshly constructed valid instance satisfies the phase-1
invariant with the full player list as the worklist. -/
theorem SR1Inv_init (players : List Nat) (s : SRState)
    (hvalid : srValidInstance players s) (hm0 : ∀ p, s.matching p = none) :
    SR1Inv players players s := by
  obtain ⟨hndP, hv⟩ := hvalid
  refine ⟨fun p hp => hp, ?_, ?_, ?_, ?_, ?_, ?_, ?_⟩
  · intro p hp q hq
    exact (hv p hp).2.2.1 q hq
  · intro p hp
    exact (hv p hp).1
  · intro p hp
    exact (hv p hp).2.1
  · intro p hp q hq
    have hqP : q ∈ players := (hv p hp).2.2.1 q hq
    have hqp : q ≠ p := fun h => (hv p hp).2.1 (h ▸ hq)
    exact (hv q hqP).2.2.2 p hp (fun h => hqp h.symm)
  · intro q x hqx
    rw [hm0 q] at hqx
    cases hqx
  · intro q x hqx
    rw [hm0 q] at hqx
    cases hqx
  · intro q x hqx
    rw [hm0 q] at hqx
    cases hqx


/-- The part of the invariant that survives phase 2: closure of the
preference lists over the player set, and mutuality of membership. -/
structure SR2Inv (players : List Nat) (s : SRState) : Prop where
  clos : ∀ p ∈ players, ∀ q ∈ s.prefs p, q ∈ players
  mutp : ∀ p ∈ players, ∀ q ∈ s.prefs p, p ∈ s.prefs q

theorem srDeletePair_SR2Inv (players : List Nat) (s : SRState) (a b : Nat)
    (h : SR2Inv players s) : SR2Inv players (srDeletePair s a b) := by
  refine ⟨?_, ?_⟩
  · intro p hp q hq
    exact h.clos p hp q (srDeletePair_prefs_subset s a b p q hq)
  · intro p hp q hq
    have h1 := (srDeletePair_mem s a b p q).mp hq
    have h2 := h.mutp p hp q h1.1
    apply (srDeletePair_mem s a b q p).mpr
    refine ⟨h2, ?_, ?_⟩
    · intro hc
      exact h1.2.2 ⟨hc.2, hc.1⟩
    · intro hc
      exact h1.2.1 ⟨hc.2, hc.1⟩

theorem srApplyDeletions_SR2Inv (players : List Nat) :
    ∀ (prs : List (Nat × Nat)) (s : SRState),
      SR2Inv players s → SR2Inv players (srApplyDeletions s prs) := by
  intro prs
  induction prs with
  | nil => intro s h; exact h
  | cons pr rest ih =>
    intro s h
    obtain ⟨a, b⟩ := pr
    show SR2Inv players (srApplyDeletions (srDeletePair s a b) rest)
    exact ih _ (srDeletePair_SR2Inv players s a b h)

/-- The rotation-elimination loop of `secondPhase` preserves `SR2Inv`;
a `false` flag means every player ended with at most one preference,
a `true` flag means some player's list emptied. -/
theorem srPhase2Loop_out (players : List Nat) :
    ∀ (fuel : Nat) (s s2 : SRState) (w : Bool),
      SR2Inv players s → srPhase2Loop fuel players s = some (s2, w) →
      SR2Inv players s2 ∧
        (w = false → ∀ p ∈ players, (s2.prefs p).length ≤ 1) ∧
        (w = true → ∃ e ∈ players, s2.prefs e = []) := by
  intro fuel
  induction fuel with
  | zero => intro s s2 w _ h; cases h
  | succ n ih =>
    intro s s2 w hinv h
    have h1 : (match players.find? (fun p => (s.prefs p).length > 1) with
        | none => some (s, false)
        | some player =>
          match srLocateCycle (n + 1) s player with
          | none => none
          | some cycle =>
            if players.any (fun p =>
                ((srApplyDeletions s (srPairsToDelete s cycle)).prefs p).length = 0)
            then some (srApplyDeletions s (srPairsToDelete s cycle), true)
            else srPhase2Loop n players
              (srApplyDeletions s (srPairsToDelete s cycle))) = some (s2, w) := h
    cases hfind : players.find? (fun p => (s.prefs p).length > 1) with
    | none =>
      rw [hfind] at h1
      have h2 : some (s, false) = some (s2, w) := h1
      injection h2 with h3
      injection h3 with h4 h5
      subst h4
      subst h5
      refine ⟨hinv, ?_, ?_⟩
      · intro _ p hp
        have hnp := List.find?_eq_none.mp hfind p hp
        simp only [decide_eq_true_eq] at hnp
        omega
      · intro hw
        cases hw
    | some player =>
      rw [hfind] at h1
      have h1b : (match srLocateCycle (n + 1) s player with
          | none => none
          | some cycle =>
            if players.any (fun p =>
                ((srApplyDeletions s (srPairsToDelete s cycle)).prefs p).length = 0)
            then some (srApplyDeletions s (srPairsToDelete s cycle), true)
            else srPhase2Loop n players
              (srApplyDeletions s (srPairsToDelete s cycle))) = some (s2, w) := h1
      cases hcyc : srLocateCycle (n + 1) s player with
      | none =>
        rw [hcyc] at h1b
        cases h1b
      | some cycle =>
        rw [hcyc] at h1b
        have h2 : (if players.any (fun p =>
              ((srApplyDeletions s (srPairsToDelete s cycle)).prefs p).length = 0)
            then some (srApplyDeletions s (srPairsToDelete s cycle), true)
            else srPhase2Loop n players
              (srApplyDeletions s (srPairsToDelete s cycle))) = some (s2, w) := h1b
        cases hany : players.any (fun p =>
            ((srApplyDeletions s (srPairsToDelete s cycle)).prefs p).length = 0) with
        | true =>
          rw [hany, if_pos rfl] at h2
          injection h2 with h3
          injection h3 with h4 h5
          subst h4
          subst h5
          refine ⟨srApplyDeletions_SR2Inv players _ s hinv, ?_, ?_⟩
          · intro hw
            cases hw
          · intro _
            obtain ⟨e, he, hlen⟩ := List.any_eq_true.mp hany
            refine ⟨e, he, ?_⟩
            apply List.length_eq_zero.mp
            simpa using hlen
        | false =>
          rw [hany, if_neg (by simp)] at h2
          exact ih _ s2 w (srApplyDeletions_SR2Inv players _ s hinv) h2


/-- C3 (counterexample).  On Irving's classic 6-player no-stable-matching
instance the best-effort matching returned by `solve` is *asymmetric*:
player 3 is matched to player 4, but player 4 is matched to player 5
(players 0, 1, 2 get `null`; 3, 4, 5 form a one-way 3-cycle), while the
instance passes construction and the no-stable-matching diagnostic
fires. -/
theorem c3_sr_symmetry_counterexample :
    srValidInstance [0, 1, 2, 3, 4, 5] irving6State ∧
    (srSolve 100 [0, 1, 2, 3, 4, 5] irving6State).map
        (fun r => ([0, 1, 2, 3, 4, 5].map r.1.matching, r.2)) =
      some ([none, none, none, some 4, some 5, some 3], true) := by
  refine ⟨by decide, by decide⟩

/-- C3 (amended).  For every Stable Roommates instance accepted at
construction (duplicate-free full preference lists, fresh `null`
matchings), in a terminating run of `solve` in which **every** player's
returned match is non-null, the matching is symmetric: whenever player
`a` is matched to player `b`, player `b` is matched to player `a`.
(The unrestricted claim fails when some players end up unmatched:
see the counterexample.) -/
theorem c3_matching_symmetry (fuel : Nat) (players : List Nat)
    (s sf : SRState) (w : Bool)
    (hvalid : srValidInstance players s)
    (hm0 : ∀ p, s.matching p = none)
    (hsolve : srSolve fuel players s = some (sf, w))
    (hnn : ∀ p ∈ players, sf.matching p ≠ none) :
    ∀ a ∈ players, ∀ b, sf.matching a = some b → sf.matching b = some a := by
  have h1 : (match srPhase1 fuel players s with
      | none => none
      | some s1 =>
        if players.any (fun p => (s1.prefs p).length > 1) then
          match srPhase2Loop fuel players s1 with
          | none => none
          | some (s2, warned2) =>
            some (srFinalMatching players s2,
              (players.any (fun p => (s1.prefs p).length = 0)) || warned2)
        else some (s1, players.any (fun p => (s1.prefs p).length = 0)))
      = some (sf, w) := hsolve
  cases hp1 : srPhase1 fuel players s with
  | none =>
    rw [hp1] at h1
    cases h1
  | some s1 =>
    rw [hp1] at h1
    have hinv1 : SR1Inv players [] s1 :=
      srPhase1_inv players fuel players s s1 (SR1Inv_init players s hvalid hm0) hp1
    have h2 : (if players.any (fun p => (s1.prefs p).length > 1) then
          match srPhase2Loop fuel players s1 with
          | none => none
          | some (s2, warned2) =>
            some (srFinalMatching players s2,
              (players.any (fun p => (s1.prefs p).length = 0)) || warned2)
        else some (s1, players.any (fun p => (s1.prefs p).length = 0)))
        = some (sf, w) := h1
    cases hany : players.any (fun p => (s1.prefs p).length > 1) with
    | false =>
      rw [hany, if_neg (by simp)] at h2
      injection h2 with h3
      injection h3 with h4 h5
      subst h4
      intro a ha b hab
      have hbP : b ∈ players := (hinv1.matchDom a b hab).2
      have hhead : (s1.prefs b).head? = some a := hinv1.holdHead a b hab
      cases hb : s1.matching b with
      | none => exact absurd hb (hnn b hbP)
      | some y =>
        have hlast : (s1.prefs b).getLast? = some y := hinv1.holdLast b y hb
        have hlen : (s1.prefs b).length ≤ 1 := by
          have hf := List.any_eq_false.mp hany b hbP
          simp only [decide_eq_true_eq] at hf
          omega
        have hsing : s1.prefs b = [a] := eq_singleton_of_head?_length hhead hlen
        rw [hsing, List.getLast?_singleton, Option.some.injEq] at hlast
        rw [hlast]
    | true =>
      rw [hany, if_pos rfl] at h2
      cases hp2 : srPhase2Loop fuel players s1 with
      | none =>
        rw [hp2] at h2
        cases h2
      | some r =>
        obtain ⟨s2, w2⟩ := r
        rw [hp2] at h2
        have h3 : some (srFinalMatching players s2,
            (players.any (fun p => (s1.prefs p).length = 0)) || w2)
            = some (sf, w) := h2
        injection h3 with h4
        injection h4 with h5 h6
        subst h5
        have hout := srPhase2Loop_out players fuel s1 s2 w2
          ⟨hinv1.clos, hinv1.mutp⟩ hp2
        have hndP : players.Nodup := hvalid.1
        cases hw2 : w2 with
        | true =>
          obtain ⟨e, he, hemp⟩ := hout.2.2 hw2
          exfalso
          apply hnn e he
          rw [srFinalMatching_matching_mem s2 players e hndP he, hemp]
          rfl
        | false =>
          have hlen := hout.2.1 hw2
          intro a ha b hab
          rw [srFinalMatching_matching_mem s2 players a hndP ha] at hab
          have hbA : b ∈ s2.prefs a := mem_of_head?_eq hab
          have hbP : b ∈ players := hout.1.clos a ha b hbA
          have haB : a ∈ s2.prefs b := hout.1.mutp a ha b hbA
          have hsing : s2.prefs b = [a] :=
            eq_singleton_of_mem_length haB (hlen b hbP)
          rw [srFinalMatching_matching_mem s2 players b hndP hbP, hsing]
          rfl

/-- Witness: the symmetry theorem applied to the fully matched C5
instance at the concrete pair `(0, 1)`. -/
theorem c3_matching_symmetry_witness :
    (srSolve 200 [0, 1, 2, 3] c5State).map (fun r => r.1.matching 1) =
      some (some 0) := by
  have hval : (srSolve 200 [0, 1, 2, 3] c5State).map
      (fun r => ([0, 1, 2, 3].map r.1.matching, r.2)) =
    some ([some 1, some 0, some 3, some 2], false) := by decide
  cases hsolve : srSolve 200 [0, 1, 2, 3] c5State with
  | none =>
    rw [hsolve] at hval
    cases hval
  | some r =>
    obtain ⟨sf, w⟩ := r
    rw [hsolve] at hval
    simp only [Option.map_some', Option.some.injEq, Prod.mk.injEq,
      List.map_cons, List.map_nil, List.cons.injEq, and_true] at hval
    obtain ⟨⟨hm0, hm1, hm2, hm3⟩, _⟩ := hval
    have hnn : ∀ p ∈ [0, 1, 2, 3], sf.matching p ≠ none := by
      intro p hp
      fin_cases hp
      · rw [hm0]; exact fun hc => by cases hc
      · rw [hm1]; exact fun hc => by cases hc
      · rw [hm2]; exact fun hc => by cases hc
      · rw [hm3]; exact fun hc => by cases hc
    have hsym := c3_matching_symmetry 200 [0, 1, 2, 3] c5State sf w
      (by decide) (fun p => rfl) hsolve hnn 0 (by simp) 1 hm0
    simp only [Option.map_some', Option.some.injEq]
    exact hsym


end SpartaMatching
